import Mathlib

/-!
# PathOS: the loop-quantum-gravity spin-network engine

A shallow embedding of `src/infastructure/UserInterface/QuantumLoopTheory.c`,
and, in the namespace `ST`, of the Schwarzschild entropy formulas of
`src/infastructure/UserInterface/ST.c`, which has its own constants.

Conventions of the embedding.

* C `double` is read as an exact real number (`ℝ`) and `double complex` as an
  exact complex number (`ℂ`); rounding, infinities and NaN are not modelled.
  `sqrt` is `Real.sqrt`; every use below that a theorem relies on has a
  non-negative argument.
* The two properties that turn on overflow (the holonomies after a step with
  time step 0, and the Hamiltonian constraint after evolution) are stated over
  a second embedding, in the namespace `Ieee`, in which a `double` is a finite
  number, an infinity or NaN.
* C `int` is `Int`; no value in the program comes near the 32-bit range.
* A C array together with its element count (`nodes`/`num_nodes`,
  `edges`/`num_edges`) is a `List`; the count is the length of the list.
  A loop `for (i = 0; i < n; i++)` over such an array is a left fold over the
  list, so accumulation order is the order of the source.
* Memory obtained from `malloc` and not yet written is `none`.
* The macros of the source (`PI`, `HBAR`, ...) are the decimal literals the
  source gives them; in particular `PI` is the literal, not the number π.
-/

namespace LQG

/-! ## Physical constants -/

/-- The macro `#define PI 3.14159265358979323846` -/
noncomputable def PI : ℝ := 3.14159265358979323846

/-- The macro `#define HBAR 1.054571817e-34` -/
noncomputable def HBAR : ℝ := 1.054571817e-34

/-- The macro `#define G 6.67430e-11` -/
noncomputable def G : ℝ := 6.67430e-11

/-- The macro `#define C 299792458.0` -/
noncomputable def C : ℝ := 299792458.0

/-- The macro `#define L_PLANCK 1.616255e-35` -/
noncomputable def L_PLANCK : ℝ := 1.616255e-35

/-- The macro `#define M_PLANCK 2.176434e-8` -/
noncomputable def M_PLANCK : ℝ := 2.176434e-8

/-- The macro `#define T_PLANCK 5.391247e-44` -/
noncomputable def T_PLANCK : ℝ := 5.391247e-44

/-- The macro `#define GAMMA 0.23753295756592` -/
noncomputable def GAMMA : ℝ := 0.23753295756592

/-! ## Data structures -/

/-- The struct `SpinNode`. `incident_edges` is the block of `int` slots obtained from
`malloc`; a slot is `none` until the program writes it. The fields `area` and
`volume` are never written by the program. -/
structure SpinNode where
  id : Int
  amplitude : ℂ
  valence : Int
  incident_edges : List (Option Int)
  area : Option ℝ
  volume : Option ℝ
  j_val : ℝ

/-- The struct `SpinEdge`. -/
structure SpinEdge where
  id : Int
  source : Int
  target : Int
  j : ℝ
  length : ℝ
  area : ℝ
  orientation : Int
  holonomy : ℂ

/-- The struct `SpinFoam`. The arrays `nodes` and `edges` carry their own lengths, which
are the fields `num_nodes` and `num_edges` of the C struct. -/
structure SpinFoam where
  num_faces : Int
  nodes : List SpinNode
  edges : List SpinEdge
  amplitude : ℂ
  action : ℝ

/-- The field `num_nodes`: the number of elements of `nodes`. -/
def SpinFoam.num_nodes (foam : SpinFoam) : Int := foam.nodes.length

/-- The field `num_edges`: the number of elements of `edges`. -/
def SpinFoam.num_edges (foam : SpinFoam) : Int := foam.edges.length

/-- The struct `QuantumSpectrum`. -/
structure QuantumSpectrum where
  n : Int
  area : ℝ
  volume : ℝ
  degeneracy : ℝ

/-! ## Mathematical functions -/

/-- The function `area_eigenvalue`: `8.0 * PI * GAMMA * HBAR * G * sqrt(j * (j + 1.0)) / (C * C * C)`. -/
noncomputable def area_eigenvalue (j : ℝ) : ℝ :=
  8.0 * PI * GAMMA * HBAR * G * Real.sqrt (j * (j + 1.0)) / (C * C * C)

/-- The function `volume_eigenvalue`: `L_PLANCK^3 * sqrt(fabs(j1 * j2 * j3))`. -/
noncomputable def volume_eigenvalue (j1 j2 j3 : ℝ) : ℝ :=
  L_PLANCK * L_PLANCK * L_PLANCK * Real.sqrt |j1 * j2 * j3|

/-- The function `su2_element`: `cos_theta + sin_theta * (pauli_x + pauli_y + pauli_z)` with
`pauli_a = phi_a * I`. -/
noncomputable def su2_element (theta phi_x phi_y phi_z : ℝ) : ℂ :=
  let cos_theta : ℝ := Real.cos theta
  let sin_theta : ℝ := Real.sin theta
  let pauli_x : ℂ := (phi_x : ℂ) * Complex.I
  let pauli_y : ℂ := (phi_y : ℂ) * Complex.I
  let pauli_z : ℂ := (phi_z : ℂ) * Complex.I
  (cos_theta : ℂ) + (sin_theta : ℂ) * (pauli_x + pauli_y + pauli_z)

/-- Body of the first loop of `spin_network_amplitude`:
`amplitude *= (2.0 * foam->edges[i].j + 1.0)`. -/
noncomputable def amplitude_edge_step (amplitude : ℂ) (e : SpinEdge) : ℂ :=
  amplitude * ((2.0 * e.j + 1.0 : ℝ) : ℂ)

/-- Body of the second loop of `spin_network_amplitude`:
`if (valence >= 3) amplitude *= sqrt(j_val + 1.0)`. -/
noncomputable def amplitude_node_step (amplitude : ℂ) (nd : SpinNode) : ℂ :=
  if nd.valence ≥ 3 then amplitude * ((Real.sqrt (nd.j_val + 1.0) : ℝ) : ℂ) else amplitude

/-- The function `spin_network_amplitude`. -/
noncomputable def spin_network_amplitude (foam : SpinFoam) : ℂ :=
  let amplitude : ℂ := 1.0 + 0.0 * Complex.I
  let amplitude := foam.edges.foldl amplitude_edge_step amplitude
  foam.nodes.foldl amplitude_node_step amplitude

/-- The test of `regge_action`: edges `i` and `j` share a node. -/
def share_node (ei ej : SpinEdge) : Prop :=
  ei.source = ej.source ∨ ei.source = ej.target ∨
  ei.target = ej.source ∨ ei.target = ej.target

instance (ei ej : SpinEdge) : Decidable (share_node ei ej) := by
  unfold share_node; infer_instance

/-- Inner loop of `regge_action` for a fixed edge `i`; `rest` is
`edges[i+1 .. num_edges)`. -/
noncomputable def regge_inner (ei : SpinEdge) (rest : List SpinEdge) (action : ℝ) : ℝ :=
  rest.foldl (fun action ej =>
    if share_node ei ej then
      let deficit_angle : ℝ := PI / 3.0
      let area : ℝ := area_eigenvalue ei.j
      action + area * deficit_angle
    else action) action

/-- Outer loop of `regge_action` over the edges from index `i` on. -/
noncomputable def regge_outer : List SpinEdge → ℝ → ℝ
  | [], action => action
  | ei :: rest, action => regge_outer rest (regge_inner ei rest action)

/-- The function `regge_action`. -/
noncomputable def regge_action (foam : SpinFoam) : ℝ :=
  regge_outer foam.edges 0.0

/-- The test of `curvature_operator` on the edges `i < j`. -/
def curvature_pair (node_id : Int) (ei ej : SpinEdge) : Prop :=
  (ei.source = node_id ∧ ej.target = node_id) ∨
  (ei.target = node_id ∧ ej.source = node_id)

instance (node_id : Int) (ei ej : SpinEdge) : Decidable (curvature_pair node_id ei ej) := by
  unfold curvature_pair; infer_instance

/-- Inner loop of `curvature_operator` for a fixed edge `i`. -/
noncomputable def curvature_inner (node_id : Int) (ei : SpinEdge) (rest : List SpinEdge)
    (curvature : ℂ) : ℂ :=
  rest.foldl (fun curvature ej =>
    if curvature_pair node_id ei ej then curvature + ei.holonomy * ej.holonomy
    else curvature) curvature

/-- Outer loop of `curvature_operator`. -/
noncomputable def curvature_outer (node_id : Int) : List SpinEdge → ℂ → ℂ
  | [], curvature => curvature
  | ei :: rest, curvature =>
      curvature_outer node_id rest (curvature_inner node_id ei rest curvature)

/-- The function `curvature_operator`. -/
noncomputable def curvature_operator (foam : SpinFoam) (node_id : Int) : ℂ :=
  curvature_outer node_id foam.edges (0.0 + 0.0 * Complex.I)

/-! ## Spin network construction -/

/-- The node written by one pass of the node loop of a builder: id `i`,
amplitude `1.0 + 0.0*I`, valence 3, a fresh block of three `int` slots, and
spin `0.5 + i * spin_step`. The fields `area` and `volume` stay unwritten. -/
noncomputable def init_node (spin_step : ℝ) (i : Nat) : SpinNode :=
  { id := (i : Int)
    amplitude := 1.0 + 0.0 * Complex.I
    valence := 3
    incident_edges := List.replicate 3 none
    area := none
    volume := none
    j_val := 0.5 + ((i : Int) : ℝ) * spin_step }

/-- The edge written by one pass of the edge loop of a builder from row `i` of
`edge_definitions`; `holonomy` is the value of the call of `su2_element`
in the builder. -/
noncomputable def init_edge (holonomy : ℂ) (i : Nat) (d : Int × Int × Int) : SpinEdge :=
  let j : ℝ := 0.5 * ((d.2.2 + 1 : Int) : ℝ)
  { id := (i : Int)
    source := d.1
    target := d.2.1
    j := j
    length := j * L_PLANCK
    area := area_eigenvalue j
    orientation := 1
    holonomy := holonomy }

/-- The table `edge_definitions` of `create_tetrahedral_network`. -/
def tetrahedral_edge_definitions : List (Int × Int × Int) :=
  [(0, 1, 0), (0, 2, 1), (0, 3, 1), (1, 2, 2), (1, 3, 2), (2, 3, 3)]

/-- The table `edge_definitions` of `create_cubical_network`. -/
def cubical_edge_definitions : List (Int × Int × Int) :=
  [(0, 1, 0), (1, 2, 0), (2, 3, 0), (3, 0, 0),
   (4, 5, 1), (5, 6, 1), (6, 7, 1), (7, 4, 1),
   (0, 4, 2), (1, 5, 2), (2, 6, 2), (3, 7, 2)]

/-- Inner loop of the block that sets the incident edges, for node index `i`: the state
is the slot block and `edge_count`; edge index `e` is stored at slot
`edge_count` when edge `e` touches `i`. (A store past the end of the block
would be a heap overflow in C; `List.set` ignores it. It does not occur for
the tetrahedron.) -/
def fill_incident_edges (edges : List SpinEdge) (i : Int) (slots : List (Option Int)) :
    List (Option Int) :=
  (edges.enum.foldl
    (fun (st : List (Option Int) × Nat) (p : Nat × SpinEdge) =>
      if p.2.source = i ∨ p.2.target = i then (st.1.set st.2 (some (p.1 : Int)), st.2 + 1)
      else st)
    (slots, 0)).1

/-- The loop that sets the incident edges of every node. -/
def set_incident_edges (nodes : List SpinNode) (edges : List SpinEdge) : List SpinNode :=
  nodes.enum.map (fun p =>
    { p.2 with incident_edges := fill_incident_edges edges (p.1 : Int) p.2.incident_edges })

/-- The last two assignments of a builder and of `evolve_spin_network`:
`foam->amplitude = spin_network_amplitude(foam); foam->action = regge_action(foam);`. -/
noncomputable def refresh_cache (foam : SpinFoam) : SpinFoam :=
  let foam : SpinFoam := { foam with amplitude := spin_network_amplitude foam }
  { foam with action := regge_action foam }

/-- The function `create_tetrahedral_network`. The fields `amplitude` and `action` are
unwritten until the final two assignments, which do not read them; the
placeholder `0` stands for the unwritten memory. -/
noncomputable def create_tetrahedral_network : SpinFoam :=
  let nodes := (List.range 4).map (init_node 0.5)
  let edges := tetrahedral_edge_definitions.enum.map
    (fun p => init_edge (su2_element (PI / 4) 0.5 0.5 0.5) p.1 p.2)
  let nodes := set_incident_edges nodes edges
  refresh_cache { num_faces := 4, nodes := nodes, edges := edges, amplitude := 0, action := 0 }

/-- The function `create_cubical_network`. This builder has no loop that sets the incident edges. -/
noncomputable def create_cubical_network : SpinFoam :=
  let nodes := (List.range 8).map (init_node 0.25)
  let edges := cubical_edge_definitions.enum.map
    (fun p => init_edge (su2_element (PI / 6) 0.3 0.3 0.4) p.1 p.2)
  refresh_cache { num_faces := 6, nodes := nodes, edges := edges, amplitude := 0, action := 0 }

/-- Body of the loop of `generate_spectrum` for the quantum number `n`. -/
noncomputable def spectrum_entry (n : Nat) : QuantumSpectrum :=
  let j : ℝ := 0.5 * ((n : Int) : ℝ)
  { n := (n : Int)
    area := area_eigenvalue j
    volume := volume_eigenvalue j j j
    degeneracy := 2.0 * j + 1.0 }

/-- The function `generate_spectrum`: the array written by the loop
`for (n = 0; n < max_quantum_number; n++)`. -/
noncomputable def generate_spectrum (max_quantum_number : Int) : List QuantumSpectrum :=
  (List.range max_quantum_number.toNat).map spectrum_entry

/-! ## Gauge theory aspects -/

/-- Body of the loop of `check_gauss_constraint`. -/
def gauss_step (node_id : Int) (sum_j : ℝ) (e : SpinEdge) : ℝ :=
  let sum_j := if e.source = node_id then sum_j + e.j else sum_j
  if e.target = node_id then sum_j - e.j else sum_j

/-- The value of `sum_j` at the end of the loop of `check_gauss_constraint`. -/
def gauss_sum (foam : SpinFoam) (node_id : Int) : ℝ :=
  foam.edges.foldl (gauss_step node_id) 0.0

/-- The function `check_gauss_constraint`: `fabs(sum_j) < 1e-10` (C `int` 1 is `true`, 0 is `false`). -/
noncomputable def check_gauss_constraint (foam : SpinFoam) (node_id : Int) : Bool :=
  decide (|gauss_sum foam node_id| < 1e-10)

/-- The read `foam->edges[edge_id]`: `none` when `edge_id` lies outside the
array, where the C program reads memory it does not own. -/
def edge_at (foam : SpinFoam) (edge_id : Int) : Option SpinEdge :=
  if 0 ≤ edge_id then foam.edges[edge_id.toNat]? else none

/-- The loop of `wilson_loop`: `loop_product *= foam->edges[edge_id].holonomy`. -/
def wilson_product (foam : SpinFoam) : List Int → ℂ → Option ℂ
  | [], loop_product => some loop_product
  | edge_id :: rest, loop_product =>
      match edge_at foam edge_id with
      | none => none
      | some e => wilson_product foam rest (loop_product * e.holonomy)

/-- The function `wilson_loop`: `0.5 * (loop_product + conj(loop_product))`; `none` when the
loop read outside the edge array. -/
noncomputable def wilson_loop (foam : SpinFoam) (edge_sequence : List Int) : Option ℂ :=
  (wilson_product foam edge_sequence (1.0 + 0.0 * Complex.I)).map
    (fun loop_product => 0.5 * (loop_product + (starRingEnd ℂ) loop_product))

/-! ## Evolution -/

/-- One pass of the loop of `evolve_spin_network` for edge index `e`, acting on
the graph in place. (`e` is below `num_edges`, so the read succeeds.) -/
noncomputable def evolve_edge (time_step : ℝ) (foam : SpinFoam) (e : Nat) : SpinFoam :=
  match foam.edges[e]? with
  | none => foam
  | some ed =>
      let curvature_source : ℂ := curvature_operator foam ed.source
      let curvature_target : ℂ := curvature_operator foam ed.target
      let update_factor : ℂ :=
        1.0 + Complex.I * (time_step : ℂ) * (curvature_source + curvature_target) / 2.0
      { foam with edges := foam.edges.set e { ed with holonomy := ed.holonomy * update_factor } }

/-- The function `evolve_spin_network`: the graph after the call. -/
noncomputable def evolve_spin_network (foam : SpinFoam) (time_step : ℝ) : SpinFoam :=
  refresh_cache ((List.range foam.edges.length).foldl (evolve_edge time_step) foam)

/-- The factor a node contributes to `spin_network_amplitude`. -/
noncomputable def node_factor (nd : SpinNode) : ℝ :=
  if nd.valence ≥ 3 then Real.sqrt (nd.j_val + 1.0) else 1

/-- The ids of the edges whose source or target is node `i`, in array order. -/
def incident_edge_ids (foam : SpinFoam) (i : Int) : List Int :=
  (foam.edges.filter (fun e => decide (e.source = i ∨ e.target = i))).map (fun e => e.id)

/-- Sum of `j` over the edges whose source is `n`. -/
def out_spin_sum (es : List SpinEdge) (n : Int) : ℝ :=
  ((es.filter (fun e => decide (e.source = n))).map (fun e => e.j)).sum

/-- Sum of `j` over the edges whose target is `n`. -/
def in_spin_sum (es : List SpinEdge) (n : Int) : ℝ :=
  ((es.filter (fun e => decide (e.target = n))).map (fun e => e.j)).sum

/-- The signed sum `S` of the Gauss constraint at node `n`: the sum of `j` over
the edges with source `n` minus the sum of `j` over the edges with target `n`. -/
def signed_spin_sum (es : List SpinEdge) (n : Int) : ℝ :=
  out_spin_sum es n - in_spin_sum es n

/-- The holonomy read by `wilson_loop` for the id `edge_id` (only used for ids
inside the edge array). -/
def holonomy_at (foam : SpinFoam) (edge_id : Int) : ℂ :=
  ((edge_at foam edge_id).map (fun e => e.holonomy)).getD 1

/-- A two-node graph with one edge `0 -> 1` of spin 0.5 whose cached fields
`amplitude = 0` and `action = 1` are not current. -/
noncomputable def stale_cache_graph : SpinFoam :=
  { num_faces := 0
    nodes := [ { id := 0, amplitude := 1, valence := 1, incident_edges := [some 0],
                 area := none, volume := none, j_val := 0.5 },
               { id := 1, amplitude := 1, valence := 1, incident_edges := [some 0],
                 area := none, volume := none, j_val := 0.5 } ]
    edges := [ { id := 0, source := 0, target := 1, j := 0.5, length := 0.5 * L_PLANCK,
                 area := area_eigenvalue 0.5, orientation := 1, holonomy := 1 } ]
    amplitude := 0
    action := 1 }

/-- A three-node chain `0 -> 1 -> 2` with both spins equal to 1: node 1 is the
target of one edge with `j = 1` and the source of one edge with `j = 1`. -/
noncomputable def gauss_balanced_graph : SpinFoam :=
  { num_faces := 0
    nodes := [ { id := 0, amplitude := 1, valence := 1, incident_edges := [some 0],
                 area := none, volume := none, j_val := 0.5 },
               { id := 1, amplitude := 1, valence := 2, incident_edges := [some 0, some 1],
                 area := none, volume := none, j_val := 0.5 },
               { id := 2, amplitude := 1, valence := 1, incident_edges := [some 1],
                 area := none, volume := none, j_val := 0.5 } ]
    edges := [ { id := 0, source := 0, target := 1, j := 1, length := 1 * L_PLANCK,
                 area := area_eigenvalue 1, orientation := 1, holonomy := 1 },
               { id := 1, source := 1, target := 2, j := 1, length := 1 * L_PLANCK,
                 area := area_eigenvalue 1, orientation := 1, holonomy := 1 } ]
    amplitude := 0
    action := 0 }

/-- A two-node graph whose only edge `0 -> 1` has the small positive spin `1e-11`. -/
noncomputable def tiny_spin_graph : SpinFoam :=
  { num_faces := 0
    nodes := [ { id := 0, amplitude := 1, valence := 1, incident_edges := [some 0],
                 area := none, volume := none, j_val := 0.5 },
               { id := 1, amplitude := 1, valence := 1, incident_edges := [some 0],
                 area := none, volume := none, j_val := 0.5 } ]
    edges := [ { id := 0, source := 0, target := 1, j := 1e-11, length := 1e-11 * L_PLANCK,
                 area := area_eigenvalue 1e-11, orientation := 1, holonomy := 1 } ]
    amplitude := 0
    action := 0 }

/-! ## Node volume and the Hamiltonian constraint -/

/-- The term added by the innermost statement of `volume_operator`:
`sqrt(fabs(j1 * j2 * j3))` with `j1 = j2 = j3 = node->j_val`. -/
noncomputable def volume_term (node : SpinNode) : ℝ :=
  let j1 : ℝ := node.j_val
  let j2 : ℝ := node.j_val
  let j3 : ℝ := node.j_val
  Real.sqrt |j1 * j2 * j3|

/-- The loop `for (k = j + 1; k < node->valence; k++)` of `volume_operator`. -/
noncomputable def volume_k_loop (node : SpinNode) (j : Nat) (volume : ℝ) : ℝ :=
  (List.range' (j + 1) (node.valence.toNat - (j + 1))).foldl
    (fun volume _k => volume + volume_term node) volume

/-- The loop `for (j = i + 1; j < node->valence; j++)` of `volume_operator`. -/
noncomputable def volume_j_loop (node : SpinNode) (i : Nat) (volume : ℝ) : ℝ :=
  (List.range' (i + 1) (node.valence.toNat - (i + 1))).foldl
    (fun volume j => volume_k_loop node j volume) volume

/-- The function `volume_operator`. -/
noncomputable def volume_operator (node : SpinNode) : ℝ :=
  if node.valence < 4 then 0.0
  else
    let volume : ℝ :=
      (List.range node.valence.toNat).foldl (fun volume i => volume_j_loop node i volume) 0.0
    L_PLANCK * L_PLANCK * L_PLANCK * Real.sqrt |volume|

/-- The edge loop of `hamiltonian_constraint` for the node index `i`, whose
volume is `volume`. -/
noncomputable def hamiltonian_edge_loop (foam : SpinFoam) (i : Int) (volume : ℝ)
    (hamiltonian : ℂ) : ℂ :=
  foam.edges.foldl (fun hamiltonian e =>
    if e.source = i ∨ e.target = i then hamiltonian + (e.holonomy - 1.0) * (volume : ℂ)
    else hamiltonian) hamiltonian

/-- The function `hamiltonian_constraint`. -/
noncomputable def hamiltonian_constraint (foam : SpinFoam) : ℂ :=
  foam.nodes.enum.foldl
    (fun hamiltonian p => hamiltonian_edge_loop foam (p.1 : Int) (volume_operator p.2) hamiltonian)
    (0.0 + 0.0 * Complex.I)

/-! ## What a call does -/

/-- The error taxonomy of the specification. -/
inductive LqgError where
  | InvalidSpin
  | OutOfRangeEdgeId
  | AllocationFailure
  deriving DecidableEq

/-- What a call of a C function can do: return a value, signal an error of the
taxonomy, or read the edge array at an index outside it (undefined behaviour
in C). The source has no statement that signals an error. -/
inductive CallOutcome (α : Type) where
  | returned (value : α)
  | failed (error : LqgError)
  | read_outside (index : Int)

/-- A call of `area_eigenvalue`: the body is a single `return` of the formula,
with no test on `j`. -/
noncomputable def area_eigenvalue_call (j : ℝ) : CallOutcome ℝ :=
  CallOutcome.returned (area_eigenvalue j)

/-- The loop of `wilson_loop` followed by its `return`, recording a read of
`foam->edges[edge_id]` outside the array: the source reads every id of the
sequence without a test. -/
noncomputable def wilson_loop_call (foam : SpinFoam) : List Int → ℂ → CallOutcome ℂ
  | [], loop_product =>
      CallOutcome.returned (0.5 * (loop_product + (starRingEnd ℂ) loop_product))
  | edge_id :: rest, loop_product =>
      match edge_at foam edge_id with
      | none => CallOutcome.read_outside edge_id
      | some e => wilson_loop_call foam rest (loop_product * e.holonomy)

/-- The sum, over all index pairs `i < k` of edges that share at least one
endpoint, of `area_eigenvalue` of the spin of edge `i`. -/
noncomputable def sharing_pair_area_sum (es : List SpinEdge) : ℝ :=
  ∑ i : Fin es.length, ∑ k : Fin es.length,
    if i < k ∧ share_node (es.get i) (es.get k) then area_eigenvalue (es.get i).j else 0

/-- All the fields of an edge other than `holonomy`: id, source, target, j,
length, area, orientation. -/
def edge_frame (e : SpinEdge) : Int × Int × Int × ℝ × ℝ × ℝ × Int :=
  (e.id, e.source, e.target, e.j, e.length, e.area, e.orientation)

/-- The cached fields are current: `amplitude` equals `spin_network_amplitude`
of the graph and `action` equals `regge_action` of the graph. -/
def cache_is_current (foam : SpinFoam) : Prop :=
  foam.amplitude = spin_network_amplitude foam ∧ foam.action = regge_action foam

/-- The edge `e` at index `k` is well formed in a graph with `num_nodes` nodes:
its id is `k`, its source and target are distinct ids in `[0, num_nodes)`, its
spin is non-negative, its orientation is +1 or -1, its length is `j * L_PLANCK`
and its area is `area_eigenvalue(j)`. -/
def edge_well_formed (num_nodes : Int) (k : Nat) (e : SpinEdge) : Prop :=
  e.id = (k : Int) ∧
  e.source ≠ e.target ∧
  (0 ≤ e.source ∧ e.source < num_nodes) ∧
  (0 ≤ e.target ∧ e.target < num_nodes) ∧
  0 ≤ e.j ∧
  (e.orientation = 1 ∨ e.orientation = -1) ∧
  e.length = e.j * L_PLANCK ∧
  e.area = area_eigenvalue e.j

/-- The number of edges whose source or target is the node `i`. -/
def incident_edge_count (foam : SpinFoam) (i : Int) : Nat :=
  (foam.edges.filter (fun e => decide (e.source = i ∨ e.target = i))).length

/-- The graph is well formed: every edge is well formed at its index, and the
valence of every node equals the number of edges whose source or target is
that node. -/
def graph_well_formed (foam : SpinFoam) : Prop :=
  (∀ (k : Nat) (e : SpinEdge), foam.edges[k]? = some e →
    edge_well_formed foam.num_nodes k e) ∧
  (∀ (i : Nat) (nd : SpinNode), foam.nodes[i]? = some nd →
    nd.valence = (incident_edge_count foam (i : Int) : Int))

/-- The value of `volume_operator` on the node with index `id`; 0 when `id` is
no index of the node array. -/
noncomputable def node_volume (foam : SpinFoam) (id : Int) : ℝ :=
  if 0 ≤ id then
    match foam.nodes[id.toNat]? with
    | some nd => volume_operator nd
    | none => 0
  else 0

/-- The contribution of one edge to the edge-wise form of the Hamiltonian
constraint: `(holonomy - 1)` times the volumes of both endpoints when they are
distinct, and times the volume of the one node when source = target. -/
noncomputable def edge_hamiltonian (foam : SpinFoam) (e : SpinEdge) : ℂ :=
  if e.source ≠ e.target then
    (e.holonomy - 1) * ((node_volume foam e.source + node_volume foam e.target : ℝ) : ℂ)
  else (e.holonomy - 1) * ((node_volume foam e.source : ℝ) : ℂ)

/-- A star with centre 0 and four leaves: the edges `0 -> 1`, `0 -> 2`, `0 -> 3`,
`0 -> 4` all have spin 1 and holonomy 2; the centre has valence 4 and spin 1. -/
noncomputable def star_graph : SpinFoam :=
  { num_faces := 0
    nodes := [ { id := 0, amplitude := 1, valence := 4,
                 incident_edges := [some 0, some 1, some 2, some 3],
                 area := none, volume := none, j_val := 1 },
               { id := 1, amplitude := 1, valence := 1, incident_edges := [some 0],
                 area := none, volume := none, j_val := 1 },
               { id := 2, amplitude := 1, valence := 1, incident_edges := [some 1],
                 area := none, volume := none, j_val := 1 },
               { id := 3, amplitude := 1, valence := 1, incident_edges := [some 2],
                 area := none, volume := none, j_val := 1 },
               { id := 4, amplitude := 1, valence := 1, incident_edges := [some 3],
                 area := none, volume := none, j_val := 1 } ]
    edges := [ { id := 0, source := 0, target := 1, j := 1, length := 1 * L_PLANCK,
                 area := area_eigenvalue 1, orientation := 1, holonomy := 2 },
               { id := 1, source := 0, target := 2, j := 1, length := 1 * L_PLANCK,
                 area := area_eigenvalue 1, orientation := 1, holonomy := 2 },
               { id := 2, source := 0, target := 3, j := 1, length := 1 * L_PLANCK,
                 area := area_eigenvalue 1, orientation := 1, holonomy := 2 },
               { id := 3, source := 0, target := 4, j := 1, length := 1 * L_PLANCK,
                 area := area_eigenvalue 1, orientation := 1, holonomy := 2 } ]
    amplitude := 0
    action := 0 }

/-- Sum of the holonomies of the edges whose source is `n`. -/
def out_holonomy_sum (es : List SpinEdge) (n : Int) : ℂ :=
  ((es.filter (fun e => decide (e.source = n))).map (fun e => e.holonomy)).sum

/-- Sum of the holonomies of the edges whose target is `n`. -/
def in_holonomy_sum (es : List SpinEdge) (n : Int) : ℂ :=
  ((es.filter (fun e => decide (e.target = n))).map (fun e => e.holonomy)).sum

/-- The factor by which one pass of the loop of `evolve_spin_network` multiplies
the holonomy of the edge `ed`, computed on the graph `foam` as it is when the
pass starts. -/
noncomputable def update_factor (time_step : ℝ) (foam : SpinFoam) (ed : SpinEdge) : ℂ :=
  1 + Complex.I * (time_step : ℂ) *
    (curvature_operator foam ed.source + curvature_operator foam ed.target) / 2

/-- The graph at the moment edge `e` is processed, described from the graphs
before and after the call: the edges of index below `e` are those of `after`
(they already carry their new holonomies), the edges from index `e` on are
those of `before`. -/
def state_at_edge (before after : SpinFoam) (e : Nat) : SpinFoam :=
  { before with edges := after.edges.take e ++ before.edges.drop e }

/-! ## Two orders of the same two edges -/

/-- The three nodes of the chain `0 - 1 - 2`. -/
noncomputable def chain_nodes : List SpinNode :=
  [ { id := 0, amplitude := 1, valence := 1, incident_edges := [some 0],
      area := none, volume := none, j_val := 0.5 },
    { id := 1, amplitude := 1, valence := 2, incident_edges := [some 0, some 1],
      area := none, volume := none, j_val := 0.5 },
    { id := 2, amplitude := 1, valence := 1, incident_edges := [some 1],
      area := none, volume := none, j_val := 0.5 } ]

/-- The edges `0 -> 1` with `j = 0.5` and `1 -> 2` with `j = 1`, stored in this
order. -/
noncomputable def chain_graph_first : SpinFoam :=
  { num_faces := 0
    nodes := chain_nodes
    edges := [ { id := 0, source := 0, target := 1, j := 0.5, length := 0.5 * L_PLANCK,
                 area := area_eigenvalue 0.5, orientation := 1, holonomy := 1 },
               { id := 1, source := 1, target := 2, j := 1, length := 1 * L_PLANCK,
                 area := area_eigenvalue 1, orientation := 1, holonomy := 1 } ]
    amplitude := 0
    action := 0 }

/-- The same two edges stored in the other order: `1 -> 2` with `j = 1` first,
then `0 -> 1` with `j = 0.5`. -/
noncomputable def chain_graph_second : SpinFoam :=
  { num_faces := 0
    nodes := chain_nodes
    edges := [ { id := 0, source := 1, target := 2, j := 1, length := 1 * L_PLANCK,
                 area := area_eigenvalue 1, orientation := 1, holonomy := 1 },
               { id := 1, source := 0, target := 1, j := 0.5, length := 0.5 * L_PLANCK,
                 area := area_eigenvalue 0.5, orientation := 1, holonomy := 1 } ]
    amplitude := 0
    action := 0 }

/-! ## The black-hole formula set of `ST.c` -/

namespace ST

/-- The macro `#define PI 3.14159265358979323846` of `ST.c`. -/
noncomputable def PI : ℝ := 3.14159265358979323846

/-- The macro `#define FOUR_PI (4.0 * PI)`. -/
noncomputable def FOUR_PI : ℝ := 4.0 * PI

/-- The macro `#define C 299792458.0` of `ST.c`. -/
noncomputable def C : ℝ := 299792458.0

/-- The macro `#define C_SQUARED (C * C)`. -/
noncomputable def C_SQUARED : ℝ := C * C

/-- The macro `#define C_CUBED (C * C * C)`. -/
noncomputable def C_CUBED : ℝ := C * C * C

/-- The macro `#define G 6.67430e-11` of `ST.c`. -/
noncomputable def G : ℝ := 6.67430e-11

/-- The macro `#define H 6.62607015e-34`. -/
noncomputable def H : ℝ := 6.62607015e-34

/-- The macro `#define HBAR (H / (2.0 * PI))` of `ST.c`. -/
noncomputable def HBAR : ℝ := H / (2.0 * PI)

/-- The macro `#define K_B 1.380649e-23`. -/
noncomputable def K_B : ℝ := 1.380649e-23

/-- The function `schwarzschild_radius`: `2.0 * G * mass / C_SQUARED`. -/
noncomputable def schwarzschild_radius (mass : ℝ) : ℝ :=
  2.0 * G * mass / C_SQUARED

/-- The function `horizon_area`: `FOUR_PI * rs * rs` with
`rs = schwarzschild_radius(mass)`. -/
noncomputable def horizon_area (mass : ℝ) : ℝ :=
  let rs : ℝ := schwarzschild_radius mass
  FOUR_PI * rs * rs

/-- The function `bekenstein_hawking_entropy`:
`K_B * C_CUBED * area / (4.0 * HBAR * G)`. -/
noncomputable def bekenstein_hawking_entropy (area : ℝ) : ℝ :=
  K_B * C_CUBED * area / (4.0 * HBAR * G)

/-- The function `bh_entropy_from_mass`:
`4.0 * PI * G * mass * mass * K_B / (HBAR * C)`. -/
noncomputable def bh_entropy_from_mass (mass : ℝ) : ℝ :=
  4.0 * PI * G * mass * mass * K_B / (HBAR * C)

end ST

/-! ## A second embedding with the special values of C doubles

The embedding above reads a `double` as an exact real number, so it has no
infinity and no NaN. Two properties turn on them: what `evolve_spin_network`
does to the holonomies at time step 0, and the value of `hamiltonian_constraint`
after evolution (`0.0 * inf` is NaN, not 0). For these the program is embedded a
second time, in the namespace `Ieee`, over the type `Dbl`: a finite number, plus
infinity, minus infinity, or NaN.

* A finite result is kept exact: rounding to 53 bits and underflow are not
  modelled. At the top of the range a result of magnitude `2^1024 - 2^970` or
  more overflows to infinity, and one between `DBL_MAX` and that bound becomes
  `DBL_MAX`, as in round-to-nearest.
* The sign of zero is not modelled.
* A complex product is `(ac - bd) + (ad + bc) i`. The C library routine behind a
  complex product recomputes the result when both parts came out NaN; the
  recomputed parts are again infinite or NaN, so whether a part of a product is
  finite is the same in the program and here.
* A real operand combined with a complex one acts on the parts, as in C:
  `x + z` adds to the real part, `z - x` subtracts from it, `x * z`, `z * x` and
  `z / x` act on both parts.
* The loops are the folds of the first embedding, with the loop bodies written
  in place.
-/

namespace Ieee

/-- The largest finite double, `DBL_MAX = 2^1024 - 2^971`. -/
noncomputable def DBL_MAX : ℝ := 2.0 ^ 1024 - 2.0 ^ 971

/-- The least magnitude that rounds to infinity, `2^1024 - 2^970`. -/
noncomputable def OVERFLOW_BOUND : ℝ := 2.0 ^ 1024 - 2.0 ^ 970

/-- A C `double`: a finite number, plus infinity, minus infinity, or NaN. -/
inductive Dbl where
  | fin (x : ℝ)
  | pinf
  | ninf
  | nan

namespace Dbl

/-- The value is a finite double: a number of magnitude at most `DBL_MAX`. -/
def isFinite (a : Dbl) : Prop := ∃ x : ℝ, a = Dbl.fin x ∧ |x| ≤ DBL_MAX

/-- The value is an infinity or NaN. -/
def notFinite (a : Dbl) : Prop := a = Dbl.pinf ∨ a = Dbl.ninf ∨ a = Dbl.nan

/-- The value is a finite number of magnitude at most `M`. -/
def bounded (M : ℝ) (a : Dbl) : Prop := ∃ x : ℝ, a = Dbl.fin x ∧ |x| ≤ M

/-- The double that an operation on finite operands returns when its exact
result is `x`. -/
noncomputable def round (x : ℝ) : Dbl :=
  if OVERFLOW_BOUND ≤ x then Dbl.pinf
  else if x ≤ -OVERFLOW_BOUND then Dbl.ninf
  else Dbl.fin (max (-DBL_MAX) (min DBL_MAX x))

/-- The product of an infinity of sign `positive` with the finite number `x`. -/
noncomputable def inf_times (positive : Bool) (x : ℝ) : Dbl :=
  if 0 < x then (if positive then Dbl.pinf else Dbl.ninf)
  else if x < 0 then (if positive then Dbl.ninf else Dbl.pinf)
  else Dbl.nan

/-- Unary minus. -/
noncomputable def neg : Dbl → Dbl
  | Dbl.fin x => Dbl.fin (-x)
  | Dbl.pinf => Dbl.ninf
  | Dbl.ninf => Dbl.pinf
  | Dbl.nan => Dbl.nan

/-- Addition `a + b`. -/
noncomputable def add : Dbl → Dbl → Dbl
  | Dbl.fin x, Dbl.fin y => round (x + y)
  | Dbl.fin _, Dbl.pinf => Dbl.pinf
  | Dbl.fin _, Dbl.ninf => Dbl.ninf
  | Dbl.fin _, Dbl.nan => Dbl.nan
  | Dbl.pinf, Dbl.fin _ => Dbl.pinf
  | Dbl.pinf, Dbl.pinf => Dbl.pinf
  | Dbl.pinf, Dbl.ninf => Dbl.nan
  | Dbl.pinf, Dbl.nan => Dbl.nan
  | Dbl.ninf, Dbl.fin _ => Dbl.ninf
  | Dbl.ninf, Dbl.pinf => Dbl.nan
  | Dbl.ninf, Dbl.ninf => Dbl.ninf
  | Dbl.ninf, Dbl.nan => Dbl.nan
  | Dbl.nan, _ => Dbl.nan

/-- Subtraction `a - b`. -/
noncomputable def sub (a b : Dbl) : Dbl := add a (neg b)

/-- Multiplication `a * b`. -/
noncomputable def mul : Dbl → Dbl → Dbl
  | Dbl.fin x, Dbl.fin y => round (x * y)
  | Dbl.fin x, Dbl.pinf => inf_times true x
  | Dbl.fin x, Dbl.ninf => inf_times false x
  | Dbl.fin _, Dbl.nan => Dbl.nan
  | Dbl.pinf, Dbl.fin y => inf_times true y
  | Dbl.pinf, Dbl.pinf => Dbl.pinf
  | Dbl.pinf, Dbl.ninf => Dbl.ninf
  | Dbl.pinf, Dbl.nan => Dbl.nan
  | Dbl.ninf, Dbl.fin y => inf_times false y
  | Dbl.ninf, Dbl.pinf => Dbl.ninf
  | Dbl.ninf, Dbl.ninf => Dbl.pinf
  | Dbl.ninf, Dbl.nan => Dbl.nan
  | Dbl.nan, _ => Dbl.nan

/-- Division `a / b`. A zero divisor is read as `+0.0`. -/
noncomputable def div : Dbl → Dbl → Dbl
  | Dbl.fin x, Dbl.fin y => if y = 0 then inf_times true x else round (x / y)
  | Dbl.fin _, Dbl.pinf => Dbl.fin 0
  | Dbl.fin _, Dbl.ninf => Dbl.fin 0
  | Dbl.fin _, Dbl.nan => Dbl.nan
  | Dbl.pinf, Dbl.fin y => if 0 ≤ y then Dbl.pinf else Dbl.ninf
  | Dbl.pinf, Dbl.pinf => Dbl.nan
  | Dbl.pinf, Dbl.ninf => Dbl.nan
  | Dbl.pinf, Dbl.nan => Dbl.nan
  | Dbl.ninf, Dbl.fin y => if 0 ≤ y then Dbl.ninf else Dbl.pinf
  | Dbl.ninf, Dbl.pinf => Dbl.nan
  | Dbl.ninf, Dbl.ninf => Dbl.nan
  | Dbl.ninf, Dbl.nan => Dbl.nan
  | Dbl.nan, _ => Dbl.nan

/-- The library function `sqrt`. -/
noncomputable def sqrt : Dbl → Dbl
  | Dbl.fin x => if x < 0 then Dbl.nan else round (Real.sqrt x)
  | Dbl.pinf => Dbl.pinf
  | Dbl.ninf => Dbl.nan
  | Dbl.nan => Dbl.nan

/-- The library function `fabs`. -/
noncomputable def fabs : Dbl → Dbl
  | Dbl.fin x => Dbl.fin |x|
  | Dbl.pinf => Dbl.pinf
  | Dbl.ninf => Dbl.pinf
  | Dbl.nan => Dbl.nan

/-- The library function `cos`. -/
noncomputable def cos : Dbl → Dbl
  | Dbl.fin x => Dbl.fin (Real.cos x)
  | Dbl.pinf => Dbl.nan
  | Dbl.ninf => Dbl.nan
  | Dbl.nan => Dbl.nan

/-- The library function `sin`. -/
noncomputable def sin : Dbl → Dbl
  | Dbl.fin x => Dbl.fin (Real.sin x)
  | Dbl.pinf => Dbl.nan
  | Dbl.ninf => Dbl.nan
  | Dbl.nan => Dbl.nan

end Dbl

/-- A C `double complex`: its real and imaginary part. -/
structure CDbl where
  re : Dbl
  im : Dbl

namespace CDbl

/-- The constant `I`. -/
noncomputable def I : CDbl := { re := Dbl.fin 0, im := Dbl.fin 1 }

/-- Both parts are finite doubles. -/
def isFinite (z : CDbl) : Prop := z.re.isFinite ∧ z.im.isFinite

/-- Both parts are finite numbers of magnitude at most `M`. -/
def bounded (M : ℝ) (z : CDbl) : Prop := z.re.bounded M ∧ z.im.bounded M

/-- Complex sum `z + w`. -/
noncomputable def add (z w : CDbl) : CDbl :=
  { re := Dbl.add z.re w.re, im := Dbl.add z.im w.im }

/-- Complex product `z * w`: `(ac - bd) + (ad + bc) i`. -/
noncomputable def mul (z w : CDbl) : CDbl :=
  { re := Dbl.sub (Dbl.mul z.re w.re) (Dbl.mul z.im w.im)
    im := Dbl.add (Dbl.mul z.re w.im) (Dbl.mul z.im w.re) }

/-- Real plus complex, `x + z`. -/
noncomputable def real_add (x : Dbl) (z : CDbl) : CDbl :=
  { re := Dbl.add x z.re, im := z.im }

/-- Complex minus real, `z - x`. -/
noncomputable def sub_real (z : CDbl) (x : Dbl) : CDbl :=
  { re := Dbl.sub z.re x, im := z.im }

/-- Real times complex, `x * z`. -/
noncomputable def real_mul (x : Dbl) (z : CDbl) : CDbl :=
  { re := Dbl.mul x z.re, im := Dbl.mul x z.im }

/-- Complex times real, `z * x`. -/
noncomputable def mul_real (z : CDbl) (x : Dbl) : CDbl :=
  { re := Dbl.mul z.re x, im := Dbl.mul z.im x }

/-- Complex divided by real, `z / x`. -/
noncomputable def div_real (z : CDbl) (x : Dbl) : CDbl :=
  { re := Dbl.div z.re x, im := Dbl.div z.im x }

end CDbl

/-- The struct `SpinNode`, with `Dbl` for `double`. -/
structure SpinNode where
  id : Int
  amplitude : CDbl
  valence : Int
  incident_edges : List (Option Int)
  area : Option Dbl
  volume : Option Dbl
  j_val : Dbl

/-- The struct `SpinEdge`, with `Dbl` for `double`. -/
structure SpinEdge where
  id : Int
  source : Int
  target : Int
  j : Dbl
  length : Dbl
  area : Dbl
  orientation : Int
  holonomy : CDbl

/-- The struct `SpinFoam`, with `Dbl` for `double`; `num_nodes` and `num_edges`
are the lengths of the two arrays. -/
structure SpinFoam where
  num_faces : Int
  nodes : List SpinNode
  edges : List SpinEdge
  amplitude : CDbl
  action : Dbl

/-- The function `area_eigenvalue`:
`8.0 * PI * GAMMA * HBAR * G * sqrt(j * (j + 1.0)) / (C * C * C)`, evaluated
from left to right. -/
noncomputable def area_eigenvalue (j : Dbl) : Dbl :=
  let root : Dbl := Dbl.sqrt (Dbl.mul j (Dbl.add j (Dbl.fin 1.0)))
  let front : Dbl :=
    Dbl.mul (Dbl.mul (Dbl.mul (Dbl.mul (Dbl.fin 8.0) (Dbl.fin PI)) (Dbl.fin GAMMA))
      (Dbl.fin HBAR)) (Dbl.fin G)
  Dbl.div (Dbl.mul front root) (Dbl.mul (Dbl.mul (Dbl.fin C) (Dbl.fin C)) (Dbl.fin C))

/-- The function `su2_element`: `cos_theta + sin_theta * (pauli_x + pauli_y + pauli_z)`
with `pauli_a = phi_a * I`. -/
noncomputable def su2_element (theta phi_x phi_y phi_z : Dbl) : CDbl :=
  let cos_theta : Dbl := Dbl.cos theta
  let sin_theta : Dbl := Dbl.sin theta
  let pauli_x : CDbl := CDbl.real_mul phi_x CDbl.I
  let pauli_y : CDbl := CDbl.real_mul phi_y CDbl.I
  let pauli_z : CDbl := CDbl.real_mul phi_z CDbl.I
  CDbl.real_add cos_theta (CDbl.real_mul sin_theta (CDbl.add (CDbl.add pauli_x pauli_y) pauli_z))

/-- The function `spin_network_amplitude`: `amplitude = 1.0 + 0.0*I`, then
`amplitude *= (2.0 * foam->edges[i].j + 1.0)` for every edge, then
`if (valence >= 3) amplitude *= sqrt(j_val + 1.0)` for every node. -/
noncomputable def spin_network_amplitude (foam : SpinFoam) : CDbl :=
  let amplitude : CDbl := CDbl.real_add (Dbl.fin 1.0) (CDbl.real_mul (Dbl.fin 0.0) CDbl.I)
  let amplitude : CDbl := foam.edges.foldl
    (fun amplitude e =>
      CDbl.mul_real amplitude (Dbl.add (Dbl.mul (Dbl.fin 2.0) e.j) (Dbl.fin 1.0)))
    amplitude
  foam.nodes.foldl
    (fun amplitude nd =>
      if nd.valence ≥ 3 then CDbl.mul_real amplitude (Dbl.sqrt (Dbl.add nd.j_val (Dbl.fin 1.0)))
      else amplitude)
    amplitude

/-- The two loops of `regge_action` over the edges from index `i` on; `rest` is
`edges[i+1 .. num_edges)`, and for every edge `j` of `rest` that shares a node
with edge `i` the body is `action += area_eigenvalue(edges[i].j) * (PI / 3.0)`. -/
noncomputable def regge_outer : List SpinEdge → Dbl → Dbl
  | [], action => action
  | ei :: rest, action =>
      regge_outer rest
        (rest.foldl (fun action ej =>
          if ei.source = ej.source ∨ ei.source = ej.target ∨
              ei.target = ej.source ∨ ei.target = ej.target then
            let deficit_angle : Dbl := Dbl.div (Dbl.fin PI) (Dbl.fin 3.0)
            let area : Dbl := area_eigenvalue ei.j
            Dbl.add action (Dbl.mul area deficit_angle)
          else action) action)

/-- The function `regge_action`. -/
noncomputable def regge_action (foam : SpinFoam) : Dbl :=
  regge_outer foam.edges (Dbl.fin 0.0)

/-- The two loops of `curvature_operator` over the edges from index `i` on; `rest`
is `edges[i+1 .. num_edges)`, and the body for the edges `i < j` is
`curvature += foam->edges[i].holonomy * foam->edges[j].holonomy` under the test
`(source_i == node_id && target_j == node_id) || (target_i == node_id && source_j == node_id)`. -/
noncomputable def curvature_outer (node_id : Int) : List SpinEdge → CDbl → CDbl
  | [], curvature => curvature
  | ei :: rest, curvature =>
      curvature_outer node_id rest
        (rest.foldl (fun curvature ej =>
          if (ei.source = node_id ∧ ej.target = node_id) ∨
              (ei.target = node_id ∧ ej.source = node_id) then
            CDbl.add curvature (CDbl.mul ei.holonomy ej.holonomy)
          else curvature) curvature)

/-- The function `curvature_operator`; the accumulator starts at `0.0 + 0.0*I`. -/
noncomputable def curvature_operator (foam : SpinFoam) (node_id : Int) : CDbl :=
  curvature_outer node_id foam.edges
    (CDbl.real_add (Dbl.fin 0.0) (CDbl.real_mul (Dbl.fin 0.0) CDbl.I))

/-- The function `volume_operator`: 0 below valence 4; otherwise the three nested loops
add `sqrt(fabs(j1 * j2 * j3))` with `j1 = j2 = j3 = node->j_val` for every
`i < j < k < valence`, and the result is `L_PLANCK^3 * sqrt(fabs(volume))`. -/
noncomputable def volume_operator (node : SpinNode) : Dbl :=
  if node.valence < 4 then Dbl.fin 0.0
  else
    let term : Dbl := Dbl.sqrt (Dbl.fabs (Dbl.mul (Dbl.mul node.j_val node.j_val) node.j_val))
    let volume : Dbl :=
      (List.range node.valence.toNat).foldl (fun volume i =>
        (List.range' (i + 1) (node.valence.toNat - (i + 1))).foldl (fun volume j =>
          (List.range' (j + 1) (node.valence.toNat - (j + 1))).foldl (fun volume _k =>
            Dbl.add volume term) volume) volume) (Dbl.fin 0.0)
    Dbl.mul (Dbl.mul (Dbl.mul (Dbl.fin L_PLANCK) (Dbl.fin L_PLANCK)) (Dbl.fin L_PLANCK))
      (Dbl.sqrt (Dbl.fabs volume))

/-- The function `hamiltonian_constraint`: the accumulator starts at `0.0 + 0.0*I`; for
every node index `i`, with `volume = volume_operator(&foam->nodes[i])`, and every
edge with source or target `i`, the body is
`hamiltonian += (holonomy - 1.0) * volume`. -/
noncomputable def hamiltonian_constraint (foam : SpinFoam) : CDbl :=
  foam.nodes.enum.foldl
    (fun hamiltonian p =>
      foam.edges.foldl (fun hamiltonian e =>
        if e.source = (p.1 : Int) ∨ e.target = (p.1 : Int) then
          CDbl.add hamiltonian
            (CDbl.mul_real (CDbl.sub_real e.holonomy (Dbl.fin 1.0)) (volume_operator p.2))
        else hamiltonian) hamiltonian)
    (CDbl.real_add (Dbl.fin 0.0) (CDbl.real_mul (Dbl.fin 0.0) CDbl.I))

/-- The node written by one pass of the node loop of a builder: id `i`,
amplitude `1.0 + 0.0*I`, valence 3, a fresh block of three `int` slots, and
spin `0.5 + (i * spin_step)`. The fields `area` and `volume` stay unwritten. -/
noncomputable def init_node (spin_step : Dbl) (i : Nat) : SpinNode :=
  { id := (i : Int)
    amplitude := CDbl.real_add (Dbl.fin 1.0) (CDbl.real_mul (Dbl.fin 0.0) CDbl.I)
    valence := 3
    incident_edges := List.replicate 3 none
    area := none
    volume := none
    j_val := Dbl.add (Dbl.fin 0.5) (Dbl.mul (Dbl.fin ((i : Int) : ℝ)) spin_step) }

/-- The edge written by one pass of the edge loop of a builder from row `i` of
`edge_definitions`; `holonomy` is the value of the call of `su2_element`
in the builder. -/
noncomputable def init_edge (holonomy : CDbl) (i : Nat) (d : Int × Int × Int) : SpinEdge :=
  let j : Dbl := Dbl.mul (Dbl.fin 0.5) (Dbl.fin ((d.2.2 + 1 : Int) : ℝ))
  { id := (i : Int)
    source := d.1
    target := d.2.1
    j := j
    length := Dbl.mul j (Dbl.fin L_PLANCK)
    area := area_eigenvalue j
    orientation := 1
    holonomy := holonomy }

/-- The last two assignments of a builder and of `evolve_spin_network`:
`foam->amplitude = spin_network_amplitude(foam); foam->action = regge_action(foam);`. -/
noncomputable def refresh_cache (foam : SpinFoam) : SpinFoam :=
  let foam : SpinFoam := { foam with amplitude := spin_network_amplitude foam }
  { foam with action := regge_action foam }

/-- The function `create_tetrahedral_network`; every holonomy is
`su2_element(PI/4, 0.5, 0.5, 0.5)`. The third block is the loop that stores, for
every node `i`, the indices of the edges that touch `i` in its slots. The fields
`amplitude` and `action` are unwritten until the final two assignments, which
do not read them. -/
noncomputable def create_tetrahedral_network : SpinFoam :=
  let nodes := (List.range 4).map (init_node (Dbl.fin 0.5))
  let edges := tetrahedral_edge_definitions.enum.map
    (fun p => init_edge
      (su2_element (Dbl.div (Dbl.fin PI) (Dbl.fin 4.0)) (Dbl.fin 0.5) (Dbl.fin 0.5) (Dbl.fin 0.5))
      p.1 p.2)
  let nodes := nodes.enum.map (fun p =>
    { p.2 with
      incident_edges :=
        (edges.enum.foldl
          (fun (st : List (Option Int) × Nat) (q : Nat × SpinEdge) =>
            if q.2.source = (p.1 : Int) ∨ q.2.target = (p.1 : Int) then
              (st.1.set st.2 (some (q.1 : Int)), st.2 + 1)
            else st)
          (p.2.incident_edges, 0)).1 })
  refresh_cache { num_faces := 4, nodes := nodes, edges := edges,
                  amplitude := { re := Dbl.fin 0, im := Dbl.fin 0 }, action := Dbl.fin 0 }

/-- The function `create_cubical_network`; every holonomy is
`su2_element(PI/6, 0.3, 0.3, 0.4)`. This builder has no loop that sets the
incident edges. -/
noncomputable def create_cubical_network : SpinFoam :=
  let nodes := (List.range 8).map (init_node (Dbl.fin 0.25))
  let edges := cubical_edge_definitions.enum.map
    (fun p => init_edge
      (su2_element (Dbl.div (Dbl.fin PI) (Dbl.fin 6.0)) (Dbl.fin 0.3) (Dbl.fin 0.3) (Dbl.fin 0.4))
      p.1 p.2)
  refresh_cache { num_faces := 6, nodes := nodes, edges := edges,
                  amplitude := { re := Dbl.fin 0, im := Dbl.fin 0 }, action := Dbl.fin 0 }

/-- One pass of the loop of `evolve_spin_network` for edge index `e`, acting on
the graph in place:
`update_factor = 1.0 + I * time_step * (curvature_source + curvature_target) / 2.0`
and `holonomy *= update_factor`. -/
noncomputable def evolve_edge (time_step : Dbl) (foam : SpinFoam) (e : Nat) : SpinFoam :=
  match foam.edges[e]? with
  | none => foam
  | some ed =>
      let curvature_source : CDbl := curvature_operator foam ed.source
      let curvature_target : CDbl := curvature_operator foam ed.target
      let update_factor : CDbl :=
        CDbl.real_add (Dbl.fin 1.0)
          (CDbl.div_real
            (CDbl.mul (CDbl.mul_real CDbl.I time_step)
              (CDbl.add curvature_source curvature_target))
            (Dbl.fin 2.0))
      { foam with
        edges := foam.edges.set e { ed with holonomy := CDbl.mul ed.holonomy update_factor } }

/-- The function `evolve_spin_network`: the graph after the call. -/
noncomputable def evolve_spin_network (foam : SpinFoam) (time_step : Dbl) : SpinFoam :=
  refresh_cache ((List.range foam.edges.length).foldl (evolve_edge time_step) foam)

/-- Every holonomy of the graph has a finite real part and a finite imaginary part. -/
def holonomies_finite (foam : SpinFoam) : Prop :=
  ∀ e ∈ foam.edges, e.holonomy.isFinite

/-- A three-node chain `0 -> 1 -> 2`; `holonomy_0` and `holonomy_1` are the
holonomies of its two edges. -/
noncomputable def chain_graph (holonomy_0 holonomy_1 : CDbl) : SpinFoam :=
  { num_faces := 0
    nodes := [ { id := 0, amplitude := { re := Dbl.fin 1, im := Dbl.fin 0 }, valence := 1,
                 incident_edges := [some 0],
                 area := none, volume := none, j_val := Dbl.fin 0.5 },
               { id := 1, amplitude := { re := Dbl.fin 1, im := Dbl.fin 0 }, valence := 2,
                 incident_edges := [some 0, some 1],
                 area := none, volume := none, j_val := Dbl.fin 0.5 },
               { id := 2, amplitude := { re := Dbl.fin 1, im := Dbl.fin 0 }, valence := 1,
                 incident_edges := [some 1],
                 area := none, volume := none, j_val := Dbl.fin 0.5 } ]
    edges := [ { id := 0, source := 0, target := 1, j := Dbl.fin 1, length := Dbl.fin L_PLANCK,
                 area := area_eigenvalue (Dbl.fin 1), orientation := 1, holonomy := holonomy_0 },
               { id := 1, source := 1, target := 2, j := Dbl.fin 1, length := Dbl.fin L_PLANCK,
                 area := area_eigenvalue (Dbl.fin 1), orientation := 1, holonomy := holonomy_1 } ]
    amplitude := { re := Dbl.fin 0, im := Dbl.fin 0 }
    action := Dbl.fin 0 }

end Ieee

/-! ## Auxiliary lemmas -/

theorem set_getElem_same {α : Type} (l : List α) (i : Nat) (a : α) (h : l[i]? = some a) :
    l.set i a = l := by
  induction l generalizing i with
  | nil => rfl
  | cons x xs ih =>
    cases i with
    | zero => simp at h; simp [h]
    | succ i => simp at h; simp [ih i h]

theorem foldl_edge_step (es : List SpinEdge) (a : ℂ) :
    es.foldl amplitude_edge_step a = a * (((es.map (fun e => 2.0 * e.j + 1.0)).prod : ℝ) : ℂ) := by
  induction es generalizing a with
  | nil => simp
  | cons e es ih =>
    simp only [List.foldl_cons, List.map_cons, List.prod_cons, ih, amplitude_edge_step]
    push_cast
    ring

theorem foldl_node_step (ns : List SpinNode) (a : ℂ) :
    ns.foldl amplitude_node_step a = a * (((ns.map node_factor).prod : ℝ) : ℂ) := by
  induction ns generalizing a with
  | nil => simp
  | cons nd ns ih =>
    simp only [List.foldl_cons, List.map_cons, List.prod_cons, ih, amplitude_node_step, node_factor]
    split <;> push_cast <;> ring

/-- The amplitude is the real product of the edge factors and the node factors. -/
theorem spin_network_amplitude_eq (foam : SpinFoam) :
    spin_network_amplitude foam =
      (((foam.edges.map (fun e => 2.0 * e.j + 1.0)).prod *
        (foam.nodes.map node_factor).prod : ℝ) : ℂ) := by
  simp only [spin_network_amplitude, foldl_edge_step, foldl_node_step]
  push_cast
  norm_num

theorem sqrt_node_product :
    Real.sqrt (0.5 + 1.0) * Real.sqrt (0.5 + 0.5 + 1.0) * Real.sqrt (0.5 + 2 * 0.5 + 1.0) *
      Real.sqrt (0.5 + 3 * 0.5 + 1.0) = Real.sqrt 22.5 := by
  rw [← Real.sqrt_mul (by norm_num), ← Real.sqrt_mul (by norm_num), ← Real.sqrt_mul (by norm_num)]
  norm_num

/-- The edge array of the tetrahedral network, row by row. -/
theorem tetrahedral_edges_eq :
    create_tetrahedral_network.edges =
      [ init_edge (su2_element (PI / 4) 0.5 0.5 0.5) 0 (0, 1, 0),
        init_edge (su2_element (PI / 4) 0.5 0.5 0.5) 1 (0, 2, 1),
        init_edge (su2_element (PI / 4) 0.5 0.5 0.5) 2 (0, 3, 1),
        init_edge (su2_element (PI / 4) 0.5 0.5 0.5) 3 (1, 2, 2),
        init_edge (su2_element (PI / 4) 0.5 0.5 0.5) 4 (1, 3, 2),
        init_edge (su2_element (PI / 4) 0.5 0.5 0.5) 5 (2, 3, 3) ] := by
  rfl

/-- The node array of the tetrahedral network after the incident edges are set. -/
theorem tetrahedral_nodes_eq :
    create_tetrahedral_network.nodes =
      [ { init_node 0.5 0 with incident_edges := [some 0, some 1, some 2] },
        { init_node 0.5 1 with incident_edges := [some 0, some 3, some 4] },
        { init_node 0.5 2 with incident_edges := [some 1, some 3, some 5] },
        { init_node 0.5 3 with incident_edges := [some 2, some 4, some 5] } ] := by
  rfl

/-- The node array of the cubical network: every slot block is as allocated. -/
theorem cubical_nodes_eq :
    create_cubical_network.nodes = (List.range 8).map (init_node 0.25) := by
  rfl

theorem tetrahedral_amplitude_eq :
    spin_network_amplitude create_tetrahedral_network = ((1440 * Real.sqrt 22.5 : ℝ) : ℂ) := by
  rw [spin_network_amplitude_eq]
  congr 1
  rw [← sqrt_node_product, tetrahedral_edges_eq, tetrahedral_nodes_eq]
  simp only [init_edge, init_node, node_factor, List.map, List.prod_cons, List.prod_nil]
  norm_num
  have h2 : Real.sqrt 2 ≠ 0 := by positivity
  field_simp
  ring

/-- With time step 0 one pass of the evolution loop leaves the graph as it is. -/
theorem evolve_edge_zero (foam : SpinFoam) (e : Nat) : evolve_edge 0 foam e = foam := by
  unfold evolve_edge
  cases h : foam.edges[e]? with
  | none => rfl
  | some ed =>
    have hed : ({ ed with holonomy := ed.holonomy *
        (1.0 + Complex.I * ((0 : ℝ) : ℂ) *
          (curvature_operator foam ed.source + curvature_operator foam ed.target) / 2.0) } : SpinEdge)
        = ed := by
      norm_num
    simp only [hed]
    rw [set_getElem_same _ _ _ h]

theorem evolve_loop_zero (foam : SpinFoam) (l : List Nat) :
    l.foldl (evolve_edge 0) foam = foam := by
  induction l with
  | nil => rfl
  | cons e l ih => simp only [List.foldl_cons, evolve_edge_zero, ih]

/-- With time step 0 the call only refreshes the two cached fields. -/
theorem evolve_zero_eq (foam : SpinFoam) :
    evolve_spin_network foam 0 = refresh_cache foam := by
  unfold evolve_spin_network
  rw [evolve_loop_zero]

theorem gauss_fold (n : Int) (es : List SpinEdge) (s : ℝ) :
    es.foldl (gauss_step n) s = s + signed_spin_sum es n := by
  induction es generalizing s with
  | nil => simp [signed_spin_sum, out_spin_sum, in_spin_sum]
  | cons e es ih =>
    rw [List.foldl_cons, ih]
    simp only [signed_spin_sum, out_spin_sum, in_spin_sum, gauss_step, List.filter_cons]
    by_cases h1 : e.source = n <;> by_cases h2 : e.target = n <;> simp [h1, h2] <;> ring

/-- The running sum of `check_gauss_constraint` ends at the signed spin sum. -/
theorem gauss_sum_eq (foam : SpinFoam) (n : Int) :
    gauss_sum foam n = signed_spin_sum foam.edges n := by
  unfold gauss_sum
  rw [gauss_fold]
  norm_num

/-- On ids inside the edge array the loop of `wilson_loop` reads every edge and
multiplies the holonomies in sequence order. -/
theorem wilson_product_in_range (foam : SpinFoam) (seq : List Int) (p : ℂ)
    (h : ∀ id ∈ seq, 0 ≤ id ∧ id < foam.num_edges) :
    wilson_product foam seq p =
      some (seq.foldl (fun acc id => acc * holonomy_at foam id) p) := by
  induction seq generalizing p with
  | nil => rfl
  | cons id rest ih =>
    have hid := h id (List.mem_cons_self _ _)
    have hlt : id.toNat < foam.edges.length := by
      have := hid.2
      unfold SpinFoam.num_edges at this
      omega
    have hsome : edge_at foam id = some (foam.edges[id.toNat]) := by
      simp [edge_at, hid.1, List.getElem?_eq_getElem hlt]
    simp only [wilson_product, holonomy_at, hsome, List.foldl_cons, Option.map_some',
      Option.getD_some]
    exact ih _ (fun x hx => h x (List.mem_cons_of_mem _ hx))

/-- C1 (the code evaluated; the claim fails on it): the six edge spins of the
graph returned by `create_tetrahedral_network` are 0.5, 1, 1, 1.5, 1.5, 2, so
`spin_network_amplitude` and the cached amplitude field equal
`2*3*3*4*4*5 * sqrt(1.5*2*2.5*3) = 1440*sqrt(22.5)`, a real number, and not the
`5040*sqrt(22.5)` of the spins 0.5, 1, 1.5, 2, 2.5, 3 named in the claim and in
the comments of the edge table. -/
theorem tetrahedral_amplitude_value :
    create_tetrahedral_network.edges.map (fun e => e.j) = [0.5, 1, 1, 1.5, 1.5, 2] ∧
    create_tetrahedral_network.nodes.map (fun nd => nd.j_val) = [0.5, 1, 1.5, 2] ∧
    spin_network_amplitude create_tetrahedral_network = ((1440 * Real.sqrt 22.5 : ℝ) : ℂ) ∧
    create_tetrahedral_network.amplitude = ((1440 * Real.sqrt 22.5 : ℝ) : ℂ) ∧
    create_tetrahedral_network.amplitude.im = 0 ∧
    create_tetrahedral_network.amplitude ≠ ((5040 * Real.sqrt 22.5 : ℝ) : ℂ) := by
  have hamp : create_tetrahedral_network.amplitude = ((1440 * Real.sqrt 22.5 : ℝ) : ℂ) :=
    tetrahedral_amplitude_eq
  refine ⟨?_, ?_, tetrahedral_amplitude_eq, hamp, ?_, ?_⟩
  · rw [tetrahedral_edges_eq]
    simp only [init_edge, List.map]
    norm_num
  · rw [tetrahedral_nodes_eq]
    simp only [init_node, List.map]
    norm_num
  · rw [hamp]
    exact Complex.ofReal_im _
  · rw [hamp]
    intro h
    have h1 : (1440 : ℝ) * Real.sqrt 22.5 = 5040 * Real.sqrt 22.5 := Complex.ofReal_injective h
    have h2 : (0 : ℝ) < Real.sqrt 22.5 := Real.sqrt_pos.mpr (by norm_num)
    nlinarith

/-- C2: `create_tetrahedral_network` returns a graph with exactly 4 nodes, with
ids 0, 1, 2, 3 in order, and 6 edges; the node at index `i` has valence 3, spin
`0.5 + 0.5 * i`, amplitude `1 + 0i`, and an incident-edge list of exactly 3
written entries, which are the ids of the edges whose source or target is `i`,
in ascending order. -/
theorem tetrahedral_network_structure :
    create_tetrahedral_network.num_nodes = 4 ∧
    create_tetrahedral_network.num_edges = 6 ∧
    create_tetrahedral_network.nodes.map (fun nd => nd.id) = [0, 1, 2, 3] ∧
    ∀ (i : Nat) (nd : SpinNode), create_tetrahedral_network.nodes[i]? = some nd →
      nd.valence = 3 ∧ nd.j_val = 0.5 + 0.5 * (i : ℝ) ∧
      nd.amplitude = 1 + 0 * Complex.I ∧
      nd.incident_edges.length = 3 ∧
      nd.incident_edges = (incident_edge_ids create_tetrahedral_network i).map some ∧
      List.Sorted (fun a b => a < b) (incident_edge_ids create_tetrahedral_network i) := by
  refine ⟨by decide, by decide, by decide, ?_⟩
  intro i nd h
  rw [tetrahedral_nodes_eq] at h
  rcases i with _ | _ | _ | _ | i
  all_goals simp at h
  all_goals
    subst h
    refine ⟨rfl, ?_, ?_, rfl, by decide, by decide⟩
    · norm_num [init_node]
    · norm_num [init_node]

/-- C3 (the code evaluated; the claim fails on it): `create_cubical_network`
returns a graph with exactly 8 nodes, ids 0 to 7, and 12 edges; the node at
index `i` has valence 3 and spin `0.5 + 0.25 * i`, and exactly 3 edges have `i`
as source or target, but the three slots of its incident-edge list are never
written, so the list does not hold the ids of those edges. -/
theorem cubical_incident_edges_unwritten :
    create_cubical_network.num_nodes = 8 ∧
    create_cubical_network.num_edges = 12 ∧
    create_cubical_network.nodes.map (fun nd => nd.id) = [0, 1, 2, 3, 4, 5, 6, 7] ∧
    ∀ (i : Nat) (nd : SpinNode), create_cubical_network.nodes[i]? = some nd →
      nd.valence = 3 ∧ nd.j_val = 0.5 + 0.25 * (i : ℝ) ∧
      (incident_edge_ids create_cubical_network i).length = 3 ∧
      nd.incident_edges = [none, none, none] ∧
      nd.incident_edges ≠ (incident_edge_ids create_cubical_network i).map some := by
  refine ⟨by decide, by decide, by decide, ?_⟩
  intro i nd h
  rw [cubical_nodes_eq] at h
  have hi : i < 8 := by
    have := (List.getElem?_eq_some.mp h).1
    simpa using this
  rw [List.getElem?_map, List.getElem?_range hi] at h
  have hnd : nd = init_node 0.25 i := (Option.some.inj h).symm
  subst hnd
  refine ⟨rfl, ?_, ?_, rfl, ?_⟩
  · simp only [init_node]
    push_cast
    ring
  · interval_cases i <;> decide
  · interval_cases i <;> decide

/-- C5 as stated fails: on `stale_cache_graph`, whose cached amplitude is 0 and
cached action is 1, `evolve_spin_network(graph, 0)` overwrites the amplitude with
2 and the action with 0. -/
theorem evolve_zero_stale_cache :
    (evolve_spin_network stale_cache_graph 0).amplitude = 2 ∧
    (evolve_spin_network stale_cache_graph 0).action = 0 ∧
    (evolve_spin_network stale_cache_graph 0).amplitude ≠ stale_cache_graph.amplitude ∧
    (evolve_spin_network stale_cache_graph 0).action ≠ stale_cache_graph.action := by
  rw [evolve_zero_eq]
  have ha : (refresh_cache stale_cache_graph).amplitude = 2 := by
    show spin_network_amplitude stale_cache_graph = 2
    norm_num [spin_network_amplitude, stale_cache_graph, amplitude_edge_step, amplitude_node_step]
  have hb : (refresh_cache stale_cache_graph).action = 0 := by
    show regge_action stale_cache_graph = 0
    norm_num [regge_action, stale_cache_graph, regge_outer, regge_inner]
  refine ⟨ha, hb, ?_, ?_⟩
  · rw [ha]
    show (2 : ℂ) ≠ 0
    norm_num
  · rw [hb]
    show (0 : ℝ) ≠ 1
    norm_num

/-- C5 amended: for every graph whose cached amplitude and action are current
(equal to `spin_network_amplitude` and `regge_action` of the graph),
`evolve_spin_network(graph, 0)` leaves both cached fields equal to the values
they held before the call. -/
theorem evolve_zero_cache (foam : SpinFoam)
    (hamp : foam.amplitude = spin_network_amplitude foam)
    (hact : foam.action = regge_action foam) :
    (evolve_spin_network foam 0).amplitude = foam.amplitude ∧
    (evolve_spin_network foam 0).action = foam.action := by
  rw [evolve_zero_eq]
  exact ⟨hamp.symm, hact.symm⟩

/-- Witness of C5 amended: the cached fields of the tetrahedral network are
current, and a step with time step 0 keeps them. -/
theorem evolve_zero_cache_witness :
    create_tetrahedral_network.amplitude = spin_network_amplitude create_tetrahedral_network ∧
    create_tetrahedral_network.action = regge_action create_tetrahedral_network ∧
    (evolve_spin_network create_tetrahedral_network 0).amplitude =
      create_tetrahedral_network.amplitude ∧
    (evolve_spin_network create_tetrahedral_network 0).action =
      create_tetrahedral_network.action :=
  ⟨rfl, rfl, evolve_zero_cache create_tetrahedral_network rfl rfl⟩

/-- C6 as stated fails: in `tiny_spin_graph` node 0 has one incident edge, it is
outgoing and its spin `1e-11` is nonzero, yet `check_gauss_constraint` returns
true, because the spin is below the tolerance `1e-10`. -/
theorem gauss_tiny_spin_counterexample :
    (∃ e ∈ tiny_spin_graph.edges, e.source = 0 ∨ e.target = 0) ∧
    (∀ e ∈ tiny_spin_graph.edges, e.source = 0 ∨ e.target = 0 →
      e.source = 0 ∧ e.target ≠ 0 ∧ e.j ≠ 0) ∧
    check_gauss_constraint tiny_spin_graph 0 = true := by
  refine ⟨?_, ?_, ?_⟩
  · simp [tiny_spin_graph]
  · simp [tiny_spin_graph]
    norm_num
  · simp [check_gauss_constraint, gauss_sum_eq, signed_spin_sum, out_spin_sum, in_spin_sum,
      tiny_spin_graph, List.filter_cons]
    rw [abs_lt]
    constructor <;> norm_num

/-- C6 amended: for every graph and every node that has at least one incident
edge, all of whose incident edges are outgoing (the node is their source, never
a target) and have spin at least `1e-10`, `check_gauss_constraint` returns
false. -/
theorem gauss_outgoing_false (foam : SpinFoam) (n : Int)
    (hex : ∃ e ∈ foam.edges, e.source = n ∨ e.target = n)
    (hout : ∀ e ∈ foam.edges, e.source = n ∨ e.target = n →
      e.source = n ∧ e.target ≠ n ∧ 1e-10 ≤ e.j) :
    check_gauss_constraint foam n = false := by
  have hin : in_spin_sum foam.edges n = 0 := by
    have : foam.edges.filter (fun e => decide (e.target = n)) = [] := by
      rw [List.filter_eq_nil_iff]
      intro e he
      simp only [decide_eq_true_eq]
      intro ht
      exact (hout e he (Or.inr ht)).2.1 ht
    simp [in_spin_sum, this]
  obtain ⟨e, he, hinc⟩ := hex
  have hsrc := (hout e he hinc).1
  have hj := (hout e he hinc).2.2
  have hmem : e.j ∈ (foam.edges.filter (fun e => decide (e.source = n))).map (fun e => e.j) := by
    apply List.mem_map.mpr
    exact ⟨e, List.mem_filter.mpr ⟨he, by simpa using hsrc⟩, rfl⟩
  have hnonneg : ∀ x ∈ (foam.edges.filter (fun e => decide (e.source = n))).map (fun e => e.j),
      (0 : ℝ) ≤ x := by
    intro x hx
    obtain ⟨d, hd, rfl⟩ := List.mem_map.mp hx
    have hd2 := List.mem_filter.mp hd
    have := (hout d hd2.1 (Or.inl (by simpa using hd2.2))).2.2
    linarith
  have hle : e.j ≤ out_spin_sum foam.edges n := List.single_le_sum hnonneg _ hmem
  have hS : (1e-10 : ℝ) ≤ |signed_spin_sum foam.edges n| := by
    rw [signed_spin_sum, hin, sub_zero]
    exact le_trans (le_trans hj hle) (le_abs_self _)
  simp only [check_gauss_constraint, gauss_sum_eq, decide_eq_false_iff_not, not_lt]
  exact hS

/-- Witness of C6 amended: node 0 of the tetrahedral network has incident edges,
all outgoing with spin at least `1e-10`, and `check_gauss_constraint` is false. -/
theorem gauss_outgoing_false_witness :
    (∃ e ∈ create_tetrahedral_network.edges, e.source = 0 ∨ e.target = 0) ∧
    (∀ e ∈ create_tetrahedral_network.edges, e.source = 0 ∨ e.target = 0 →
      e.source = 0 ∧ e.target ≠ 0 ∧ 1e-10 ≤ e.j) ∧
    check_gauss_constraint create_tetrahedral_network 0 = false :=
  have h1 : ∃ e ∈ create_tetrahedral_network.edges, e.source = 0 ∨ e.target = 0 := by decide
  have h2 : ∀ e ∈ create_tetrahedral_network.edges, e.source = 0 ∨ e.target = 0 →
      e.source = 0 ∧ e.target ≠ 0 ∧ 1e-10 ≤ e.j := by
    rw [tetrahedral_edges_eq]
    simp [init_edge]
    norm_num
  ⟨h1, h2, gauss_outgoing_false create_tetrahedral_network 0 h1 h2⟩

/-- C7: for every graph and node id `n`, `check_gauss_constraint(graph, n)`
returns true if and only if `|S| < 1e-10`, where `S` is the sum of `j` over the
edges with source `n` minus the sum of `j` over the edges with target `n`; an
edge with source = target = `n` contributes zero to `S`; and node 1 of
`gauss_balanced_graph`, the target of one edge with `j = 1` and the source of
one edge with `j = 1`, yields true. -/
theorem gauss_constraint_iff (foam : SpinFoam) (n : Int) :
    (check_gauss_constraint foam n = true ↔ |signed_spin_sum foam.edges n| < 1e-10) ∧
    (∀ (pre post : List SpinEdge) (e : SpinEdge), e.source = n → e.target = n →
      signed_spin_sum (pre ++ e :: post) n = signed_spin_sum (pre ++ post) n) ∧
    check_gauss_constraint gauss_balanced_graph 1 = true := by
  refine ⟨?_, ?_, ?_⟩
  · simp [check_gauss_constraint, gauss_sum_eq]
  · intro pre post e hs ht
    simp [signed_spin_sum, out_spin_sum, in_spin_sum, List.filter_cons, hs, ht]
    ring
  · simp [check_gauss_constraint, gauss_sum_eq, signed_spin_sum, out_spin_sum, in_spin_sum,
      gauss_balanced_graph, List.filter_cons]
    norm_num

/-- C10: for every `max_n >= 0`, `generate_spectrum(max_n)` produces exactly
`max_n` entries, and for each `n` with `0 <= n < max_n` entry `n` has quantum
number `n`, area `area_eigenvalue(n/2)`, volume
`volume_eigenvalue(n/2, n/2, n/2)` and degeneracy `2*(n/2)+1 = n+1`; and
`generate_spectrum(1)` is the single entry with `n = 0`, area 0, volume 0,
degeneracy 1. -/
theorem generate_spectrum_entries (max_n : Int) (h : 0 ≤ max_n) :
    (((generate_spectrum max_n).length : Nat) : Int) = max_n ∧
    (∀ n : Nat, (n : Int) < max_n →
      ∃ s, (generate_spectrum max_n)[n]? = some s ∧ s.n = (n : Int) ∧
        s.area = area_eigenvalue ((n : ℝ) / 2) ∧
        s.volume = volume_eigenvalue ((n : ℝ) / 2) ((n : ℝ) / 2) ((n : ℝ) / 2) ∧
        s.degeneracy = 2 * ((n : ℝ) / 2) + 1 ∧ s.degeneracy = (n : ℝ) + 1) ∧
    generate_spectrum 1 = [ { n := 0, area := 0, volume := 0, degeneracy := 1 } ] := by
  refine ⟨?_, ?_, ?_⟩
  · simp [generate_spectrum, Int.toNat_of_nonneg h]
  · intro n hn
    have hlt : n < max_n.toNat := by omega
    have hhalf : (0.5 : ℝ) * ((n : Int) : ℝ) = (n : ℝ) / 2 := by push_cast; ring
    refine ⟨spectrum_entry n, ?_, ?_⟩
    · simp only [generate_spectrum]
      rw [List.getElem?_map, List.getElem?_range hlt]
      rfl
    · refine ⟨rfl, ?_, ?_, ?_, ?_⟩
      · show area_eigenvalue (0.5 * ((n : Int) : ℝ)) = area_eigenvalue ((n : ℝ) / 2)
        rw [hhalf]
      · show volume_eigenvalue (0.5 * ((n : Int) : ℝ)) (0.5 * ((n : Int) : ℝ))
          (0.5 * ((n : Int) : ℝ)) = volume_eigenvalue ((n : ℝ) / 2) ((n : ℝ) / 2) ((n : ℝ) / 2)
        rw [hhalf]
      · show 2.0 * (0.5 * ((n : Int) : ℝ)) + 1.0 = 2 * ((n : ℝ) / 2) + 1
        rw [hhalf]
        norm_num
      · show 2.0 * (0.5 * ((n : Int) : ℝ)) + 1.0 = (n : ℝ) + 1
        rw [hhalf]
        norm_num
        ring
  · norm_num [generate_spectrum, spectrum_entry, List.range, List.range.loop, area_eigenvalue,
      volume_eigenvalue]

/-- Witness of C10: `max_n = 1` is non-negative, `generate_spectrum(1)` has
exactly one entry, and entry 0 has quantum number 0, area `area_eigenvalue(0)`,
volume `volume_eigenvalue(0, 0, 0)` and degeneracy 1. -/
theorem generate_spectrum_entries_witness :
    (0 : Int) ≤ 1 ∧
    ((((generate_spectrum 1).length : Nat) : Int) = 1 ∧
    (∀ n : Nat, (n : Int) < 1 →
      ∃ s, (generate_spectrum 1)[n]? = some s ∧ s.n = (n : Int) ∧
        s.area = area_eigenvalue ((n : ℝ) / 2) ∧
        s.volume = volume_eigenvalue ((n : ℝ) / 2) ((n : ℝ) / 2) ((n : ℝ) / 2) ∧
        s.degeneracy = 2 * ((n : ℝ) / 2) + 1 ∧ s.degeneracy = (n : ℝ) + 1) ∧
    generate_spectrum 1 = [ { n := 0, area := 0, volume := 0, degeneracy := 1 } ]) :=
  ⟨by decide, generate_spectrum_entries 1 (by decide)⟩

theorem area_prefactor_nonneg : 0 ≤ 8.0 * PI * GAMMA * HBAR * G / (C * C * C) := by
  unfold PI GAMMA HBAR G C
  norm_num

theorem area_eigenvalue_factor (j : ℝ) :
    area_eigenvalue j = 8.0 * PI * GAMMA * HBAR * G / (C * C * C) * Real.sqrt (j * (j + 1.0)) := by
  unfold area_eigenvalue
  ring

/-- C11: `area_eigenvalue` is non-decreasing on non-negative spins. -/
theorem area_eigenvalue_monotone (j1 j2 : ℝ) (h0 : 0 ≤ j1) (h12 : j1 ≤ j2) :
    area_eigenvalue j1 ≤ area_eigenvalue j2 ∧
    area_eigenvalue j2 = 8 * PI * GAMMA * HBAR * G * Real.sqrt (j2 * (j2 + 1)) / C ^ 3 := by
  constructor
  · rw [area_eigenvalue_factor, area_eigenvalue_factor]
    apply mul_le_mul_of_nonneg_left _ area_prefactor_nonneg
    apply Real.sqrt_le_sqrt
    norm_num
    nlinarith
  · unfold area_eigenvalue
    norm_num
    ring

theorem area_eigenvalue_monotone_witness :
    (0 : ℝ) ≤ 0.5 ∧ (0.5 : ℝ) ≤ 1 ∧ area_eigenvalue 0.5 ≤ area_eigenvalue 1 :=
  ⟨by norm_num, by norm_num, (area_eigenvalue_monotone 0.5 1 (by norm_num) (by norm_num)).1⟩

theorem edge_at_eq_none_iff (foam : SpinFoam) (id : Int) :
    edge_at foam id = none ↔ (id < 0 ∨ foam.num_edges ≤ id) := by
  unfold edge_at SpinFoam.num_edges
  by_cases h : 0 ≤ id
  · simp only [h, if_true, List.getElem?_eq_none_iff]
    omega
  · simp only [h, if_false, true_iff]
    omega

theorem wilson_out_of_range (foam : SpinFoam) (seq : List Int) (p : ℂ)
    (h : ∃ id ∈ seq, id < 0 ∨ foam.num_edges ≤ id) :
    ∃ id ∈ seq, (id < 0 ∨ foam.num_edges ≤ id) ∧
      wilson_loop_call foam seq p = CallOutcome.read_outside id ∧
      wilson_product foam seq p = none := by
  induction seq generalizing p with
  | nil => simp at h
  | cons x rest ih =>
    cases hx : edge_at foam x with
    | none =>
      refine ⟨x, List.mem_cons_self _ _, (edge_at_eq_none_iff foam x).mp hx, ?_, ?_⟩
      · simp only [wilson_loop_call, hx]
      · simp only [wilson_product, hx]
    | some e =>
      have hrest : ∃ id ∈ rest, id < 0 ∨ foam.num_edges ≤ id := by
        obtain ⟨id, hid, hbad⟩ := h
        rcases List.mem_cons.mp hid with rfl | hmem
        · have := (edge_at_eq_none_iff foam id).mpr hbad
          rw [hx] at this
          cases this
        · exact ⟨id, hmem, hbad⟩
      obtain ⟨id, hid, hbad, h1, h2⟩ := ih (p * e.holonomy) hrest
      refine ⟨id, List.mem_cons_of_mem _ hid, hbad, ?_, ?_⟩
      · simp only [wilson_loop_call, hx, h1]
      · simp only [wilson_product, hx, h2]

/-- C12 as stated fails: the spin `-2` is negative, yet the call of
`area_eigenvalue` does not fail with `InvalidSpin`; it returns the positive
number `area_eigenvalue(1)`, because `(-2) * (-2 + 1) = 2 = 1 * (1 + 1)`. -/
theorem area_eigenvalue_negative_returns :
    (-2 : ℝ) < 0 ∧
    area_eigenvalue_call (-2) = CallOutcome.returned (area_eigenvalue 1) ∧
    area_eigenvalue_call (-2) ≠ CallOutcome.failed LqgError.InvalidSpin ∧
    0 < area_eigenvalue (-2) := by
  have h : area_eigenvalue (-2) = area_eigenvalue 1 := by
    unfold area_eigenvalue
    norm_num
  refine ⟨by norm_num, ?_, ?_, ?_⟩
  · simp only [area_eigenvalue_call, h]
  · simp [area_eigenvalue_call]
  · rw [h]
    unfold area_eigenvalue PI GAMMA HBAR G C
    have : 0 < Real.sqrt (1 * (1 + 1.0)) := Real.sqrt_pos.mpr (by norm_num)
    positivity

/-- C12 amended: for every spin `j <= -1` the call of `area_eigenvalue` does
not fail; it returns the non-negative number
`8 * PI * GAMMA * HBAR * G * sqrt(j * (j + 1)) / C^3`, whose square-root argument
is non-negative and which equals `area_eigenvalue(-1 - j)`. -/
theorem area_eigenvalue_no_guard (j : ℝ) (hj : j ≤ -1) :
    area_eigenvalue_call j =
      CallOutcome.returned (8 * PI * GAMMA * HBAR * G * Real.sqrt (j * (j + 1)) / C ^ 3) ∧
    0 ≤ j * (j + 1) ∧
    0 ≤ area_eigenvalue j ∧
    area_eigenvalue j = area_eigenvalue (-1 - j) := by
  refine ⟨?_, by nlinarith, ?_, ?_⟩
  · simp only [area_eigenvalue_call, area_eigenvalue]
    congr 1
    norm_num
    ring
  · rw [area_eigenvalue_factor]
    exact mul_nonneg area_prefactor_nonneg (Real.sqrt_nonneg _)
  · unfold area_eigenvalue
    have : (-1 - j) * (-1 - j + 1.0) = j * (j + 1.0) := by ring
    rw [this]

/-- Witness of C12 amended: at `j = -2` the call returns a non-negative number. -/
theorem area_eigenvalue_no_guard_witness :
    (-2 : ℝ) ≤ -1 ∧
    (area_eigenvalue_call (-2) =
      CallOutcome.returned (8 * PI * GAMMA * HBAR * G * Real.sqrt (-2 * (-2 + 1)) / C ^ 3) ∧
    0 ≤ (-2 : ℝ) * (-2 + 1) ∧
    0 ≤ area_eigenvalue (-2) ∧
    area_eigenvalue (-2) = area_eigenvalue (-1 - -2)) :=
  ⟨by norm_num, area_eigenvalue_no_guard (-2) (by norm_num)⟩

/-- C13 as stated fails: the sequence 0, 6 contains the id 6, which is not below
`num_edges = 6` of the tetrahedral network, yet `wilson_loop` signals no
`OutOfRangeEdgeId` error; it reads `foam->edges[6]`, outside the edge array. -/
theorem wilson_loop_no_bounds_error :
    (∃ id ∈ [(0 : Int), 6], id < 0 ∨ create_tetrahedral_network.num_edges ≤ id) ∧
    wilson_loop_call create_tetrahedral_network [0, 6] (1.0 + 0.0 * Complex.I) =
      CallOutcome.read_outside 6 ∧
    wilson_loop_call create_tetrahedral_network [0, 6] (1.0 + 0.0 * Complex.I) ≠
      CallOutcome.failed LqgError.OutOfRangeEdgeId ∧
    wilson_loop create_tetrahedral_network [0, 6] = none := by
  have h0 : edge_at create_tetrahedral_network 0 =
      some (init_edge (su2_element (PI / 4) 0.5 0.5 0.5) 0 (0, 1, 0)) := by rfl
  have h6 : edge_at create_tetrahedral_network 6 = none := by rfl
  have hcall : wilson_loop_call create_tetrahedral_network [0, 6] (1.0 + 0.0 * Complex.I) =
      CallOutcome.read_outside 6 := by
    simp only [wilson_loop_call, h0, h6]
  refine ⟨by decide, hcall, ?_, ?_⟩
  · rw [hcall]
    simp
  · simp only [wilson_loop, wilson_product, h0, h6, Option.map_none']

/-- C13 amended: for every graph and every edge sequence that contains an id
below 0 or at least `num_edges`, `wilson_loop` tests no bound and signals no
error: at such an id of the sequence it reads `foam->edges[id]` outside the
edge collection (undefined behaviour in C), so no result is defined. -/
theorem wilson_loop_reads_outside (foam : SpinFoam) (seq : List Int)
    (h : ∃ id ∈ seq, id < 0 ∨ foam.num_edges ≤ id) :
    ∃ id ∈ seq, (id < 0 ∨ foam.num_edges ≤ id) ∧
      wilson_loop_call foam seq (1.0 + 0.0 * Complex.I) = CallOutcome.read_outside id ∧
      wilson_loop foam seq = none := by
  obtain ⟨id, hid, hbad, h1, h2⟩ := wilson_out_of_range foam seq (1.0 + 0.0 * Complex.I) h
  exact ⟨id, hid, hbad, h1, by simp only [wilson_loop, h2, Option.map_none']⟩

/-- Witness of C13 amended: on the tetrahedral network the sequence 0, 6 makes
`wilson_loop` read outside the edge array. -/
theorem wilson_loop_reads_outside_witness :
    (∃ id ∈ [(0 : Int), 6], id < 0 ∨ create_tetrahedral_network.num_edges ≤ id) ∧
    ∃ id ∈ [(0 : Int), 6], (id < 0 ∨ create_tetrahedral_network.num_edges ≤ id) ∧
      wilson_loop_call create_tetrahedral_network [0, 6] (1.0 + 0.0 * Complex.I) =
        CallOutcome.read_outside id ∧
      wilson_loop create_tetrahedral_network [0, 6] = none :=
  ⟨by decide, wilson_loop_reads_outside create_tetrahedral_network [0, 6] (by decide)⟩

theorem regge_inner_eq (ei : SpinEdge) (rest : List SpinEdge) (a : ℝ) :
    regge_inner ei rest a =
      a + PI / 3 * ∑ k : Fin rest.length,
        if share_node ei (rest.get k) then area_eigenvalue ei.j else 0 := by
  unfold regge_inner
  induction rest generalizing a with
  | nil => simp
  | cons x xs ih =>
    rw [List.foldl_cons, ih]
    simp only [List.length_cons, Fin.sum_univ_succ, List.get_cons_zero, List.get_cons_succ]
    split_ifs <;> norm_num
    all_goals ring

theorem sharing_pair_area_sum_cons (e : SpinEdge) (es : List SpinEdge) :
    sharing_pair_area_sum (e :: es) =
      (∑ k : Fin es.length, if share_node e (es.get k) then area_eigenvalue e.j else 0) +
        sharing_pair_area_sum es := by
  unfold sharing_pair_area_sum
  simp only [List.length_cons, Fin.sum_univ_succ, List.get_cons_zero, List.get_cons_succ, List.get_cons_succ',
    Fin.succ_pos, Fin.succ_lt_succ_iff, lt_self_iff_false, false_and, if_false, true_and,
    zero_add, Fin.not_lt_zero]

theorem regge_outer_eq (es : List SpinEdge) (a : ℝ) :
    regge_outer es a = a + PI / 3 * sharing_pair_area_sum es := by
  induction es generalizing a with
  | nil => simp [regge_outer, sharing_pair_area_sum]
  | cons e es ih =>
    rw [regge_outer, ih, regge_inner_eq, sharing_pair_area_sum_cons]
    ring

/-- C14: for every graph, `regge_action` equals `PI / 3` times the sum, over all
index pairs `i < k` of edges that share at least one endpoint, of
`area_eigenvalue` of the spin of edge `i`; in particular two edges that share
an endpoint (one or both) contribute exactly once, with the area of the
lower-indexed edge. -/
theorem regge_action_pair_sum (foam : SpinFoam) :
    regge_action foam = PI / 3 * sharing_pair_area_sum foam.edges ∧
    ∀ e0 e1 : SpinEdge, share_node e0 e1 →
      regge_action { foam with edges := [e0, e1] } = PI / 3 * area_eigenvalue e0.j := by
  constructor
  · unfold regge_action
    rw [regge_outer_eq]
    norm_num
  · intro e0 e1 h
    simp only [regge_action, regge_outer, regge_inner, List.foldl_cons, List.foldl_nil, h,
      if_true]
    norm_num
    ring

theorem foldl_add_const (l : List Nat) (c a : ℝ) :
    l.foldl (fun volume _k => volume + c) a = a + (l.length : ℝ) * c := by
  induction l generalizing a with
  | nil => simp
  | cons x xs ih =>
    rw [List.foldl_cons, ih]
    simp only [List.length_cons]
    push_cast
    ring

theorem foldl_add_count (l : List Nat) (f : Nat → Nat) (g : Nat → ℝ → ℝ) (c a : ℝ)
    (hg : ∀ x v, g x v = v + (f x : ℝ) * c) :
    l.foldl (fun volume x => g x volume) a = a + ((l.map f).sum : ℝ) * c := by
  induction l generalizing a with
  | nil => simp
  | cons x xs ih =>
    rw [List.foldl_cons, ih, hg]
    simp only [List.map_cons, List.sum_cons]
    push_cast
    ring

/-- Twice the number of passes of the k loops inside one j loop of
`volume_operator` that runs `m` times: `m * (m - 1)`. -/
theorem triangle_sum (v m : Nat) (hm : m ≤ v) :
    2 * ((List.range' (v - m) m).map (fun j => v - (j + 1))).sum = m * (m - 1) := by
  induction m with
  | zero => simp
  | succ m ih =>
    have h1 : v - (m + 1) + 1 = v - m := by omega
    rw [List.range'_succ, List.map_cons, List.sum_cons, h1, Nat.mul_add, ih (by omega)]
    have h2 : v - (v - m) = m := by omega
    rw [h2]
    cases m with
    | zero => simp
    | succ k => simp only [Nat.add_sub_cancel]; ring

/-- The k loop adds the term once for every `k` with `j < k < valence`. -/
theorem volume_k_loop_eq (node : SpinNode) (j : Nat) (a : ℝ) :
    volume_k_loop node j a =
      a + ((node.valence.toNat - (j + 1) : ℕ) : ℝ) * volume_term node := by
  unfold volume_k_loop
  rw [foldl_add_const, List.length_range']

theorem volume_j_loop_eq (node : SpinNode) (i : Nat) (a : ℝ) :
    volume_j_loop node i a =
      a + ((((List.range' (i + 1) (node.valence.toNat - (i + 1))).map
        (fun j => node.valence.toNat - (j + 1))).sum : ℕ) : ℝ) * volume_term node := by
  unfold volume_j_loop
  exact foldl_add_count _ (fun j => node.valence.toNat - (j + 1)) _ _ _
    (fun x v => volume_k_loop_eq node x v)

theorem falling_sum (v : Nat) :
    3 * ((List.range v).map (fun i => (v - (i + 1)) * (v - (i + 1) - 1))).sum =
      v * (v - 1) * (v - 2) := by
  induction v with
  | zero => simp
  | succ v ih =>
    rw [List.range_succ_eq_map, List.map_cons, List.sum_cons, List.map_map, Nat.mul_add]
    have hcongr : (List.map ((fun i => (v + 1 - (i + 1)) * (v + 1 - (i + 1) - 1)) ∘ Nat.succ)
        (List.range v)) = (List.range v).map (fun i => (v - (i + 1)) * (v - (i + 1) - 1)) := by
      apply List.map_congr_left
      intro i _
      simp only [Function.comp, Nat.succ_eq_add_one, Nat.add_sub_add_right]
    rw [hcongr, ih]
    simp only [Nat.add_sub_cancel, Nat.zero_add]
    rcases v with _ | _ | v
    · simp
    · simp
    · have e1 : v + 1 + 1 - 1 = v + 1 := by omega
      have e2 : v + 1 + 1 - 2 = v := by omega
      have e3 : v + 1 + 1 + 1 - 2 = v + 1 := by omega
      rw [e1, e2, e3]
      ring

theorem triple_count (v : Nat) :
    6 * ((List.range v).map (fun i => ((List.range' (i + 1) (v - (i + 1))).map
        (fun j => v - (j + 1))).sum)).sum = v * (v - 1) * (v - 2) := by
  have h : ∀ i ∈ List.range v,
      2 * ((List.range' (i + 1) (v - (i + 1))).map (fun j => v - (j + 1))).sum =
        (v - (i + 1)) * (v - (i + 1) - 1) := by
    intro i hi
    have hlt : i < v := List.mem_range.mp hi
    have := triangle_sum v (v - (i + 1)) (by omega)
    rwa [show v - (v - (i + 1)) = i + 1 by omega] at this
  have h2 : 2 * ((List.range v).map (fun i => ((List.range' (i + 1) (v - (i + 1))).map
        (fun j => v - (j + 1))).sum)).sum =
      ((List.range v).map (fun i => (v - (i + 1)) * (v - (i + 1) - 1))).sum := by
    rw [← List.sum_map_mul_left]
    congr 1
    exact List.map_congr_left h
  calc 6 * _ = 3 * (2 * _) := by ring
    _ = _ := by rw [h2, falling_sum]

/-- The value of `volume` at the end of the three loops of `volume_operator`:
the number of passes times the term. -/
theorem volume_loops_eq (node : SpinNode) :
    (List.range node.valence.toNat).foldl (fun volume i => volume_j_loop node i volume) 0.0 =
      ((((List.range node.valence.toNat).map (fun i =>
        ((List.range' (i + 1) (node.valence.toNat - (i + 1))).map
          (fun j => node.valence.toNat - (j + 1))).sum)).sum : ℕ) : ℝ) * volume_term node := by
  rw [foldl_add_count _ (fun i => ((List.range' (i + 1) (node.valence.toNat - (i + 1))).map
      (fun j => node.valence.toNat - (j + 1))).sum) _ (volume_term node) _
    (fun x v => volume_j_loop_eq node x v)]
  norm_num

theorem triple_count_real (valence : Int) (h : 4 ≤ valence) :
    ((((List.range valence.toNat).map (fun i =>
        ((List.range' (i + 1) (valence.toNat - (i + 1))).map
          (fun j => valence.toNat - (j + 1))).sum)).sum : ℕ) : ℝ) =
      (valence : ℝ) * ((valence : ℝ) - 1) * ((valence : ℝ) - 2) / 6 := by
  have hv : ((valence.toNat : ℕ) : ℝ) = (valence : ℝ) := by
    have : ((valence.toNat : ℕ) : ℤ) = valence := Int.toNat_of_nonneg (by omega)
    exact_mod_cast this
  have h4 : 4 ≤ valence.toNat := by omega
  have hc := triple_count valence.toNat
  have hcr : (6 : ℝ) * ((((List.range valence.toNat).map (fun i =>
        ((List.range' (i + 1) (valence.toNat - (i + 1))).map
          (fun j => valence.toNat - (j + 1))).sum)).sum : ℕ) : ℝ) =
      ((valence.toNat : ℕ) : ℝ) * (((valence.toNat : ℕ) : ℝ) - 1) *
        (((valence.toNat : ℕ) : ℝ) - 2) := by
    have := congrArg (fun n : ℕ => (n : ℝ)) hc
    simp only [Nat.cast_mul, Nat.cast_sub (show 1 ≤ valence.toNat by omega),
      Nat.cast_sub (show 2 ≤ valence.toNat by omega)] at this
    exact_mod_cast this
  rw [hv] at hcr
  linarith

/-- C15: for every node, `volume_operator` returns 0 when `valence < 4`, and
when `valence = v >= 4` it returns
`L_PLANCK^3 * sqrt(v(v-1)(v-2)/6 * sqrt(|j_val|^3))`; the result depends only on
`valence` and `j_val`, not on the contents of the incident-edge list. -/
theorem volume_operator_formula (node : SpinNode) :
    (node.valence < 4 → volume_operator node = 0) ∧
    (4 ≤ node.valence → volume_operator node =
      L_PLANCK ^ 3 * Real.sqrt ((node.valence : ℝ) * ((node.valence : ℝ) - 1) *
        ((node.valence : ℝ) - 2) / 6 * Real.sqrt (|node.j_val| ^ 3))) ∧
    (∀ other : SpinNode, other.valence = node.valence → other.j_val = node.j_val →
      volume_operator other = volume_operator node) := by
  refine ⟨?_, ?_, ?_⟩
  · intro h
    simp only [volume_operator, h, if_true]
    norm_num
  · intro h
    have hnot : ¬ node.valence < 4 := by omega
    have hterm : volume_term node = Real.sqrt (|node.j_val| ^ 3) := by
      simp only [volume_term, abs_mul]
      congr 1
      ring
    have hcount : (0 : ℝ) ≤ (node.valence : ℝ) * ((node.valence : ℝ) - 1) *
        ((node.valence : ℝ) - 2) / 6 := by
      rw [← triple_count_real node.valence h]
      positivity
    simp only [volume_operator, hnot, if_false, volume_loops_eq, triple_count_real node.valence h,
      hterm]
    rw [abs_of_nonneg (mul_nonneg hcount (Real.sqrt_nonneg _))]
    ring
  · intro other h1 h2
    simp only [volume_operator, volume_j_loop, volume_k_loop, volume_term, h1, h2]

theorem node_factor_prod (ns : List SpinNode) :
    (ns.map node_factor).prod =
      ((ns.filter (fun nd => decide (nd.valence ≥ 3))).map
        (fun nd => Real.sqrt (nd.j_val + 1))).prod := by
  induction ns with
  | nil => simp
  | cons nd ns ih =>
    rw [List.map_cons, List.prod_cons, ih]
    by_cases h : nd.valence ≥ 3
    · simp only [List.filter_cons, h, decide_True, if_true, List.map_cons, List.prod_cons,
        node_factor]
      norm_num
    · simp only [List.filter_cons, h, decide_False, node_factor, if_false, one_mul]
      simp

/-- C16: for every graph whose node spins `j_val` and edge spins `j` are
non-negative, `spin_network_amplitude` equals the product over all edges of
`2j + 1` times the product over the nodes with `valence >= 3` of
`sqrt(j_val + 1)`, and its imaginary part is 0. -/
theorem spin_network_amplitude_product (foam : SpinFoam)
    (_hn : ∀ nd ∈ foam.nodes, 0 ≤ nd.j_val) (_he : ∀ e ∈ foam.edges, 0 ≤ e.j) :
    spin_network_amplitude foam =
      (((foam.edges.map (fun e => 2 * e.j + 1)).prod *
        ((foam.nodes.filter (fun nd => decide (nd.valence ≥ 3))).map
          (fun nd => Real.sqrt (nd.j_val + 1))).prod : ℝ) : ℂ) ∧
    (spin_network_amplitude foam).im = 0 := by
  have h : spin_network_amplitude foam =
      (((foam.edges.map (fun e => 2 * e.j + 1)).prod *
        ((foam.nodes.filter (fun nd => decide (nd.valence ≥ 3))).map
          (fun nd => Real.sqrt (nd.j_val + 1))).prod : ℝ) : ℂ) := by
    rw [spin_network_amplitude_eq, node_factor_prod]
    norm_num
  exact ⟨h, by rw [h]; exact Complex.ofReal_im _⟩

/-- Witness of C16: the spins of the tetrahedral network are non-negative, and
its amplitude is the stated real product. -/
theorem spin_network_amplitude_product_witness :
    (∀ nd ∈ create_tetrahedral_network.nodes, 0 ≤ nd.j_val) ∧
    (∀ e ∈ create_tetrahedral_network.edges, 0 ≤ e.j) ∧
    (spin_network_amplitude create_tetrahedral_network =
      (((create_tetrahedral_network.edges.map (fun e => 2 * e.j + 1)).prod *
        ((create_tetrahedral_network.nodes.filter (fun nd => decide (nd.valence ≥ 3))).map
          (fun nd => Real.sqrt (nd.j_val + 1))).prod : ℝ) : ℂ) ∧
    (spin_network_amplitude create_tetrahedral_network).im = 0) :=
  have hn : ∀ nd ∈ create_tetrahedral_network.nodes, 0 ≤ nd.j_val := by
    rw [tetrahedral_nodes_eq]
    simp [init_node]
    norm_num
  have he : ∀ e ∈ create_tetrahedral_network.edges, 0 ≤ e.j := by
    rw [tetrahedral_edges_eq]
    simp [init_edge]
    norm_num
  ⟨hn, he, spin_network_amplitude_product create_tetrahedral_network hn he⟩

/-- One pass of the evolution loop changes no node, not the face count, and no
edge field other than `holonomy`. -/
theorem evolve_edge_frame (time_step : ℝ) (foam : SpinFoam) (e : Nat) :
    (evolve_edge time_step foam e).nodes = foam.nodes ∧
    (evolve_edge time_step foam e).num_faces = foam.num_faces ∧
    (evolve_edge time_step foam e).edges.map edge_frame = foam.edges.map edge_frame := by
  unfold evolve_edge
  cases h : foam.edges[e]? with
  | none => exact ⟨rfl, rfl, rfl⟩
  | some ed =>
    refine ⟨rfl, rfl, ?_⟩
    simp only [List.map_set]
    apply set_getElem_same
    rw [List.getElem?_map, h]
    rfl

theorem evolve_loop_frame (time_step : ℝ) (l : List Nat) (foam : SpinFoam) :
    (l.foldl (evolve_edge time_step) foam).nodes = foam.nodes ∧
    (l.foldl (evolve_edge time_step) foam).num_faces = foam.num_faces ∧
    (l.foldl (evolve_edge time_step) foam).edges.map edge_frame = foam.edges.map edge_frame := by
  induction l generalizing foam with
  | nil => exact ⟨rfl, rfl, rfl⟩
  | cons e l ih =>
    rw [List.foldl_cons]
    obtain ⟨h1, h2, h3⟩ := ih (evolve_edge time_step foam e)
    obtain ⟨g1, g2, g3⟩ := evolve_edge_frame time_step foam e
    exact ⟨h1.trans g1, h2.trans g2, h3.trans g3⟩

/-- The call of `evolve_spin_network` changes no node, not the face count, and
no edge field other than `holonomy`. -/
theorem evolve_spin_network_frame (foam : SpinFoam) (time_step : ℝ) :
    (evolve_spin_network foam time_step).nodes = foam.nodes ∧
    (evolve_spin_network foam time_step).num_faces = foam.num_faces ∧
    (evolve_spin_network foam time_step).edges.map edge_frame = foam.edges.map edge_frame := by
  unfold evolve_spin_network
  exact evolve_loop_frame time_step _ foam

/-- After the two final assignments the cached fields are current. -/
theorem refresh_cache_current (foam : SpinFoam) : cache_is_current (refresh_cache foam) :=
  ⟨rfl, rfl⟩

/-- C17: for every graph and every time step, `evolve_spin_network` changes
nothing except the holonomy fields of the edges and the cached amplitude and
action of the graph: `num_nodes`, `num_edges`, `num_faces`, every node (id,
valence, j_val, amplitude, incident-edge list) and the id, source, target, j,
length, area and orientation of every edge are the same after the call as
before. -/
theorem evolve_changes_only_holonomy (foam : SpinFoam) (time_step : ℝ) :
    (evolve_spin_network foam time_step).num_nodes = foam.num_nodes ∧
    (evolve_spin_network foam time_step).num_edges = foam.num_edges ∧
    (evolve_spin_network foam time_step).num_faces = foam.num_faces ∧
    (evolve_spin_network foam time_step).nodes = foam.nodes ∧
    (evolve_spin_network foam time_step).edges.map edge_frame = foam.edges.map edge_frame := by
  obtain ⟨h1, h2, h3⟩ := evolve_spin_network_frame foam time_step
  refine ⟨?_, ?_, h2, h1, h3⟩
  · unfold SpinFoam.num_nodes
    rw [h1]
  · unfold SpinFoam.num_edges
    have := congrArg List.length h3
    simp only [List.length_map] at this
    rw [this]

/-- C18: the cached fields are current after every constructing or evolving
operation: immediately after `create_tetrahedral_network`, after
`create_cubical_network`, and after any call
`evolve_spin_network(graph, time_step)`, `graph.amplitude` equals
`spin_network_amplitude(graph)` and `graph.action` equals `regge_action(graph)`
evaluated on the resulting graph. -/
theorem cache_current_after_build_and_evolve :
    cache_is_current create_tetrahedral_network ∧
    cache_is_current create_cubical_network ∧
    ∀ (foam : SpinFoam) (time_step : ℝ), cache_is_current (evolve_spin_network foam time_step) :=
  ⟨refresh_cache_current _, refresh_cache_current _, fun _ _ => refresh_cache_current _⟩

/-- The edge array of the cubical network, row by row. -/
theorem cubical_edges_eq :
    create_cubical_network.edges =
      [ init_edge (su2_element (PI / 6) 0.3 0.3 0.4) 0 (0, 1, 0),
        init_edge (su2_element (PI / 6) 0.3 0.3 0.4) 1 (1, 2, 0),
        init_edge (su2_element (PI / 6) 0.3 0.3 0.4) 2 (2, 3, 0),
        init_edge (su2_element (PI / 6) 0.3 0.3 0.4) 3 (3, 0, 0),
        init_edge (su2_element (PI / 6) 0.3 0.3 0.4) 4 (4, 5, 1),
        init_edge (su2_element (PI / 6) 0.3 0.3 0.4) 5 (5, 6, 1),
        init_edge (su2_element (PI / 6) 0.3 0.3 0.4) 6 (6, 7, 1),
        init_edge (su2_element (PI / 6) 0.3 0.3 0.4) 7 (7, 4, 1),
        init_edge (su2_element (PI / 6) 0.3 0.3 0.4) 8 (0, 4, 2),
        init_edge (su2_element (PI / 6) 0.3 0.3 0.4) 9 (1, 5, 2),
        init_edge (su2_element (PI / 6) 0.3 0.3 0.4) 10 (2, 6, 2),
        init_edge (su2_element (PI / 6) 0.3 0.3 0.4) 11 (3, 7, 2) ] := by
  rfl

/-- An edge written by a builder from a row with distinct endpoints inside
`[0, n)` and a spin code of at least -1 is well formed at its index. -/
theorem init_edge_well_formed (h : ℂ) (n : Int) (k : Nat) (d : Int × Int × Int)
    (hne : d.1 ≠ d.2.1) (hs : 0 ≤ d.1 ∧ d.1 < n) (ht : 0 ≤ d.2.1 ∧ d.2.1 < n)
    (hc : 0 ≤ d.2.2 + 1) :
    edge_well_formed n k (init_edge h k d) := by
  refine ⟨rfl, hne, hs, ht, ?_, Or.inl rfl, rfl, rfl⟩
  show (0 : ℝ) ≤ 0.5 * ((d.2.2 + 1 : Int) : ℝ)
  have : (0 : ℝ) ≤ ((d.2.2 + 1 : Int) : ℝ) := by exact_mod_cast hc
  positivity

/-- Well-formedness of an edge reads only its frame. -/
theorem edge_well_formed_frame (n : Int) (k : Nat) (e0 e : SpinEdge)
    (h : edge_frame e0 = edge_frame e) (hwf : edge_well_formed n k e0) :
    edge_well_formed n k e := by
  simp only [edge_frame, Prod.mk.injEq] at h
  obtain ⟨h1, h2, h3, h4, h5, h6, h7⟩ := h
  unfold edge_well_formed at hwf ⊢
  rw [← h1, ← h2, ← h3, ← h4, ← h5, ← h6, ← h7]
  exact hwf

theorem incident_edge_count_frame (foam foam2 : SpinFoam)
    (h : foam2.edges.map edge_frame = foam.edges.map edge_frame) (i : Int) :
    incident_edge_count foam2 i = incident_edge_count foam i := by
  have key : ∀ g : SpinFoam, incident_edge_count g i =
      ((g.edges.map edge_frame).filter (fun f => decide (f.2.1 = i ∨ f.2.2.1 = i))).length := by
    intro g
    unfold incident_edge_count
    rw [List.filter_map, List.length_map]
    rfl
  rw [key, key, h]

/-- Well-formedness reads only the nodes and the frames of the edges. -/
theorem graph_well_formed_frame (foam foam2 : SpinFoam)
    (hn : foam2.nodes = foam.nodes)
    (he : foam2.edges.map edge_frame = foam.edges.map edge_frame)
    (hwf : graph_well_formed foam) : graph_well_formed foam2 := by
  constructor
  · intro k e hk
    have h1 : (foam2.edges.map edge_frame)[k]? = some (edge_frame e) := by
      rw [List.getElem?_map, hk]
      rfl
    rw [he, List.getElem?_map] at h1
    cases h0 : foam.edges[k]? with
    | none => rw [h0] at h1; cases h1
    | some e0 =>
      rw [h0] at h1
      have h2 : edge_frame e0 = edge_frame e := Option.some.inj h1
      have := edge_well_formed_frame _ k e0 e h2 (hwf.1 k e0 h0)
      unfold SpinFoam.num_nodes at this ⊢
      rw [hn]
      exact this
  · intro i nd hi
    rw [hn] at hi
    rw [incident_edge_count_frame foam foam2 he]
    exact hwf.2 i nd hi

/-- C19: both builders produce well-formed graphs, and `evolve_spin_network`
preserves well-formedness: the edge at index `k` has id `k`, its source and
target are distinct ids in `[0, num_nodes)`, its spin `j` is `>= 0`, its
orientation is +1 or -1, its length equals `j * L_PLANCK` and its area equals
`area_eigenvalue(j)`; and the valence of every node equals the number of edges
whose source or target is that node. -/
theorem builders_and_evolve_well_formed :
    graph_well_formed create_tetrahedral_network ∧
    graph_well_formed create_cubical_network ∧
    ∀ (foam : SpinFoam) (time_step : ℝ), graph_well_formed foam →
      graph_well_formed (evolve_spin_network foam time_step) := by
  refine ⟨⟨?_, ?_⟩, ⟨?_, ?_⟩, ?_⟩
  · intro k e h
    rw [tetrahedral_edges_eq] at h
    rcases k with _ | _ | _ | _ | _ | _ | k
    all_goals simp at h
    all_goals
      subst h
      exact init_edge_well_formed _ _ _ _ (by decide) (by decide) (by decide) (by decide)
  · intro i nd h
    rw [tetrahedral_nodes_eq] at h
    rcases i with _ | _ | _ | _ | i
    all_goals simp at h
    all_goals
      subst h
      decide
  · intro k e h
    rw [cubical_edges_eq] at h
    rcases k with _ | _ | _ | _ | _ | _ | _ | _ | _ | _ | _ | _ | k
    all_goals simp at h
    all_goals
      subst h
      exact init_edge_well_formed _ _ _ _ (by decide) (by decide) (by decide) (by decide)
  · intro i nd h
    rw [cubical_nodes_eq] at h
    have hi : i < 8 := by
      have := (List.getElem?_eq_some.mp h).1
      simpa using this
    rw [List.getElem?_map, List.getElem?_range hi] at h
    have hnd : nd = init_node 0.25 i := (Option.some.inj h).symm
    subst hnd
    interval_cases i <;> decide
  · intro foam time_step hwf
    obtain ⟨h1, _, h3⟩ := evolve_spin_network_frame foam time_step
    exact graph_well_formed_frame foam _ h1 h3 hwf

theorem foldl_cond_add {α : Type} (l : List α) (p : α → Prop) [DecidablePred p] (f : α → ℂ)
    (a : ℂ) :
    l.foldl (fun acc x => if p x then acc + f x else acc) a =
      a + (l.map (fun x => if p x then f x else 0)).sum := by
  induction l generalizing a with
  | nil => simp
  | cons x xs ih =>
    rw [List.foldl_cons, ih]
    simp only [List.map_cons, List.sum_cons]
    split_ifs <;> ring

theorem foldl_add_fun {α : Type} (l : List α) (g : ℂ → α → ℂ) (f : α → ℂ)
    (hg : ∀ acc x, g acc x = acc + f x) (a : ℂ) :
    l.foldl g a = a + (l.map f).sum := by
  induction l generalizing a with
  | nil => simp
  | cons x xs ih =>
    rw [List.foldl_cons, ih, hg]
    simp only [List.map_cons, List.sum_cons]
    ring

theorem sum_map_sum_comm {α β : Type} (l1 : List α) (l2 : List β) (f : α → β → ℂ) :
    (l1.map (fun x => (l2.map (fun y => f x y)).sum)).sum =
      (l2.map (fun y => (l1.map (fun x => f x y)).sum)).sum := by
  induction l1 with
  | nil => simp
  | cons a l1 ih =>
    simp only [List.map_cons, List.sum_cons, ih]
    rw [← List.sum_map_add]

/-- The sum over the node array of a term selected by the index `a`. -/
theorem sum_enum_select (l : List SpinNode) (g : SpinNode → ℂ) (a : Int) (k : Nat) :
    ((l.enumFrom k).map (fun p => if a = (p.1 : Int) then g p.2 else 0)).sum =
      if (k : Int) ≤ a then
        match l[(a - k).toNat]? with
        | some nd => g nd
        | none => 0
      else 0 := by
  induction l generalizing k with
  | nil => simp
  | cons x xs ih =>
    simp only [List.enumFrom_cons, List.map_cons, List.sum_cons, ih]
    by_cases h1 : a = (k : Int)
    · subst h1
      simp
    · by_cases h2 : (k : Int) ≤ a
      · have h3 : ((k + 1 : Nat) : Int) ≤ a := by push_cast; omega
        have h4 : (a - (k : Int)).toNat = (a - ((k + 1 : Nat) : Int)).toNat + 1 := by
          push_cast; omega
        simp only [h1, if_false, zero_add, h2, h3, if_true, h4, List.getElem?_cons_succ]
      · have h3 : ¬ ((k + 1 : Nat) : Int) ≤ a := by push_cast; omega
        simp only [h1, if_false, zero_add, h2, h3]

theorem sum_enum_volume (foam : SpinFoam) (c : ℂ) (a : Int) :
    (foam.nodes.enum.map
      (fun p => if a = (p.1 : Int) then c * ((volume_operator p.2 : ℝ) : ℂ) else 0)).sum =
      c * ((node_volume foam a : ℝ) : ℂ) := by
  rw [List.enum, sum_enum_select foam.nodes (fun nd => c * ((volume_operator nd : ℝ) : ℂ)) a 0]
  unfold node_volume
  by_cases h : 0 ≤ a
  · simp only [Nat.cast_zero, h, if_true, sub_zero]
    cases foam.nodes[a.toNat]? with
    | none => simp
    | some nd => rfl
  · simp [h]

theorem hamiltonian_edge_loop_eq (foam : SpinFoam) (i : Int) (volume : ℝ) (a : ℂ) :
    hamiltonian_edge_loop foam i volume a =
      a + (foam.edges.map (fun e =>
        if e.source = i ∨ e.target = i then (e.holonomy - 1.0) * (volume : ℂ) else 0)).sum := by
  unfold hamiltonian_edge_loop
  exact foldl_cond_add foam.edges (fun e => e.source = i ∨ e.target = i)
    (fun e => (e.holonomy - 1.0) * (volume : ℂ)) a

theorem edge_hamiltonian_eq (foam : SpinFoam) (e : SpinEdge) :
    (foam.nodes.enum.map (fun p =>
      if e.source = (p.1 : Int) ∨ e.target = (p.1 : Int) then
        (e.holonomy - 1.0) * ((volume_operator p.2 : ℝ) : ℂ) else 0)).sum =
      edge_hamiltonian foam e := by
  unfold edge_hamiltonian
  by_cases h : e.source = e.target
  · simp only [h, or_self, ne_eq, not_true_eq_false, if_false]
    rw [sum_enum_volume]
    norm_num
  · have hsplit : (fun p : Nat × SpinNode =>
        if e.source = (p.1 : Int) ∨ e.target = (p.1 : Int) then
          (e.holonomy - 1.0) * ((volume_operator p.2 : ℝ) : ℂ) else 0) =
        (fun p => (if e.source = (p.1 : Int) then
            (e.holonomy - 1.0) * ((volume_operator p.2 : ℝ) : ℂ) else 0) +
          (if e.target = (p.1 : Int) then
            (e.holonomy - 1.0) * ((volume_operator p.2 : ℝ) : ℂ) else 0)) := by
      funext p
      by_cases h1 : e.source = (p.1 : Int)
      · have h2 : ¬ e.target = (p.1 : Int) := fun h2 => h (h1.trans h2.symm)
        simp [h1, h2]
      · simp [h1]
    rw [hsplit, List.sum_map_add, sum_enum_volume, sum_enum_volume]
    simp only [ne_eq, h, not_false_eq_true, if_true]
    push_cast
    norm_num
    ring

/-- C20: for every graph whose edge endpoints are ids in `[0, num_nodes)`,
`hamiltonian_constraint` equals the edge-wise sum in which each edge with
distinct endpoints contributes
`(holonomy - 1) * (volume_operator(source node) + volume_operator(target node))`,
while an edge with source = target contributes
`(holonomy - 1) * volume_operator(that node)` only once. -/
theorem hamiltonian_edgewise (foam : SpinFoam)
    (_hvalid : ∀ e ∈ foam.edges, (0 ≤ e.source ∧ e.source < foam.num_nodes) ∧
      (0 ≤ e.target ∧ e.target < foam.num_nodes)) :
    hamiltonian_constraint foam = (foam.edges.map (edge_hamiltonian foam)).sum := by
  unfold hamiltonian_constraint
  rw [foldl_add_fun foam.nodes.enum _
    (fun p => (foam.edges.map (fun e =>
      if e.source = (p.1 : Int) ∨ e.target = (p.1 : Int) then
        (e.holonomy - 1.0) * ((volume_operator p.2 : ℝ) : ℂ) else 0)).sum)
    (fun acc p => hamiltonian_edge_loop_eq foam (p.1 : Int) (volume_operator p.2) acc)]
  rw [sum_map_sum_comm foam.nodes.enum foam.edges
    (fun p e => if e.source = (p.1 : Int) ∨ e.target = (p.1 : Int) then
        (e.holonomy - 1.0) * ((volume_operator p.2 : ℝ) : ℂ) else 0)]
  simp only [edge_hamiltonian_eq]
  norm_num

/-- Witness of C20: the edge endpoints of `star_graph` are valid, and its
Hamiltonian constraint is the edge-wise sum. -/
theorem hamiltonian_edgewise_witness :
    (∀ e ∈ star_graph.edges, (0 ≤ e.source ∧ e.source < star_graph.num_nodes) ∧
      (0 ≤ e.target ∧ e.target < star_graph.num_nodes)) ∧
    hamiltonian_constraint star_graph = (star_graph.edges.map (edge_hamiltonian star_graph)).sum :=
  ⟨by decide, hamiltonian_edgewise star_graph (by decide)⟩

/-- The inner loop of `curvature_operator` for an edge `ei` that is no self-loop
at `n`: it adds the holonomy of `ei` times the incoming sum of the later edges
when `ei` leaves `n`, times their outgoing sum when `ei` enters `n`. -/
theorem curvature_inner_eq (n : Int) (ei : SpinEdge) (rest : List SpinEdge) (c : ℂ)
    (hloop : ¬ (ei.source = n ∧ ei.target = n)) :
    curvature_inner n ei rest c =
      c + (if ei.source = n then ei.holonomy * in_holonomy_sum rest n else 0) +
        (if ei.target = n then ei.holonomy * out_holonomy_sum rest n else 0) := by
  unfold curvature_inner
  induction rest generalizing c with
  | nil => simp [in_holonomy_sum, out_holonomy_sum]
  | cons x xs ih =>
    rw [List.foldl_cons, ih]
    simp only [curvature_pair, in_holonomy_sum, out_holonomy_sum, List.filter_cons]
    by_cases h1 : ei.source = n
    · have h2 : ¬ ei.target = n := fun h2 => hloop ⟨h1, h2⟩
      by_cases h3 : x.source = n <;> by_cases h4 : x.target = n <;>
        simp [h1, h2, h3, h4] <;> ring
    · by_cases h2 : ei.target = n <;> by_cases h3 : x.source = n <;>
        by_cases h4 : x.target = n <;> simp [h1, h2, h3, h4] <;> ring

/-- The loops of `curvature_operator` on edges without a self-loop at `n`. -/
theorem curvature_outer_eq (n : Int) (es : List SpinEdge) (c : ℂ)
    (hloop : ∀ e ∈ es, ¬ (e.source = n ∧ e.target = n)) :
    curvature_outer n es c = c + out_holonomy_sum es n * in_holonomy_sum es n := by
  induction es generalizing c with
  | nil => simp [curvature_outer, out_holonomy_sum, in_holonomy_sum]
  | cons e es ih =>
    have he := hloop e (List.mem_cons_self _ _)
    rw [curvature_outer, ih _ (fun x hx => hloop x (List.mem_cons_of_mem _ hx)),
      curvature_inner_eq n e es c he]
    simp only [out_holonomy_sum, in_holonomy_sum, List.filter_cons]
    by_cases h1 : e.source = n
    · have h2 : ¬ e.target = n := fun h2 => he ⟨h1, h2⟩
      simp [h1, h2]
      ring
    · by_cases h2 : e.target = n
      · simp [h1, h2]
        ring
      · simp [h1, h2]

theorem in_holonomy_sum_zero (es : List SpinEdge) (n : Int) (h : ∀ e ∈ es, e.target ≠ n) :
    in_holonomy_sum es n = 0 := by
  have : es.filter (fun e => decide (e.target = n)) = [] := by
    rw [List.filter_eq_nil_iff]
    intro e he
    simpa using h e he
  simp [in_holonomy_sum, this]

theorem out_holonomy_sum_zero (es : List SpinEdge) (n : Int) (h : ∀ e ∈ es, e.source ≠ n) :
    out_holonomy_sum es n = 0 := by
  have : es.filter (fun e => decide (e.source = n)) = [] := by
    rw [List.filter_eq_nil_iff]
    intro e he
    simpa using h e he
  simp [out_holonomy_sum, this]

/-- The curvature at a node without a self-loop is the product of its outgoing
and incoming holonomy sums. -/
theorem curvature_operator_eq (foam : SpinFoam) (n : Int)
    (hloop : ∀ e ∈ foam.edges, ¬ (e.source = n ∧ e.target = n)) :
    curvature_operator foam n =
      out_holonomy_sum foam.edges n * in_holonomy_sum foam.edges n := by
  unfold curvature_operator
  rw [curvature_outer_eq n foam.edges _ hloop]
  norm_num

/-- C25: for every graph and every node id `n` such that no edge has
source = target = `n`, `curvature_operator(graph, n)` equals (sum of the
holonomies of the edges with source `n`) times (sum of the holonomies of the
edges with target `n`); in particular it is 0 for a node that has no incoming
edge or no outgoing edge. -/
theorem curvature_product_of_sums (foam : SpinFoam) (n : Int)
    (hloop : ∀ e ∈ foam.edges, ¬ (e.source = n ∧ e.target = n)) :
    curvature_operator foam n =
      out_holonomy_sum foam.edges n * in_holonomy_sum foam.edges n ∧
    ((∀ e ∈ foam.edges, e.target ≠ n) → curvature_operator foam n = 0) ∧
    ((∀ e ∈ foam.edges, e.source ≠ n) → curvature_operator foam n = 0) := by
  refine ⟨curvature_operator_eq foam n hloop, ?_, ?_⟩
  · intro h
    rw [curvature_operator_eq foam n hloop, in_holonomy_sum_zero _ _ h, mul_zero]
  · intro h
    rw [curvature_operator_eq foam n hloop, out_holonomy_sum_zero _ _ h, zero_mul]

/-- Witness of C25: node 1 of the chain `0 -> 1 -> 2` has no self-loop, one
incoming and one outgoing edge, both of holonomy 1, and its curvature is
`1 * 1`. -/
theorem curvature_product_of_sums_witness :
    (∀ e ∈ gauss_balanced_graph.edges, ¬ (e.source = 1 ∧ e.target = 1)) ∧
    out_holonomy_sum gauss_balanced_graph.edges 1 = 1 ∧
    in_holonomy_sum gauss_balanced_graph.edges 1 = 1 ∧
    curvature_operator gauss_balanced_graph 1 =
      out_holonomy_sum gauss_balanced_graph.edges 1 *
        in_holonomy_sum gauss_balanced_graph.edges 1 :=
  ⟨by decide, by simp [out_holonomy_sum, gauss_balanced_graph, List.filter_cons],
    by simp [in_holonomy_sum, gauss_balanced_graph, List.filter_cons],
    (curvature_product_of_sums gauss_balanced_graph 1 (by decide)).1⟩

/-- One pass of the evolution loop for index `k` leaves every other edge as it is. -/
theorem evolve_edge_getElem_ne (time_step : ℝ) (foam : SpinFoam) (k i : Nat) (h : i ≠ k) :
    (evolve_edge time_step foam k).edges[i]? = foam.edges[i]? := by
  unfold evolve_edge
  cases hk : foam.edges[k]? with
  | none => rfl
  | some ed =>
    simp only
    rw [List.getElem?_set_ne (Ne.symm h)]

/-- One pass of the evolution loop for index `k` multiplies the holonomy of edge
`k` by the update factor computed on the graph as it is when the pass starts. -/
theorem evolve_edge_getElem_self (time_step : ℝ) (foam : SpinFoam) (k : Nat) (ed : SpinEdge)
    (hk : foam.edges[k]? = some ed) :
    (evolve_edge time_step foam k).edges[k]? =
      some { ed with holonomy := ed.holonomy * update_factor time_step foam ed } := by
  have hlt : k < foam.edges.length := (List.getElem?_eq_some.mp hk).1
  unfold evolve_edge
  simp only [hk]
  rw [List.getElem?_set_self hlt]
  simp only [update_factor]
  norm_num

theorem evolve_loop_getElem_not_mem (time_step : ℝ) (l : List Nat) (foam : SpinFoam) (i : Nat)
    (h : i ∉ l) :
    (l.foldl (evolve_edge time_step) foam).edges[i]? = foam.edges[i]? := by
  induction l generalizing foam with
  | nil => rfl
  | cons k l ih =>
    rw [List.foldl_cons, ih _ (fun hm => h (List.mem_cons_of_mem _ hm)),
      evolve_edge_getElem_ne _ _ _ _ (fun hik => h (by rw [hik]; exact List.mem_cons_self _ _))]

theorem range_split (n e : Nat) (he : e ≤ n) :
    List.range n = List.range e ++ List.range' e (n - e) := by
  rw [List.range_eq_range', List.range_eq_range']
  have h3 := List.range'_append 0 e (n - e) 1
  simp only [Nat.one_mul, Nat.zero_add] at h3
  rw [h3]
  congr 1
  omega

/-- The evolution loop split at the edge `e`: the passes below `e`, the pass for
`e`, the passes above `e`. -/
theorem evolve_loop_split (time_step : ℝ) (foam : SpinFoam) (n e : Nat) (he : e < n) :
    (List.range n).foldl (evolve_edge time_step) foam =
      (List.range' (e + 1) (n - (e + 1))).foldl (evolve_edge time_step)
        (evolve_edge time_step ((List.range e).foldl (evolve_edge time_step) foam) e) := by
  have h1 : List.range n = List.range e ++ (e :: List.range' (e + 1) (n - (e + 1))) := by
    have h2 : e :: List.range' (e + 1) (n - (e + 1)) = List.range' e (n - e) := by
      rw [show n - e = (n - (e + 1)) + 1 by omega, List.range'_succ]
    rw [h2]
    exact range_split n e (by omega)
  rw [h1, List.foldl_append, List.foldl_cons]

/-- The edge `e` after the call of `evolve_spin_network`: its holonomy before
the call times the update factor computed on the graph after the passes for the
edges below `e`. -/
theorem evolve_getElem (foam : SpinFoam) (time_step : ℝ) (e : Nat) (ed : SpinEdge)
    (h : foam.edges[e]? = some ed) :
    (evolve_spin_network foam time_step).edges[e]? =
      some { ed with holonomy := ed.holonomy *
        update_factor time_step ((List.range e).foldl (evolve_edge time_step) foam) ed } := by
  have hlt : e < foam.edges.length := (List.getElem?_eq_some.mp h).1
  have hpre : ((List.range e).foldl (evolve_edge time_step) foam).edges[e]? = some ed := by
    rw [evolve_loop_getElem_not_mem _ _ _ _ (by simp), h]
  show ((List.range foam.edges.length).foldl (evolve_edge time_step) foam).edges[e]? = _
  rw [evolve_loop_split time_step foam _ e hlt,
    evolve_loop_getElem_not_mem _ _ _ _ (by simp [List.mem_range']; intro x _; omega),
    evolve_edge_getElem_self _ _ _ _ hpre]

/-- The graph after the passes for the edges below `e` has the edges of the
final graph below `e` and the edges of the initial graph from `e` on. -/
theorem evolve_prefix_edges (foam : SpinFoam) (time_step : ℝ) (e : Nat)
    (he : e ≤ foam.edges.length) :
    ((List.range e).foldl (evolve_edge time_step) foam).edges =
      (evolve_spin_network foam time_step).edges.take e ++ foam.edges.drop e := by
  have hlen : (evolve_spin_network foam time_step).edges.length = foam.edges.length := by
    have := congrArg List.length (evolve_spin_network_frame foam time_step).2.2
    simpa using this
  apply List.ext_getElem?
  intro i
  by_cases hi : i < e
  · rw [List.getElem?_append_left (by simp; omega), List.getElem?_take_of_lt hi]
    show _ = ((List.range foam.edges.length).foldl (evolve_edge time_step) foam).edges[i]?
    rw [range_split foam.edges.length e he, List.foldl_append,
      evolve_loop_getElem_not_mem _ (List.range' e _) _ i (by simp [List.mem_range']; intro x _; omega)]
  · have hle : e ≤ i := by omega
    rw [List.getElem?_append_right (by simp; omega), evolve_loop_getElem_not_mem _ _ _ _ (by simp; omega)]
    simp only [List.length_take, hlen, Nat.min_eq_left he, List.getElem?_drop]
    congr 1
    omega

/-- The curvature reads only the edge array. -/
theorem curvature_operator_edges (a b : SpinFoam) (n : Int) (h : a.edges = b.edges) :
    curvature_operator a n = curvature_operator b n := by
  unfold curvature_operator
  rw [h]

/-- C21: `evolve_spin_network(graph, dt)` processes the edges in index order
and updates in place: the new holonomy of edge `e` is its old holonomy times
`1 + i*dt*(K(source_e) + K(target_e))/2`, where `K` is `curvature_operator` on
the graph at the moment edge `e` is processed, in which the edges of index
below `e` already carry their new holonomies and the edges of index `e` or
more still carry their old ones; for edge 0 that graph is the original one. -/
theorem evolve_in_place (foam : SpinFoam) (dt : ℝ) (e : Nat) (ed : SpinEdge)
    (h : foam.edges[e]? = some ed) :
    (∃ ed2, (evolve_spin_network foam dt).edges[e]? = some ed2 ∧
      ed2.holonomy = ed.holonomy *
        (1 + Complex.I * (dt : ℂ) *
          (curvature_operator (state_at_edge foam (evolve_spin_network foam dt) e) ed.source +
           curvature_operator (state_at_edge foam (evolve_spin_network foam dt) e) ed.target)
          / 2)) ∧
    state_at_edge foam (evolve_spin_network foam dt) 0 = foam := by
  have hlt : e < foam.edges.length := (List.getElem?_eq_some.mp h).1
  have hedges : ((List.range e).foldl (evolve_edge dt) foam).edges =
      (state_at_edge foam (evolve_spin_network foam dt) e).edges :=
    evolve_prefix_edges foam dt e (by omega)
  constructor
  · refine ⟨_, evolve_getElem foam dt e ed h, ?_⟩
    simp only [update_factor]
    rw [curvature_operator_edges _ _ ed.source hedges,
      curvature_operator_edges _ _ ed.target hedges]
  · simp [state_at_edge]

/-- Witness of C21: edge 0 of the tetrahedral network exists, and after a step
of one Planck time its holonomy is the initial one times the update factor
computed on the original graph. -/
theorem evolve_in_place_witness :
    create_tetrahedral_network.edges[0]? =
      some (init_edge (su2_element (PI / 4) 0.5 0.5 0.5) 0 (0, 1, 0)) ∧
    ((∃ ed2, (evolve_spin_network create_tetrahedral_network T_PLANCK).edges[0]? = some ed2 ∧
      ed2.holonomy = (init_edge (su2_element (PI / 4) 0.5 0.5 0.5) 0 (0, 1, 0)).holonomy *
        (1 + Complex.I * (T_PLANCK : ℂ) *
          (curvature_operator (state_at_edge create_tetrahedral_network
              (evolve_spin_network create_tetrahedral_network T_PLANCK) 0)
            (init_edge (su2_element (PI / 4) 0.5 0.5 0.5) 0 (0, 1, 0)).source +
           curvature_operator (state_at_edge create_tetrahedral_network
              (evolve_spin_network create_tetrahedral_network T_PLANCK) 0)
            (init_edge (su2_element (PI / 4) 0.5 0.5 0.5) 0 (0, 1, 0)).target)
          / 2)) ∧
    state_at_edge create_tetrahedral_network
      (evolve_spin_network create_tetrahedral_network T_PLANCK) 0 =
        create_tetrahedral_network) :=
  ⟨rfl, evolve_in_place create_tetrahedral_network T_PLANCK 0 _ rfl⟩

/-- The frame of an edge fixes its source, target and spin. -/
theorem edge_frame_fields (a b : SpinEdge) (h : edge_frame a = edge_frame b) :
    a.source = b.source ∧ a.target = b.target ∧ a.j = b.j := by
  simp only [edge_frame, Prod.mk.injEq] at h
  exact ⟨h.2.1, h.2.2.1, h.2.2.2.1⟩

theorem regge_inner_map (a : SpinEdge) (ra : List SpinEdge) (act : ℝ) :
    regge_inner a ra act =
      (ra.map edge_frame).foldl (fun action f =>
        if a.source = f.2.1 ∨ a.source = f.2.2.1 ∨ a.target = f.2.1 ∨ a.target = f.2.2.1 then
          action + area_eigenvalue a.j * (PI / 3.0)
        else action) act := by
  unfold regge_inner
  rw [List.foldl_map]
  rfl

theorem regge_inner_frame (a b : SpinEdge) (h : edge_frame a = edge_frame b)
    (ra rb : List SpinEdge) (hr : ra.map edge_frame = rb.map edge_frame) (act : ℝ) :
    regge_inner a ra act = regge_inner b rb act := by
  obtain ⟨hs, ht, hj⟩ := edge_frame_fields a b h
  rw [regge_inner_map, regge_inner_map, hr, hs, ht, hj]

theorem regge_outer_frame (ea eb : List SpinEdge) (h : ea.map edge_frame = eb.map edge_frame)
    (act : ℝ) : regge_outer ea act = regge_outer eb act := by
  induction ea generalizing eb act with
  | nil =>
    cases eb with
    | nil => rfl
    | cons y ys => simp at h
  | cons x xs ih =>
    cases eb with
    | nil => simp at h
    | cons y ys =>
      simp only [List.map_cons, List.cons.injEq] at h
      simp only [regge_outer]
      rw [regge_inner_frame x y h.1 xs ys h.2, ih ys h.2]

/-- The amplitude and the action read only the nodes and the frames of the
edges, never a holonomy or a cached field. -/
theorem observables_frame (a b : SpinFoam) (hn : a.nodes = b.nodes)
    (he : a.edges.map edge_frame = b.edges.map edge_frame) :
    spin_network_amplitude a = spin_network_amplitude b ∧ regge_action a = regge_action b := by
  constructor
  · rw [spin_network_amplitude_eq, spin_network_amplitude_eq, hn]
    have h1 : ∀ g : SpinFoam, g.edges.map (fun e => 2.0 * e.j + 1.0) =
        (g.edges.map edge_frame).map (fun f => 2.0 * f.2.2.2.1 + 1.0) := by
      intro g
      rw [List.map_map]
      rfl
    rw [h1 a, h1 b, he]
  · unfold regge_action
    exact regge_outer_frame _ _ he _

/-- The cached fields after the call are those of the graph before the call,
recomputed. -/
theorem evolve_cache_eq (foam : SpinFoam) (dt : ℝ) :
    (evolve_spin_network foam dt).amplitude = spin_network_amplitude foam ∧
    (evolve_spin_network foam dt).action = regge_action foam := by
  obtain ⟨h1, _, h3⟩ := evolve_spin_network_frame foam dt
  obtain ⟨hc1, hc2⟩ := refresh_cache_current ((List.range foam.edges.length).foldl (evolve_edge dt) foam)
  obtain ⟨ha, hb⟩ := observables_frame (evolve_spin_network foam dt) foam h1 h3
  exact ⟨hc1.trans ha, hc2.trans hb⟩

/-- C22: time evolution never changes the cached observables: for every graph
whose cached amplitude and action are current and for every real time step, the
amplitude and action after `evolve_spin_network` equal those before; in
particular for the tetrahedral network and one Planck time, as in the demo. -/
theorem evolve_keeps_observables (foam : SpinFoam) (dt : ℝ) (hcur : cache_is_current foam) :
    (evolve_spin_network foam dt).amplitude = foam.amplitude ∧
    (evolve_spin_network foam dt).action = foam.action ∧
    (evolve_spin_network create_tetrahedral_network T_PLANCK).amplitude =
      create_tetrahedral_network.amplitude := by
  obtain ⟨h1, h2⟩ := evolve_cache_eq foam dt
  refine ⟨h1.trans hcur.1.symm, h2.trans hcur.2.symm, ?_⟩
  exact (evolve_cache_eq create_tetrahedral_network T_PLANCK).1.trans
    (refresh_cache_current _).1.symm

/-- Witness of C22: the cache of the tetrahedral network is current, and a step
of one Planck time keeps its amplitude and action. -/
theorem evolve_keeps_observables_witness :
    cache_is_current create_tetrahedral_network ∧
    (evolve_spin_network create_tetrahedral_network T_PLANCK).amplitude =
      create_tetrahedral_network.amplitude ∧
    (evolve_spin_network create_tetrahedral_network T_PLANCK).action =
      create_tetrahedral_network.action :=
  ⟨refresh_cache_current _,
    (evolve_keeps_observables create_tetrahedral_network T_PLANCK (refresh_cache_current _)).1,
    (evolve_keeps_observables create_tetrahedral_network T_PLANCK (refresh_cache_current _)).2.1⟩

/-- Any number of evolution steps keeps the nodes and the frames of the edges. -/
theorem evolve_steps_frame (steps : List ℝ) (foam : SpinFoam) :
    (steps.foldl evolve_spin_network foam).nodes = foam.nodes ∧
    (steps.foldl evolve_spin_network foam).edges.map edge_frame = foam.edges.map edge_frame := by
  induction steps generalizing foam with
  | nil => exact ⟨rfl, rfl⟩
  | cons dt steps ih =>
    rw [List.foldl_cons]
    obtain ⟨h1, h2⟩ := ih (evolve_spin_network foam dt)
    obtain ⟨g1, _, g3⟩ := evolve_spin_network_frame foam dt
    exact ⟨h1.trans g1, h2.trans g3⟩

/-- The signed spin sums of the four nodes of the tetrahedral network. -/
theorem tetrahedral_gauss_sums :
    gauss_sum create_tetrahedral_network 0 = 2.5 ∧
    gauss_sum create_tetrahedral_network 1 = 2.5 ∧
    gauss_sum create_tetrahedral_network 2 = -0.5 ∧
    gauss_sum create_tetrahedral_network 3 = -4.5 := by
  simp only [gauss_sum_eq, tetrahedral_edges_eq, signed_spin_sum, out_spin_sum, in_spin_sum,
    init_edge]
  refine ⟨?_, ?_, ?_, ?_⟩ <;> norm_num [List.filter_cons]

/-- The signed spin sums of the eight nodes of the cubical network. -/
theorem cubical_gauss_sums :
    (∀ n ∈ [(0 : Int), 1, 2, 3], gauss_sum create_cubical_network n = 1.5) ∧
    (∀ n ∈ [(4 : Int), 5, 6, 7], gauss_sum create_cubical_network n = -1.5) := by
  simp only [gauss_sum_eq, cubical_edges_eq, signed_spin_sum, out_spin_sum, in_spin_sum,
    init_edge, List.forall_mem_cons, List.not_mem_nil, false_imp_iff, implies_true, and_true]
  refine ⟨⟨?_, ?_, ?_, ?_⟩, ⟨?_, ?_, ?_, ?_⟩⟩ <;> norm_num [List.filter_cons]

theorem check_gauss_false_iff (foam : SpinFoam) (n : Int) :
    check_gauss_constraint foam n = false ↔ (1e-10 : ℝ) ≤ |gauss_sum foam n| := by
  simp [check_gauss_constraint]

/-- C24: no node of either built network satisfies the Gauss constraint:
`check_gauss_constraint` returns false for every node id 0..3 of the
tetrahedral network, whose signed spin sums are 2.5, 2.5, -0.5, -4.5, and for
every node id 0..7 of the cubical network, whose signed sums are 1.5 for the
nodes 0..3 and -1.5 for the nodes 4..7. -/
theorem gauss_violated_on_built_networks :
    (∀ n ∈ [(0 : Int), 1, 2, 3], check_gauss_constraint create_tetrahedral_network n = false) ∧
    (gauss_sum create_tetrahedral_network 0 = 2.5 ∧
      gauss_sum create_tetrahedral_network 1 = 2.5 ∧
      gauss_sum create_tetrahedral_network 2 = -0.5 ∧
      gauss_sum create_tetrahedral_network 3 = -4.5) ∧
    (∀ n ∈ [(0 : Int), 1, 2, 3, 4, 5, 6, 7],
      check_gauss_constraint create_cubical_network n = false) ∧
    (∀ n ∈ [(0 : Int), 1, 2, 3], gauss_sum create_cubical_network n = 1.5) ∧
    (∀ n ∈ [(4 : Int), 5, 6, 7], gauss_sum create_cubical_network n = -1.5) := by
  obtain ⟨t0, t1, t2, t3⟩ := tetrahedral_gauss_sums
  obtain ⟨c03, c47⟩ := cubical_gauss_sums
  refine ⟨?_, ⟨t0, t1, t2, t3⟩, ?_, c03, c47⟩
  · intro n hn
    rw [check_gauss_false_iff]
    simp only [List.mem_cons, List.mem_singleton, List.not_mem_nil, or_false] at hn
    rcases hn with rfl | rfl | rfl | rfl
    · rw [t0]; norm_num [abs_of_pos]
    · rw [t1]; norm_num [abs_of_pos]
    · rw [t2]; norm_num [abs_of_neg]
    · rw [t3]; norm_num [abs_of_neg]
  · intro n hn
    rw [check_gauss_false_iff]
    have hcases : n ∈ [(0 : Int), 1, 2, 3] ∨ n ∈ [(4 : Int), 5, 6, 7] := by
      simp only [List.mem_cons, List.mem_singleton, List.not_mem_nil, or_false] at hn ⊢
      tauto
    rcases hcases with h | h
    · rw [c03 n h]; norm_num [abs_of_pos]
    · rw [c47 n h]; norm_num [abs_of_neg]

/-- In the tetrahedral network no edge enters node 0 and no edge leaves node 3;
edge 2 runs from node 0 to node 3. -/
theorem tetrahedral_frames_facts :
    (∀ f ∈ create_tetrahedral_network.edges.map edge_frame, f.2.2.1 ≠ 0 ∧ f.2.1 ≠ 3) ∧
    ((create_tetrahedral_network.edges.map edge_frame)[2]?.map (fun f => (f.2.1, f.2.2.1)) =
      some (0, 3)) := by
  constructor
  · decide
  · rfl

/-- On a graph with the frames of the tetrahedral network the curvature at the
nodes 0 and 3 is 0, whatever the holonomies are. -/
theorem tetrahedral_curvature_zero (S : SpinFoam)
    (hS : S.edges.map edge_frame = create_tetrahedral_network.edges.map edge_frame) :
    curvature_operator S 0 = 0 ∧ curvature_operator S 3 = 0 := by
  have hfacts : ∀ e ∈ S.edges, e.target ≠ 0 ∧ e.source ≠ 3 := by
    intro e he
    have hm : edge_frame e ∈ S.edges.map edge_frame := List.mem_map_of_mem _ he
    rw [hS] at hm
    exact tetrahedral_frames_facts.1 _ hm
  constructor
  · rw [curvature_operator_eq S 0 (fun e he h => (hfacts e he).1 h.2),
      in_holonomy_sum_zero _ _ (fun e he => (hfacts e he).1), mul_zero]
  · rw [curvature_operator_eq S 3 (fun e he h => (hfacts e he).2 h.1),
      out_holonomy_sum_zero _ _ (fun e he => (hfacts e he).2), zero_mul]

/-- One evolution step on a graph with the frames of the tetrahedral network
keeps the holonomy of edge 2. -/
theorem tetrahedral_edge_two_step (S : SpinFoam) (dt : ℝ) (ed : SpinEdge)
    (hS : S.edges.map edge_frame = create_tetrahedral_network.edges.map edge_frame)
    (h2 : S.edges[2]? = some ed) :
    ∃ ed2, (evolve_spin_network S dt).edges[2]? = some ed2 ∧ ed2.holonomy = ed.holonomy ∧
      ed.source = 0 ∧ ed.target = 3 := by
  have hfr : (S.edges.map edge_frame)[2]? = some (edge_frame ed) := by
    rw [List.getElem?_map, h2]
    rfl
  rw [hS] at hfr
  have hst := tetrahedral_frames_facts.2
  rw [hfr] at hst
  simp only [Option.map_some', Option.some.injEq, Prod.mk.injEq, edge_frame] at hst
  obtain ⟨hsrc, htgt⟩ := hst
  have hpre := (evolve_loop_frame dt (List.range 2) S).2.2
  obtain ⟨k0, k3⟩ := tetrahedral_curvature_zero _ (hpre.trans hS)
  refine ⟨_, evolve_getElem S dt 2 ed h2, ?_, hsrc, htgt⟩
  simp only [update_factor, hsrc, htgt, k0, k3]
  norm_num

/-- C26: in the tetrahedral network the holonomy of edge 2 (node 0 to node 3) is
a fixed point of the evolution: after any number of `evolve_spin_network` calls
with any time steps it still equals its initial value
`su2_element(PI/4, 0.5, 0.5, 0.5)`, because node 0 has no incoming edge and
node 3 has no outgoing edge, so both curvatures are 0. -/
theorem tetrahedral_edge_two_fixed :
    (∀ steps : List ℝ, ∃ ed,
      (steps.foldl evolve_spin_network create_tetrahedral_network).edges[2]? = some ed ∧
      ed.holonomy = su2_element (PI / 4) 0.5 0.5 0.5 ∧ ed.source = 0 ∧ ed.target = 3 ∧
      curvature_operator (steps.foldl evolve_spin_network create_tetrahedral_network) 0 = 0 ∧
      curvature_operator (steps.foldl evolve_spin_network create_tetrahedral_network) 3 = 0) ∧
    (∀ e ∈ create_tetrahedral_network.edges, e.target ≠ 0) ∧
    (∀ e ∈ create_tetrahedral_network.edges, e.source ≠ 3) := by
  refine ⟨?_, by decide, by decide⟩
  have key : ∀ (steps : List ℝ) (S : SpinFoam) (ed : SpinEdge),
      S.edges.map edge_frame = create_tetrahedral_network.edges.map edge_frame →
      S.edges[2]? = some ed →
      ∃ ed2, (steps.foldl evolve_spin_network S).edges[2]? = some ed2 ∧
        ed2.holonomy = ed.holonomy ∧ ed2.source = 0 ∧ ed2.target = 3 := by
    intro steps
    induction steps with
    | nil =>
      intro S ed hS h2
      obtain ⟨_, _, _, hs, ht⟩ := tetrahedral_edge_two_step S 0 ed hS h2
      exact ⟨ed, h2, rfl, hs, ht⟩
    | cons dt steps ih =>
      intro S ed hS h2
      obtain ⟨ed1, h1, hh1, _, _⟩ := tetrahedral_edge_two_step S dt ed hS h2
      obtain ⟨ed2, g1, g2, g3, g4⟩ := ih (evolve_spin_network S dt) ed1
        ((evolve_spin_network_frame S dt).2.2.trans hS) h1
      exact ⟨ed2, g1, g2.trans hh1, g3, g4⟩
  intro steps
  obtain ⟨ed2, g1, g2, g3, g4⟩ := key steps create_tetrahedral_network
    (init_edge (su2_element (PI / 4) 0.5 0.5 0.5) 2 (0, 3, 1)) rfl rfl
  obtain ⟨k0, k3⟩ := tetrahedral_curvature_zero
    (steps.foldl evolve_spin_network create_tetrahedral_network)
    (evolve_steps_frame steps create_tetrahedral_network).2
  exact ⟨ed2, g1, g2, g3, g4, k0, k3⟩

theorem area_prefactor_pos : 0 < 8.0 * PI * GAMMA * HBAR * G / (C * C * C) := by
  unfold PI GAMMA HBAR G C
  norm_num

/-- C27: `regge_action` depends on the order in which the edges are stored: the
edges `0 -> 1` with `j = 0.5` and `1 -> 2` with `j = 1` give
`PI/3 * area_eigenvalue(0.5)` in this order and `PI/3 * area_eigenvalue(1)` in
the other, and the two values differ. -/
theorem regge_action_order_dependent :
    List.Perm (chain_graph_first.edges.map (fun e => (e.source, e.target, e.j)))
      (chain_graph_second.edges.map (fun e => (e.source, e.target, e.j))) ∧
    chain_graph_first.nodes = chain_graph_second.nodes ∧
    regge_action chain_graph_first = PI / 3 * area_eigenvalue 0.5 ∧
    regge_action chain_graph_second = PI / 3 * area_eigenvalue 1 ∧
    regge_action chain_graph_first ≠ regge_action chain_graph_second := by
  have h1 : regge_action chain_graph_first = PI / 3 * area_eigenvalue 0.5 := by
    simp only [regge_action, chain_graph_first, regge_outer, regge_inner, List.foldl_cons,
      List.foldl_nil, share_node]
    norm_num
    ring
  have h2 : regge_action chain_graph_second = PI / 3 * area_eigenvalue 1 := by
    simp only [regge_action, chain_graph_second, regge_outer, regge_inner, List.foldl_cons,
      List.foldl_nil, share_node]
    norm_num
    ring
  refine ⟨?_, rfl, h1, h2, ?_⟩
  · simp only [chain_graph_first, chain_graph_second, List.map_cons, List.map_nil]
    exact List.Perm.swap _ _ _
  · rw [h1, h2]
    have hpi : (0 : ℝ) < PI / 3 := by unfold PI; norm_num
    have hlt : area_eigenvalue 0.5 < area_eigenvalue 1 := by
      rw [area_eigenvalue_factor, area_eigenvalue_factor]
      apply mul_lt_mul_of_pos_left _ area_prefactor_pos
      apply Real.sqrt_lt_sqrt <;> norm_num
    have := mul_lt_mul_of_pos_left hlt hpi
    exact ne_of_lt this

theorem su2_element_re (theta phi_x phi_y phi_z : ℝ) :
    (su2_element theta phi_x phi_y phi_z).re = Real.cos theta := by
  simp only [su2_element, Complex.add_re, Complex.mul_re, Complex.add_im, Complex.mul_im,
    Complex.ofReal_re, Complex.ofReal_im, Complex.I_re, Complex.I_im]
  ring

theorem su2_element_im (theta phi_x phi_y phi_z : ℝ) :
    (su2_element theta phi_x phi_y phi_z).im = Real.sin theta * (phi_x + phi_y + phi_z) := by
  simp only [su2_element, Complex.add_re, Complex.mul_re, Complex.add_im, Complex.mul_im,
    Complex.ofReal_re, Complex.ofReal_im, Complex.I_re, Complex.I_im]
  ring

theorem su2_element_normSq (theta phi_x phi_y phi_z : ℝ) :
    Complex.normSq (su2_element theta phi_x phi_y phi_z) =
      1 + Real.sin theta ^ 2 * ((phi_x + phi_y + phi_z) ^ 2 - 1) := by
  rw [Complex.normSq_apply, su2_element_re, su2_element_im]
  have := Real.sin_sq_add_cos_sq theta
  nlinarith [this]

theorem sin_quarter_PI_pos : 0 < Real.sin (PI / 4) := by
  apply Real.sin_pos_of_pos_of_lt_pi
  · unfold PI; norm_num
  · have := Real.pi_gt_three
    unfold PI
    linarith

/-- C28: for all real `theta`, `phi_x`, `phi_y`, `phi_z`, `su2_element` has real
part `cos(theta)` and imaginary part `sin(theta) * (phi_x + phi_y + phi_z)`, so
its squared magnitude is `1 + sin(theta)^2 * ((phi_x + phi_y + phi_z)^2 - 1)`,
which equals 1 exactly when `sin(theta) = 0` or `|phi_x + phi_y + phi_z| = 1`;
every initial holonomy of the cubical network has magnitude exactly 1, and
every initial holonomy of the tetrahedral network has magnitude greater
than 1. -/
theorem su2_element_magnitude (theta phi_x phi_y phi_z : ℝ) :
    (su2_element theta phi_x phi_y phi_z).re = Real.cos theta ∧
    (su2_element theta phi_x phi_y phi_z).im = Real.sin theta * (phi_x + phi_y + phi_z) ∧
    Complex.normSq (su2_element theta phi_x phi_y phi_z) =
      1 + Real.sin theta ^ 2 * ((phi_x + phi_y + phi_z) ^ 2 - 1) ∧
    (Complex.normSq (su2_element theta phi_x phi_y phi_z) = 1 ↔
      (Real.sin theta = 0 ∨ |phi_x + phi_y + phi_z| = 1)) ∧
    (∀ e ∈ create_cubical_network.edges,
      e.holonomy = su2_element (PI / 6) 0.3 0.3 0.4 ∧ Complex.abs e.holonomy = 1) ∧
    (∀ e ∈ create_tetrahedral_network.edges,
      e.holonomy = su2_element (PI / 4) 0.5 0.5 0.5 ∧ 1 < Complex.abs e.holonomy) := by
  refine ⟨su2_element_re _ _ _ _, su2_element_im _ _ _ _, su2_element_normSq _ _ _ _, ?_, ?_, ?_⟩
  · rw [su2_element_normSq]
    constructor
    · intro h
      have h0 : Real.sin theta ^ 2 * ((phi_x + phi_y + phi_z) ^ 2 - 1) = 0 := by linarith
      rcases mul_eq_zero.mp h0 with hs | hp
      · exact Or.inl (pow_eq_zero_iff (by norm_num) |>.mp hs)
      · right
        have : |phi_x + phi_y + phi_z| ^ 2 = 1 ^ 2 := by
          rw [sq_abs]
          linarith
        have habs := abs_nonneg (phi_x + phi_y + phi_z)
        nlinarith [this]
    · rintro (hs | hp)
      · rw [hs]
        ring
      · have : (phi_x + phi_y + phi_z) ^ 2 = 1 := by
          rw [← sq_abs, hp]
          norm_num
        rw [this]
        ring
  · intro e he
    have hh : e.holonomy = su2_element (PI / 6) 0.3 0.3 0.4 := by
      rw [cubical_edges_eq] at he
      simp only [List.mem_cons, List.mem_singleton, List.not_mem_nil, or_false] at he
      rcases he with rfl | rfl | rfl | rfl | rfl | rfl | rfl | rfl | rfl | rfl | rfl | rfl <;> rfl
    refine ⟨hh, ?_⟩
    rw [hh, Complex.abs_apply, su2_element_normSq]
    norm_num
  · intro e he
    have hh : e.holonomy = su2_element (PI / 4) 0.5 0.5 0.5 := by
      rw [tetrahedral_edges_eq] at he
      simp only [List.mem_cons, List.mem_singleton, List.not_mem_nil, or_false] at he
      rcases he with rfl | rfl | rfl | rfl | rfl | rfl <;> rfl
    refine ⟨hh, ?_⟩
    rw [hh, Complex.abs_apply, su2_element_normSq]
    have hs := sin_quarter_PI_pos
    have hpos : 0 < Real.sin (PI / 4) ^ 2 := by positivity
    rw [show (1 : ℝ) = Real.sqrt 1 by simp]
    apply Real.sqrt_lt_sqrt (by norm_num)
    norm_num
    nlinarith

theorem foldl_mul_holonomy (foam : SpinFoam) (seq : List Int) (p : ℂ) :
    seq.foldl (fun acc id => acc * holonomy_at foam id) p =
      p * (seq.map (holonomy_at foam)).prod := by
  induction seq generalizing p with
  | nil => simp
  | cons x xs ih =>
    rw [List.foldl_cons, ih, List.map_cons, List.prod_cons]
    ring

/-- C29: `wilson_loop` ignores the order of the loop: for every graph and any
two sequences of in-range edge ids that are permutations of one another,
`wilson_loop` returns the same value. -/
theorem wilson_loop_perm (foam : SpinFoam) (s1 s2 : List Int)
    (h1 : ∀ id ∈ s1, 0 ≤ id ∧ id < foam.num_edges) (hp : List.Perm s1 s2) :
    wilson_loop foam s1 = wilson_loop foam s2 ∧
    ∃ w, wilson_loop foam s1 = some w := by
  have h2 : ∀ id ∈ s2, 0 ≤ id ∧ id < foam.num_edges := fun id hid => h1 id (hp.mem_iff.mpr hid)
  have hprod : (s1.map (holonomy_at foam)).prod = (s2.map (holonomy_at foam)).prod :=
    (hp.map _).prod_eq
  unfold wilson_loop
  rw [wilson_product_in_range foam s1 _ h1, wilson_product_in_range foam s2 _ h2,
    foldl_mul_holonomy, foldl_mul_holonomy, hprod]
  exact ⟨rfl, _, rfl⟩

/-- Witness of C29: on the tetrahedral network the loops 0, 1, 3, 2 and
2, 3, 1, 0 are in range and permutations of one another, and `wilson_loop`
returns the same value on both. -/
theorem wilson_loop_perm_witness :
    (∀ id ∈ [(0 : Int), 1, 3, 2], 0 ≤ id ∧ id < create_tetrahedral_network.num_edges) ∧
    List.Perm [(0 : Int), 1, 3, 2] [2, 3, 1, 0] ∧
    wilson_loop create_tetrahedral_network [0, 1, 3, 2] =
      wilson_loop create_tetrahedral_network [2, 3, 1, 0] :=
  ⟨by decide, by decide,
    (wilson_loop_perm create_tetrahedral_network [0, 1, 3, 2] [2, 3, 1, 0]
      (by decide) (by decide)).1⟩

/-- C30: in the black-hole formula set the two entropy forms agree: for every
real mass `m`, `bh_entropy_from_mass(m) = 4*PI*G*m^2*K_B/(HBAR*C)` equals
`bekenstein_hawking_entropy(horizon_area(m))`, where
`horizon_area(m) = 4*PI*(2*G*m/C^2)^2 = 16*PI*G^2*m^2/C^4` and
`bekenstein_hawking_entropy(A) = K_B*C^3*A/(4*HBAR*G)`. -/
theorem bh_entropy_forms_agree (m : ℝ) :
    ST.bh_entropy_from_mass m = ST.bekenstein_hawking_entropy (ST.horizon_area m) ∧
    ST.bh_entropy_from_mass m = 4 * ST.PI * ST.G * m ^ 2 * ST.K_B / (ST.HBAR * ST.C) ∧
    ST.horizon_area m = 4 * ST.PI * (2 * ST.G * m / ST.C ^ 2) ^ 2 ∧
    ST.horizon_area m = 16 * ST.PI * ST.G ^ 2 * m ^ 2 / ST.C ^ 4 ∧
    (∀ A : ℝ, ST.bekenstein_hawking_entropy A =
      ST.K_B * ST.C ^ 3 * A / (4 * ST.HBAR * ST.G)) := by
  have hC : ST.C ≠ 0 := by unfold ST.C; norm_num
  have hG : ST.G ≠ 0 := by unfold ST.G; norm_num
  have hH : ST.H ≠ 0 := by unfold ST.H; norm_num
  have hPI : ST.PI ≠ 0 := by unfold ST.PI; norm_num
  have hHBAR : ST.HBAR ≠ 0 := by
    unfold ST.HBAR
    exact div_ne_zero hH (mul_ne_zero (by norm_num) hPI)
  refine ⟨?_, ?_, ?_, ?_, ?_⟩
  · simp only [ST.bh_entropy_from_mass, ST.bekenstein_hawking_entropy, ST.horizon_area,
      ST.schwarzschild_radius, ST.FOUR_PI, ST.C_SQUARED, ST.C_CUBED]
    field_simp
    ring
  · simp only [ST.bh_entropy_from_mass]
    norm_num
    ring
  · simp only [ST.horizon_area, ST.schwarzschild_radius, ST.FOUR_PI, ST.C_SQUARED]
    norm_num
    ring
  · simp only [ST.horizon_area, ST.schwarzschild_radius, ST.FOUR_PI, ST.C_SQUARED]
    field_simp
    ring
  · intro A
    simp only [ST.bekenstein_hawking_entropy, ST.C_CUBED]
    norm_num
    ring

/-! ## Overflow: the properties that turn on infinity and NaN -/

namespace Ieee

/-- The range of the doubles: `10^308 <= DBL_MAX`, `DBL_MAX + 1` is below the overflow
bound, the overflow bound is at most `1.8 * 10^308`; a result of magnitude at
most `DBL_MAX` is kept, a result at or above the overflow bound becomes plus
infinity, and every result is plus infinity, minus infinity or a finite
double. -/
theorem round_facts :
    (10 : ℝ) ^ 308 ≤ DBL_MAX ∧ DBL_MAX + 1 < OVERFLOW_BOUND ∧
    OVERFLOW_BOUND ≤ 18 * (10 : ℝ) ^ 307 ∧
    (∀ x : ℝ, |x| ≤ DBL_MAX → Dbl.round x = Dbl.fin x) ∧
    (∀ x : ℝ, OVERFLOW_BOUND ≤ x → Dbl.round x = Dbl.pinf) ∧
    (∀ x : ℝ, Dbl.round x = Dbl.pinf ∨ Dbl.round x = Dbl.ninf ∨
      ∃ y : ℝ, Dbl.round x = Dbl.fin y ∧ |y| ≤ DBL_MAX) := by
  have h1 : (10 : ℝ) ^ 308 ≤ DBL_MAX := by unfold DBL_MAX; norm_num
  have h2 : DBL_MAX + 1 < OVERFLOW_BOUND := by unfold DBL_MAX OVERFLOW_BOUND; norm_num
  have h3 : OVERFLOW_BOUND ≤ 18 * (10 : ℝ) ^ 307 := by unfold OVERFLOW_BOUND; norm_num
  have hp : (0 : ℝ) < DBL_MAX := lt_of_lt_of_le (by positivity) h1
  refine ⟨h1, h2, h3, ?_, ?_, ?_⟩
  · intro x hx
    have hx2 := abs_le.mp hx
    unfold Dbl.round
    rw [if_neg (by linarith [hx2.2]), if_neg (by linarith [hx2.1]), min_eq_right hx2.2,
      max_eq_right hx2.1]
  · intro x hx
    unfold Dbl.round
    rw [if_pos hx]
  · intro x
    unfold Dbl.round
    split
    · exact Or.inl rfl
    · split
      · exact Or.inr (Or.inl rfl)
      · refine Or.inr (Or.inr ⟨_, rfl, ?_⟩)
        rw [abs_le]
        exact ⟨le_max_left _ _, max_le (by linarith) (min_le_left _ _)⟩

/-- The arithmetic of finite operands and of NaN: an operation on finite operands
rounds the exact result, and NaN in either operand gives NaN. -/
theorem dbl_rules :
    (∀ x y : ℝ, Dbl.add (Dbl.fin x) (Dbl.fin y) = Dbl.round (x + y)) ∧
    (∀ x y : ℝ, Dbl.sub (Dbl.fin x) (Dbl.fin y) = Dbl.round (x - y)) ∧
    (∀ x y : ℝ, Dbl.mul (Dbl.fin x) (Dbl.fin y) = Dbl.round (x * y)) ∧
    (∀ x : ℝ, Dbl.div (Dbl.fin x) (Dbl.fin 2.0) = Dbl.round (x / 2)) ∧
    (∀ a : Dbl, Dbl.add a Dbl.nan = Dbl.nan) ∧ (∀ a : Dbl, Dbl.add Dbl.nan a = Dbl.nan) ∧
    (∀ a : Dbl, Dbl.sub a Dbl.nan = Dbl.nan) ∧ (∀ a : Dbl, Dbl.sub Dbl.nan a = Dbl.nan) ∧
    (∀ a : Dbl, Dbl.mul a Dbl.nan = Dbl.nan) ∧ (∀ a : Dbl, Dbl.mul Dbl.nan a = Dbl.nan) ∧
    (∀ a : Dbl, Dbl.div Dbl.nan a = Dbl.nan) := by
  refine ⟨fun _ _ => rfl, ?_, fun _ _ => rfl, ?_, ?_, fun _ => rfl, ?_, fun _ => rfl, ?_,
    fun _ => rfl, fun _ => rfl⟩
  · intro x y
    show Dbl.round (x + -y) = Dbl.round (x - y)
    rw [sub_eq_add_neg]
  · intro x
    show (if (2.0 : ℝ) = 0 then Dbl.inf_times true x else Dbl.round (x / 2.0)) = _
    rw [if_neg (by norm_num)]
    norm_num
  · intro a; cases a <;> rfl
  · intro a; cases a <;> rfl
  · intro a; cases a <;> rfl

/-- Infinity and NaN are absorbing: a sum, a difference or a product with an operand that
is infinite or NaN is infinite or NaN, such an operand times zero is NaN, a sum
is always a finite double, an infinity or NaN, and a finite double is not
`notFinite`. -/
theorem notFinite_rules :
    (∀ a b : Dbl, a.notFinite → (Dbl.add a b).notFinite) ∧
    (∀ a b : Dbl, b.notFinite → (Dbl.add a b).notFinite) ∧
    (∀ a b : Dbl, a.notFinite → (Dbl.sub a b).notFinite) ∧
    (∀ a b : Dbl, b.notFinite → (Dbl.sub a b).notFinite) ∧
    (∀ a b : Dbl, b.notFinite → (Dbl.mul a b).notFinite) ∧
    (∀ a : Dbl, a.notFinite → Dbl.mul a (Dbl.fin 0.0) = Dbl.nan) ∧
    (∀ a : Dbl, a.notFinite → Dbl.mul (Dbl.fin 0) a = Dbl.nan) ∧
    (∀ a b : Dbl, (Dbl.add a b).isFinite ∨ (Dbl.add a b).notFinite) ∧
    (∀ a : Dbl, a.isFinite → ¬ a.notFinite) := by
  obtain ⟨_, _, _, _, _, hcases⟩ := round_facts
  have hinf : ∀ (s : Bool) (x : ℝ), (Dbl.inf_times s x).notFinite := by
    intro s x
    unfold Dbl.inf_times
    split
    · cases s
      · exact Or.inr (Or.inl rfl)
      · exact Or.inl rfl
    · split
      · cases s
        · exact Or.inl rfl
        · exact Or.inr (Or.inl rfl)
      · exact Or.inr (Or.inr rfl)
  have hinf0 : ∀ s : Bool, Dbl.inf_times s 0 = Dbl.nan := by
    intro s
    unfold Dbl.inf_times
    rw [if_neg (lt_irrefl 0), if_neg (lt_irrefl 0)]
  have hlit : (0.0 : ℝ) = 0 := by norm_num
  have hfalse : ∀ x : ℝ, ¬ (Dbl.fin x).notFinite := by
    intro x h
    rcases h with h | h | h <;> exact Dbl.noConfusion h
  have hP : Dbl.pinf.notFinite := Or.inl rfl
  have hN : Dbl.ninf.notFinite := Or.inr (Or.inl rfl)
  have hNaN : Dbl.nan.notFinite := Or.inr (Or.inr rfl)
  have hround : ∀ x : ℝ, (Dbl.round x).isFinite ∨ (Dbl.round x).notFinite := by
    intro x
    rcases hcases x with h | h | ⟨y, h, hy⟩
    · rw [h]; exact Or.inr hP
    · rw [h]; exact Or.inr hN
    · rw [h]; exact Or.inl ⟨y, rfl, hy⟩
  have hadd1 : ∀ a b : Dbl, a.notFinite → (Dbl.add a b).notFinite := by
    intro a b h
    cases a <;> cases b <;>
      first | exact hP | exact hN | exact hNaN | exact absurd h (hfalse _)
  have hadd2 : ∀ a b : Dbl, b.notFinite → (Dbl.add a b).notFinite := by
    intro a b h
    cases a <;> cases b <;>
      first | exact hP | exact hN | exact hNaN | exact absurd h (hfalse _)
  have hneg : ∀ a : Dbl, a.notFinite → (Dbl.neg a).notFinite := by
    intro a h
    cases a <;> first | exact hP | exact hN | exact hNaN | exact absurd h (hfalse _)
  refine ⟨hadd1, hadd2, fun a b h => hadd1 a _ h, fun a b h => hadd2 a _ (hneg b h), ?_, ?_, ?_,
    ?_, ?_⟩
  · intro a b h
    cases a <;> cases b <;>
      first | exact hP | exact hN | exact hNaN | exact hinf _ _ | exact absurd h (hfalse _)
  · intro a h
    cases a with
    | fin x => exact absurd h (hfalse x)
    | pinf => show Dbl.inf_times true 0.0 = Dbl.nan; rw [hlit]; exact hinf0 _
    | ninf => show Dbl.inf_times false 0.0 = Dbl.nan; rw [hlit]; exact hinf0 _
    | nan => rfl
  · intro a h
    cases a with
    | fin x => exact absurd h (hfalse x)
    | pinf => exact hinf0 _
    | ninf => exact hinf0 _
    | nan => rfl
  · intro a b
    cases a <;> cases b <;>
      first | exact Or.inr hP | exact Or.inr hN | exact Or.inr hNaN | exact hround _
  · intro a h
    obtain ⟨x, rfl, _⟩ := h
    exact hfalse x

/-- What the evolution loop leaves alone: a pass keeps the nodes, the number of edges and
every edge but its own; so do the loop and any number of calls; and the edge
written by the pass for index `k` is still there at the end of the loop. -/
theorem evolve_frames :
    (∀ (ts : Dbl) (foam : SpinFoam) (e : Nat),
      (evolve_edge ts foam e).nodes = foam.nodes ∧
      (evolve_edge ts foam e).edges.length = foam.edges.length ∧
      ∀ k : Nat, e ≠ k → (evolve_edge ts foam e).edges[k]? = foam.edges[k]?) ∧
    (∀ (ts : Dbl) (l : List Nat) (foam : SpinFoam),
      (l.foldl (evolve_edge ts) foam).nodes = foam.nodes ∧
      ∀ k : Nat, k ∉ l → (l.foldl (evolve_edge ts) foam).edges[k]? = foam.edges[k]?) ∧
    (∀ (steps : List Dbl) (foam : SpinFoam),
      (steps.foldl evolve_spin_network foam).nodes = foam.nodes) ∧
    (∀ (ts : Dbl) (foam : SpinFoam) (n k : Nat), k < n →
      ((List.range n).foldl (evolve_edge ts) foam).edges[k]? =
        (evolve_edge ts ((List.range k).foldl (evolve_edge ts) foam) k).edges[k]?) := by
  have hedge : ∀ (ts : Dbl) (foam : SpinFoam) (e : Nat),
      (evolve_edge ts foam e).nodes = foam.nodes ∧
      (evolve_edge ts foam e).edges.length = foam.edges.length ∧
      ∀ k : Nat, e ≠ k → (evolve_edge ts foam e).edges[k]? = foam.edges[k]? := by
    intro ts foam e
    unfold evolve_edge
    cases foam.edges[e]? with
    | none => exact ⟨rfl, rfl, fun _ _ => rfl⟩
    | some ed => exact ⟨rfl, List.length_set _ _ _, fun k h => List.getElem?_set_ne h⟩
  have hloop : ∀ (ts : Dbl) (l : List Nat) (foam : SpinFoam),
      (l.foldl (evolve_edge ts) foam).nodes = foam.nodes ∧
      ∀ k : Nat, k ∉ l → (l.foldl (evolve_edge ts) foam).edges[k]? = foam.edges[k]? := by
    intro ts l
    induction l with
    | nil => exact fun foam => ⟨rfl, fun _ _ => rfl⟩
    | cons e l ih =>
      intro foam
      obtain ⟨h1, h2⟩ := ih (evolve_edge ts foam e)
      obtain ⟨g1, _, g3⟩ := hedge ts foam e
      refine ⟨by rw [List.foldl_cons, h1, g1], fun k hk => ?_⟩
      rw [List.foldl_cons, h2 k (fun h => hk (List.mem_cons_of_mem _ h))]
      exact g3 k (fun he => hk (by rw [he]; exact List.mem_cons_self _ _))
  refine ⟨hedge, hloop, ?_, ?_⟩
  · intro steps
    induction steps with
    | nil => exact fun _ => rfl
    | cons ts steps ih =>
      intro foam
      rw [List.foldl_cons, ih]
      exact (hloop ts _ foam).1
  · intro ts foam n k hk
    rw [range_split n (k + 1) hk, List.foldl_append, List.range_succ, List.foldl_append]
    rw [(hloop ts _ _).2 k]
    · rfl
    · intro hmem
      have := (List.mem_range'_1.mp hmem).1
      omega

/-- The update factor `1.0 + I * 0.0 * s / 2.0` of a pass at time step 0: it is
`1 + 0i` when the curvature sum `s` is finite, and `NaN + NaN i` when a part of
`s` is infinite or NaN; a finite holonomy times `1 + 0i` is itself, and a product
with `NaN + NaN i` is `NaN + NaN i`. -/
theorem update_factor_zero :
    (∀ s : CDbl, s.isFinite →
      CDbl.real_add (Dbl.fin 1.0)
        (CDbl.div_real (CDbl.mul (CDbl.mul_real CDbl.I (Dbl.fin 0)) s) (Dbl.fin 2.0)) =
        { re := Dbl.fin 1, im := Dbl.fin 0 }) ∧
    (∀ s : CDbl, s.re.notFinite ∨ s.im.notFinite →
      CDbl.real_add (Dbl.fin 1.0)
        (CDbl.div_real (CDbl.mul (CDbl.mul_real CDbl.I (Dbl.fin 0)) s) (Dbl.fin 2.0)) =
        { re := Dbl.nan, im := Dbl.nan }) ∧
    (∀ h : CDbl, h.isFinite → CDbl.mul h { re := Dbl.fin 1, im := Dbl.fin 0 } = h) ∧
    (∀ h : CDbl, CDbl.mul h { re := Dbl.nan, im := Dbl.nan } = { re := Dbl.nan, im := Dbl.nan }) ∧
    (∀ h : CDbl, CDbl.mul { re := Dbl.nan, im := Dbl.nan } h = { re := Dbl.nan, im := Dbl.nan }) := by
  obtain ⟨hbig, _, _, hround, _, _⟩ := round_facts
  obtain ⟨add_ff, sub_ff, mul_ff, div_two, add_nan, nan_add, sub_nan, nan_sub, mul_nan, nan_mul,
    nan_div⟩ := dbl_rules
  obtain ⟨_, _, _, _, _, _, zero_mul_bad, add_cases, _⟩ := notFinite_rules
  have hp : (0 : ℝ) < DBL_MAX := lt_of_lt_of_le (by positivity) hbig
  have r0 : Dbl.round 0 = Dbl.fin 0 := hround 0 (by rw [abs_zero]; exact le_of_lt hp)
  have r1 : Dbl.round 1 = Dbl.fin 1 := hround 1 (by rw [abs_one]; linarith)
  have hlit : (1.0 : ℝ) = 1 := by norm_num
  -- the product `I * 0.0`
  have hI : CDbl.mul_real CDbl.I (Dbl.fin 0) = { re := Dbl.fin 0, im := Dbl.fin 0 } := by
    unfold CDbl.mul_real CDbl.I
    simp only [mul_ff, mul_zero, r0]
  -- the update factor is `1 + 0i` when the curvature sum is finite
  have hone : ∀ s : CDbl, s.isFinite →
      CDbl.real_add (Dbl.fin 1.0)
        (CDbl.div_real (CDbl.mul (CDbl.mul_real CDbl.I (Dbl.fin 0)) s) (Dbl.fin 2.0)) =
        { re := Dbl.fin 1, im := Dbl.fin 0 } := by
    intro s hs
    obtain ⟨⟨a, ha, _⟩, ⟨b, hb, _⟩⟩ := hs
    rw [hI]
    unfold CDbl.real_add CDbl.div_real CDbl.mul
    simp only [ha, hb, mul_ff, sub_ff, add_ff, div_two, zero_mul, sub_zero, add_zero, r0,
      zero_div, hlit, r1]
  -- and `NaN + NaN i` when a part of it is infinite or NaN
  have hnan : ∀ s : CDbl, s.re.notFinite ∨ s.im.notFinite →
      CDbl.real_add (Dbl.fin 1.0)
        (CDbl.div_real (CDbl.mul (CDbl.mul_real CDbl.I (Dbl.fin 0)) s) (Dbl.fin 2.0)) =
        { re := Dbl.nan, im := Dbl.nan } := by
    intro s hs
    rw [hI]
    unfold CDbl.real_add CDbl.div_real CDbl.mul
    rcases hs with h | h
    · simp only [zero_mul_bad _ h, nan_sub, add_nan, nan_div]
    · simp only [zero_mul_bad _ h, sub_nan, nan_add, nan_div, add_nan]
  -- a finite holonomy times `1 + 0i`
  have hmul : ∀ h : CDbl, h.isFinite → CDbl.mul h { re := Dbl.fin 1, im := Dbl.fin 0 } = h := by
    intro h hh
    obtain ⟨⟨x, hx, hxb⟩, ⟨y, hy, hyb⟩⟩ := hh
    cases h with
    | mk re im =>
      simp only at hx hy
      subst hx hy
      unfold CDbl.mul
      simp only [mul_ff, sub_ff, add_ff, mul_one, mul_zero, sub_zero, zero_add, r0,
        hround x hxb, hround y hyb]
  have hm1 : ∀ h : CDbl,
      CDbl.mul h { re := Dbl.nan, im := Dbl.nan } = { re := Dbl.nan, im := Dbl.nan } := by
    intro h
    unfold CDbl.mul
    simp only [mul_nan, sub_nan, add_nan]
  have hm2 : ∀ h : CDbl,
      CDbl.mul { re := Dbl.nan, im := Dbl.nan } h = { re := Dbl.nan, im := Dbl.nan } := by
    intro h
    unfold CDbl.mul
    simp only [nan_mul, nan_sub, nan_add]
  exact ⟨hone, hnan, hmul, hm1, hm2⟩

/-- C4 amended: for every graph whose holonomies are all finite doubles,
`evolve_spin_network(graph, 0)` leaves the holonomy of every edge equal to its
value before the call if and only if, for every edge, the sum of the curvatures
at its two endpoints is finite in both parts. (When a curvature has overflowed,
the update factor is `1 + I * 0 * inf / 2`, which is NaN.) -/
theorem evolve_zero_holonomy_finite (foam : SpinFoam) (hfin : holonomies_finite foam) :
    (evolve_spin_network foam (Dbl.fin 0)).edges.map (fun e => e.holonomy) =
      foam.edges.map (fun e => e.holonomy) ↔
    ∀ e ∈ foam.edges,
      (CDbl.add (curvature_operator foam e.source) (curvature_operator foam e.target)).isFinite := by
  obtain ⟨_, _, _, _, _, _, _, add_cases, _⟩ := notFinite_rules
  obtain ⟨_, _, _, hat⟩ := evolve_frames
  obtain ⟨hone, hnan, hmul, hm, _⟩ := update_factor_zero
  -- a pass over an edge with a finite curvature sum changes nothing
  have hpass : ∀ (e : Nat), (∀ ed, foam.edges[e]? = some ed →
      (CDbl.add (curvature_operator foam ed.source)
        (curvature_operator foam ed.target)).isFinite) →
      evolve_edge (Dbl.fin 0) foam e = foam := by
    intro e h
    unfold evolve_edge
    cases hed : foam.edges[e]? with
    | none => rfl
    | some ed =>
      simp only [hone _ (h ed hed), hmul _ (hfin ed (List.getElem?_mem hed))]
      rw [set_getElem_same foam.edges e ed hed]
  constructor
  · intro hkeep
    have hget : ∀ k : Nat,
        ((evolve_spin_network foam (Dbl.fin 0)).edges[k]?).map (fun e => e.holonomy) =
          (foam.edges[k]?).map (fun e => e.holonomy) := by
      intro k
      rw [← List.getElem?_map, ← List.getElem?_map, hkeep]
    have hpre : ∀ k : Nat, k ≤ foam.edges.length →
        (List.range k).foldl (evolve_edge (Dbl.fin 0)) foam = foam ∧
        ∀ i : Nat, i < k → ∀ ed, foam.edges[i]? = some ed →
          (CDbl.add (curvature_operator foam ed.source)
            (curvature_operator foam ed.target)).isFinite := by
      intro k
      induction k with
      | zero => exact fun _ => ⟨rfl, fun i hi => absurd hi (Nat.not_lt_zero i)⟩
      | succ k ih =>
        intro hk
        obtain ⟨h1, h2⟩ := ih (by omega)
        obtain ⟨ed, hed⟩ : ∃ ed, foam.edges[k]? = some ed :=
          ⟨foam.edges[k], List.getElem?_eq_getElem (by omega)⟩
        have hsum : (CDbl.add (curvature_operator foam ed.source)
            (curvature_operator foam ed.target)).isFinite := by
          by_contra hnot
          have hparts : (CDbl.add (curvature_operator foam ed.source)
              (curvature_operator foam ed.target)).re.notFinite ∨
              (CDbl.add (curvature_operator foam ed.source)
                (curvature_operator foam ed.target)).im.notFinite := by
            rcases add_cases (curvature_operator foam ed.source).re
                (curvature_operator foam ed.target).re with hr | hr
            · rcases add_cases (curvature_operator foam ed.source).im
                  (curvature_operator foam ed.target).im with hi | hi
              · exact absurd ⟨hr, hi⟩ hnot
              · exact Or.inr hi
            · exact Or.inl hr
          have hfinal := hget k
          have hstep : (evolve_edge (Dbl.fin 0) foam k).edges[k]? =
              some { ed with holonomy := { re := Dbl.nan, im := Dbl.nan } } := by
            unfold evolve_edge
            rw [hed]
            simp only [hnan _ hparts, hm]
            exact List.getElem?_set_self (by omega)
          have hE : (evolve_spin_network foam (Dbl.fin 0)).edges[k]? =
              some { ed with holonomy := { re := Dbl.nan, im := Dbl.nan } } := by
            have := hat (Dbl.fin 0) foam foam.edges.length k (by omega)
            rw [h1, hstep] at this
            exact this
          rw [hE, hed] at hfinal
          simp only [Option.map_some', Option.some.injEq] at hfinal
          obtain ⟨⟨x, hx, _⟩, _⟩ := hfin ed (List.getElem?_mem hed)
          rw [← hfinal] at hx
          exact Dbl.noConfusion hx
        refine ⟨?_, ?_⟩
        · rw [List.range_succ, List.foldl_append, h1]
          simp only [List.foldl_cons, List.foldl_nil]
          apply hpass
          intro ed2 hed2
          rw [hed] at hed2
          have := Option.some.inj hed2
          subst this
          exact hsum
        · intro i hi ed2 hed2
          by_cases hik : i = k
          · subst hik
            rw [hed] at hed2
            have := Option.some.inj hed2
            subst this
            exact hsum
          · exact h2 i (by omega) ed2 hed2
    intro e he
    obtain ⟨i, hi⟩ := List.mem_iff_getElem?.mp he
    have hlt : i < foam.edges.length := (List.getElem?_eq_some.mp hi).1
    exact (hpre foam.edges.length (le_refl _)).2 i hlt e hi
  · intro hcurv
    have hall : ∀ l : List Nat, l.foldl (evolve_edge (Dbl.fin 0)) foam = foam := by
      intro l
      induction l with
      | nil => rfl
      | cons e l ih =>
        rw [List.foldl_cons, hpass e (fun ed hed => hcurv ed (List.getElem?_mem hed))]
        exact ih
    unfold evolve_spin_network
    rw [hall]
    rfl

/-- The value of `su2_element` at finite arguments with `phi_x`, `phi_y`, `phi_z`
between 0 and 1: `cos t + (sin t * (x + y + z)) i`. -/
theorem su2_element_small (t x y z : ℝ) (hx : 0 ≤ x ∧ x ≤ 1) (hy : 0 ≤ y ∧ y ≤ 1)
    (hz : 0 ≤ z ∧ z ≤ 1) :
    su2_element (Dbl.fin t) (Dbl.fin x) (Dbl.fin y) (Dbl.fin z) =
      { re := Dbl.fin (Real.cos t), im := Dbl.fin (Real.sin t * (x + y + z)) } := by
  obtain ⟨hbig, _, _, hround, _, _⟩ := round_facts
  obtain ⟨add_ff, _, mul_ff, _⟩ := dbl_rules
  have h10 : (10 : ℝ) ≤ DBL_MAX := le_trans (by norm_num) hbig
  have hsmall : ∀ u : ℝ, -10 ≤ u → u ≤ 10 → Dbl.round u = Dbl.fin u := fun u h1 h2 =>
    hround u (abs_le.mpr ⟨by linarith, by linarith⟩)
  have hs1 := Real.neg_one_le_sin t
  have hs2 := Real.sin_le_one t
  have hc1 := Real.neg_one_le_cos t
  have hc2 := Real.cos_le_one t
  have h0 : 0 ≤ x + y + z := by linarith [hx.1, hy.1, hz.1]
  have h3 : x + y + z ≤ 3 := by linarith [hx.2, hy.2, hz.2]
  have r0 : Dbl.round 0 = Dbl.fin 0 := hsmall 0 (by norm_num) (by norm_num)
  have r1 : Dbl.round x = Dbl.fin x := hsmall _ (by linarith [hx.1]) (by linarith [hx.2])
  have r2 : Dbl.round y = Dbl.fin y := hsmall _ (by linarith [hy.1]) (by linarith [hy.2])
  have r3 : Dbl.round z = Dbl.fin z := hsmall _ (by linarith [hz.1]) (by linarith [hz.2])
  have r4 : Dbl.round (x + y) = Dbl.fin (x + y) :=
    hsmall _ (by linarith [hx.1, hy.1]) (by linarith [hx.2, hy.2])
  have r5 : Dbl.round (x + y + z) = Dbl.fin (x + y + z) := hsmall _ (by linarith) (by linarith)
  have r6 : Dbl.round (Real.sin t * (x + y + z)) = Dbl.fin (Real.sin t * (x + y + z)) :=
    hsmall _ (by nlinarith) (by nlinarith)
  have r7 : Dbl.round (Real.cos t) = Dbl.fin (Real.cos t) := hsmall _ (by linarith) (by linarith)
  have hcos : Dbl.cos (Dbl.fin t) = Dbl.fin (Real.cos t) := rfl
  have hsin : Dbl.sin (Dbl.fin t) = Dbl.fin (Real.sin t) := rfl
  unfold su2_element CDbl.real_add CDbl.real_mul CDbl.add CDbl.I
  simp only [hcos, hsin, mul_ff, add_ff, mul_zero, mul_one, add_zero, r0, r1, r2, r3, r4, r5,
    r6, r7]

/-- Twice the square of a small complex number `c + d i`, added to `0 + 0i` one
square after the other: no operation overflows. -/
theorem square_twice_small (c d : ℝ) (hc : 0.68 ≤ c ∧ c ≤ 1) (hd : 0.99 ≤ d ∧ d ≤ 1.5) :
    ∃ a b : ℝ, (-10 ≤ a ∧ a ≤ 10) ∧ (2 ≤ b ∧ b ≤ 10) ∧
      CDbl.add (CDbl.add { re := Dbl.fin 0, im := Dbl.fin 0 }
        (CDbl.mul { re := Dbl.fin c, im := Dbl.fin d } { re := Dbl.fin c, im := Dbl.fin d }))
        (CDbl.mul { re := Dbl.fin c, im := Dbl.fin d } { re := Dbl.fin c, im := Dbl.fin d }) =
        { re := Dbl.fin a, im := Dbl.fin b } := by
  obtain ⟨hbig, _, _, hround, _, _⟩ := round_facts
  obtain ⟨add_ff, sub_ff, mul_ff, _⟩ := dbl_rules
  have h20 : (20 : ℝ) ≤ DBL_MAX := le_trans (by norm_num) hbig
  have hsmall : ∀ u : ℝ, -20 ≤ u → u ≤ 20 → Dbl.round u = Dbl.fin u := fun u h1 h2 =>
    hround u (abs_le.mpr ⟨by linarith, by linarith⟩)
  have hc0 : (0 : ℝ) ≤ c := by linarith [hc.1]
  have hd0 : (0 : ℝ) ≤ d := by linarith [hd.1]
  have hcc1 : 0 ≤ c * c := mul_nonneg hc0 hc0
  have hcc2 : c * c ≤ 1 := by nlinarith [hc.1, hc.2]
  have hdd1 : 0 ≤ d * d := mul_nonneg hd0 hd0
  have hdd2 : d * d ≤ 9 / 4 := by nlinarith [hd.1, hd.2]
  have hcd1 : 0.6 ≤ c * d := by nlinarith [hc.1, hc.2, hd.1, hd.2]
  have hcd2 : c * d ≤ 3 / 2 := by nlinarith [hc.1, hc.2, hd.1, hd.2]
  have hdc : d * c = c * d := mul_comm _ _
  have r1 : Dbl.round (c * c) = Dbl.fin (c * c) := hsmall _ (by linarith) (by linarith)
  have r2 : Dbl.round (d * d) = Dbl.fin (d * d) := hsmall _ (by linarith) (by linarith)
  have r3 : Dbl.round (c * d) = Dbl.fin (c * d) := hsmall _ (by linarith) (by linarith)
  have r4 : Dbl.round (c * c - d * d) = Dbl.fin (c * c - d * d) :=
    hsmall _ (by linarith) (by linarith)
  have r5 : Dbl.round (c * d + c * d) = Dbl.fin (c * d + c * d) :=
    hsmall _ (by linarith) (by linarith)
  have r6 : Dbl.round (c * c - d * d + (c * c - d * d)) = Dbl.fin (c * c - d * d + (c * c - d * d)) :=
    hsmall _ (by linarith) (by linarith)
  have r7 : Dbl.round (c * d + c * d + (c * d + c * d)) = Dbl.fin (c * d + c * d + (c * d + c * d)) :=
    hsmall _ (by linarith) (by linarith)
  have hsub : ∀ x y : ℝ, Dbl.sub (Dbl.fin x) (Dbl.fin y) = Dbl.round (x - y) := sub_ff
  refine ⟨c * c - d * d + (c * c - d * d), c * d + c * d + (c * d + c * d),
    ⟨by linarith, by linarith⟩, ⟨by linarith, by linarith⟩, ?_⟩
  unfold CDbl.add CDbl.mul
  simp only [mul_ff, add_ff, sub_ff, zero_add, hdc, r1, r2, r3, r4, r5, r6, r7]

/-- The tetrahedral network: every holonomy is `c + d i` with `c = cos(PI/4)` and
`d = sin(PI/4) * 1.5`, both finite; edge 0 runs from node 0 to node 1; the
curvature is `0 + 0i` at node 0 and `a + b i` with `2 <= b` at node 1; and the
sum of the curvatures at the two ends of every edge is finite. -/
theorem tetrahedral_facts :
    ∃ c d a b : ℝ,
      (0.68 ≤ c ∧ c ≤ 1) ∧ (0.99 ≤ d ∧ d ≤ 1.5) ∧ (-10 ≤ a ∧ a ≤ 10) ∧ (2 ≤ b ∧ b ≤ 10) ∧
      (∀ e ∈ create_tetrahedral_network.edges,
        e.holonomy = { re := Dbl.fin c, im := Dbl.fin d }) ∧
      (∃ ed : SpinEdge, create_tetrahedral_network.edges[0]? = some ed ∧
        ed.source = 0 ∧ ed.target = 1) ∧
      curvature_operator create_tetrahedral_network 0 = { re := Dbl.fin 0, im := Dbl.fin 0 } ∧
      curvature_operator create_tetrahedral_network 1 = { re := Dbl.fin a, im := Dbl.fin b } ∧
      (∀ e ∈ create_tetrahedral_network.edges,
        (CDbl.add (curvature_operator create_tetrahedral_network e.source)
          (curvature_operator create_tetrahedral_network e.target)).isFinite) := by
  obtain ⟨hbig, _, _, hround, _, _⟩ := round_facts
  obtain ⟨add_ff, sub_ff, mul_ff, _⟩ := dbl_rules
  have h20 : (20 : ℝ) ≤ DBL_MAX := le_trans (by norm_num) hbig
  have hsmall : ∀ u : ℝ, -20 ≤ u → u ≤ 20 → Dbl.round u = Dbl.fin u := fun u h1 h2 =>
    hround u (abs_le.mpr ⟨by linarith, by linarith⟩)
  have hsum : ∀ u v u2 v2 : ℝ, -10 ≤ u → u ≤ 10 → -10 ≤ v → v ≤ 10 → -10 ≤ u2 → u2 ≤ 10 →
      -10 ≤ v2 → v2 ≤ 10 →
      (CDbl.add { re := Dbl.fin u, im := Dbl.fin v } { re := Dbl.fin u2, im := Dbl.fin v2 }).isFinite := by
    intro u v u2 v2 h1 h2 h3 h4 h5 h6 h7 h8
    have r1 : Dbl.round (u + u2) = Dbl.fin (u + u2) := hsmall _ (by linarith) (by linarith)
    have r2 : Dbl.round (v + v2) = Dbl.fin (v + v2) := hsmall _ (by linarith) (by linarith)
    have b1 : |u + u2| ≤ DBL_MAX := abs_le.mpr ⟨by linarith, by linarith⟩
    have b2 : |v + v2| ≤ DBL_MAX := abs_le.mpr ⟨by linarith, by linarith⟩
    unfold CDbl.add
    simp only [add_ff, r1, r2]
    exact ⟨⟨_, rfl, b1⟩, ⟨_, rfl, b2⟩⟩
  -- the angle and its sine and cosine
  have hq : (0.785 : ℝ) ≤ PI / 4.0 ∧ PI / 4.0 ≤ 0.786 := by
    unfold PI; constructor <;> norm_num
  have hc1 : 0.68 ≤ Real.cos (PI / 4.0) := by
    have h : 1 - (PI / 4.0) ^ 2 / 2 ≤ Real.cos (PI / 4.0) := Real.one_sub_sq_div_two_le_cos
    nlinarith [hq.1, hq.2]
  have hc2 : Real.cos (PI / 4.0) ≤ 1 := Real.cos_le_one _
  have hs1 : 0.66 ≤ Real.sin (PI / 4.0) := by
    have h : PI / 4.0 - (PI / 4.0) ^ 3 / 4 < Real.sin (PI / 4.0) :=
      Real.sin_gt_sub_cube (by linarith [hq.1]) (by linarith [hq.2])
    have h3 : (PI / 4.0) ^ 3 ≤ 0.786 ^ 3 := pow_le_pow_left₀ (by linarith [hq.1]) hq.2 3
    norm_num at h3
    linarith
  have hs2 : Real.sin (PI / 4.0) ≤ 1 := Real.sin_le_one _
  -- the holonomy written by the builder
  have hangle : Dbl.div (Dbl.fin PI) (Dbl.fin 4.0) = Dbl.fin (PI / 4.0) := by
    show (if (4.0 : ℝ) = 0 then Dbl.inf_times true PI else Dbl.round (PI / 4.0)) = _
    rw [if_neg (by norm_num)]
    exact hsmall _ (by linarith [hq.1]) (by linarith [hq.2])
  have hH : su2_element (Dbl.div (Dbl.fin PI) (Dbl.fin 4.0)) (Dbl.fin 0.5) (Dbl.fin 0.5)
      (Dbl.fin 0.5) =
      { re := Dbl.fin (Real.cos (PI / 4.0)), im := Dbl.fin (Real.sin (PI / 4.0) * 1.5) } := by
    rw [hangle, su2_element_small _ _ _ _ (by norm_num) (by norm_num) (by norm_num)]
    norm_num
  have hedges : ∀ e ∈ create_tetrahedral_network.edges,
      e.holonomy = { re := Dbl.fin (Real.cos (PI / 4.0)),
                     im := Dbl.fin (Real.sin (PI / 4.0) * 1.5) } := by
    intro e he
    have hE : create_tetrahedral_network.edges = tetrahedral_edge_definitions.enum.map
        (fun p => init_edge
          (su2_element (Dbl.div (Dbl.fin PI) (Dbl.fin 4.0)) (Dbl.fin 0.5) (Dbl.fin 0.5)
            (Dbl.fin 0.5)) p.1 p.2) := rfl
    rw [hE] at he
    obtain ⟨p, _, hp⟩ := List.mem_map.mp he
    rw [← hp, ← hH]
    rfl
  have hd1 : (0.99 : ℝ) ≤ Real.sin (PI / 4.0) * 1.5 := by linarith
  have hd2 : Real.sin (PI / 4.0) * 1.5 ≤ 1.5 := by linarith
  have hZ : CDbl.real_add (Dbl.fin 0.0) (CDbl.real_mul (Dbl.fin 0.0) CDbl.I) =
      { re := Dbl.fin 0, im := Dbl.fin 0 } := by
    have r0 : Dbl.round 0 = Dbl.fin 0 := hsmall 0 (by norm_num) (by norm_num)
    unfold CDbl.real_add CDbl.real_mul CDbl.I
    simp only [show (0.0 : ℝ) = 0 by norm_num, mul_ff, add_ff, mul_zero, mul_one, add_zero, r0]
  have hK0 : curvature_operator create_tetrahedral_network 0 =
      { re := Dbl.fin 0, im := Dbl.fin 0 } := by
    rw [← hZ]; rfl
  have hK3 : curvature_operator create_tetrahedral_network 3 =
      { re := Dbl.fin 0, im := Dbl.fin 0 } := by
    rw [← hZ]; rfl
  obtain ⟨a, b, ha, hb, hsq⟩ := square_twice_small (Real.cos (PI / 4.0))
    (Real.sin (PI / 4.0) * 1.5) ⟨hc1, hc2⟩ ⟨hd1, hd2⟩
  have hb1 : -10 ≤ b := le_trans (by norm_num) hb.1
  have z1 : (-10 : ℝ) ≤ 0 := by norm_num
  have z2 : (0 : ℝ) ≤ 10 := by norm_num
  have hR1 : curvature_operator create_tetrahedral_network 1 =
      CDbl.add (CDbl.add (CDbl.real_add (Dbl.fin 0.0) (CDbl.real_mul (Dbl.fin 0.0) CDbl.I))
        (CDbl.mul (su2_element (Dbl.div (Dbl.fin PI) (Dbl.fin 4.0)) (Dbl.fin 0.5) (Dbl.fin 0.5)
            (Dbl.fin 0.5))
          (su2_element (Dbl.div (Dbl.fin PI) (Dbl.fin 4.0)) (Dbl.fin 0.5) (Dbl.fin 0.5)
            (Dbl.fin 0.5))))
        (CDbl.mul (su2_element (Dbl.div (Dbl.fin PI) (Dbl.fin 4.0)) (Dbl.fin 0.5) (Dbl.fin 0.5)
            (Dbl.fin 0.5))
          (su2_element (Dbl.div (Dbl.fin PI) (Dbl.fin 4.0)) (Dbl.fin 0.5) (Dbl.fin 0.5)
            (Dbl.fin 0.5))) := rfl
  rw [hH, hZ, hsq] at hR1
  have hR2 : curvature_operator create_tetrahedral_network 2 =
      CDbl.add (CDbl.add (CDbl.real_add (Dbl.fin 0.0) (CDbl.real_mul (Dbl.fin 0.0) CDbl.I))
        (CDbl.mul (su2_element (Dbl.div (Dbl.fin PI) (Dbl.fin 4.0)) (Dbl.fin 0.5) (Dbl.fin 0.5)
            (Dbl.fin 0.5))
          (su2_element (Dbl.div (Dbl.fin PI) (Dbl.fin 4.0)) (Dbl.fin 0.5) (Dbl.fin 0.5)
            (Dbl.fin 0.5))))
        (CDbl.mul (su2_element (Dbl.div (Dbl.fin PI) (Dbl.fin 4.0)) (Dbl.fin 0.5) (Dbl.fin 0.5)
            (Dbl.fin 0.5))
          (su2_element (Dbl.div (Dbl.fin PI) (Dbl.fin 4.0)) (Dbl.fin 0.5) (Dbl.fin 0.5)
            (Dbl.fin 0.5))) := rfl
  rw [hH, hZ, hsq] at hR2
  refine ⟨_, _, a, b, ⟨hc1, hc2⟩, ⟨hd1, hd2⟩, ha, hb, hedges,
    ⟨_, rfl, rfl, rfl⟩, hK0, hR1, ?_⟩
  · intro e he
    have hE : create_tetrahedral_network.edges =
        [ init_edge (su2_element (Dbl.div (Dbl.fin PI) (Dbl.fin 4.0)) (Dbl.fin 0.5) (Dbl.fin 0.5)
            (Dbl.fin 0.5)) 0 (0, 1, 0),
          init_edge (su2_element (Dbl.div (Dbl.fin PI) (Dbl.fin 4.0)) (Dbl.fin 0.5) (Dbl.fin 0.5)
            (Dbl.fin 0.5)) 1 (0, 2, 1),
          init_edge (su2_element (Dbl.div (Dbl.fin PI) (Dbl.fin 4.0)) (Dbl.fin 0.5) (Dbl.fin 0.5)
            (Dbl.fin 0.5)) 2 (0, 3, 1),
          init_edge (su2_element (Dbl.div (Dbl.fin PI) (Dbl.fin 4.0)) (Dbl.fin 0.5) (Dbl.fin 0.5)
            (Dbl.fin 0.5)) 3 (1, 2, 2),
          init_edge (su2_element (Dbl.div (Dbl.fin PI) (Dbl.fin 4.0)) (Dbl.fin 0.5) (Dbl.fin 0.5)
            (Dbl.fin 0.5)) 4 (1, 3, 2),
          init_edge (su2_element (Dbl.div (Dbl.fin PI) (Dbl.fin 4.0)) (Dbl.fin 0.5) (Dbl.fin 0.5)
            (Dbl.fin 0.5)) 5 (2, 3, 3) ] := rfl
    rw [hE] at he
    simp only [List.mem_cons, List.mem_singleton, List.not_mem_nil, or_false] at he
    rcases he with h | h | h | h | h | h <;> subst h
    · show (CDbl.add (curvature_operator create_tetrahedral_network 0)
        (curvature_operator create_tetrahedral_network 1)).isFinite
      rw [hK0, hR1]; exact hsum _ _ _ _ z1 z2 z1 z2 ha.1 ha.2 hb1 hb.2
    · show (CDbl.add (curvature_operator create_tetrahedral_network 0)
        (curvature_operator create_tetrahedral_network 2)).isFinite
      rw [hK0, hR2]; exact hsum _ _ _ _ z1 z2 z1 z2 ha.1 ha.2 hb1 hb.2
    · show (CDbl.add (curvature_operator create_tetrahedral_network 0)
        (curvature_operator create_tetrahedral_network 3)).isFinite
      rw [hK0, hK3]; exact hsum _ _ _ _ z1 z2 z1 z2 z1 z2 z1 z2
    · show (CDbl.add (curvature_operator create_tetrahedral_network 1)
        (curvature_operator create_tetrahedral_network 2)).isFinite
      rw [hR1, hR2]; exact hsum _ _ _ _ ha.1 ha.2 hb1 hb.2 ha.1 ha.2 hb1 hb.2
    · show (CDbl.add (curvature_operator create_tetrahedral_network 1)
        (curvature_operator create_tetrahedral_network 3)).isFinite
      rw [hR1, hK3]; exact hsum _ _ _ _ ha.1 ha.2 hb1 hb.2 z1 z2 z1 z2
    · show (CDbl.add (curvature_operator create_tetrahedral_network 2)
        (curvature_operator create_tetrahedral_network 3)).isFinite
      rw [hR2, hK3]; exact hsum _ _ _ _ ha.1 ha.2 hb1 hb.2 z1 z2 z1 z2

/-- C4, witness of the amended statement: on the tetrahedral network all holonomies
and all curvature sums are finite, and a call with time step 0 keeps the
holonomies. -/
theorem evolve_zero_holonomy_finite_witness :
    holonomies_finite create_tetrahedral_network ∧
    (∀ e ∈ create_tetrahedral_network.edges,
      (CDbl.add (curvature_operator create_tetrahedral_network e.source)
        (curvature_operator create_tetrahedral_network e.target)).isFinite) ∧
    (evolve_spin_network create_tetrahedral_network (Dbl.fin 0)).edges.map (fun e => e.holonomy) =
      create_tetrahedral_network.edges.map (fun e => e.holonomy) := by
  obtain ⟨hbig, _⟩ := round_facts
  obtain ⟨c, d, a, b, hc, hd, _, _, hedges, _, _, _, hsums⟩ := tetrahedral_facts
  have h2 : (2 : ℝ) ≤ DBL_MAX := le_trans (by norm_num) hbig
  have hfin : holonomies_finite create_tetrahedral_network := by
    intro e he
    rw [hedges e he]
    exact ⟨⟨c, rfl, abs_le.mpr ⟨by linarith [hc.1], by linarith [hc.2]⟩⟩,
      ⟨d, rfl, abs_le.mpr ⟨by linarith [hd.1], by linarith [hd.2]⟩⟩⟩
  exact ⟨hfin, hsums, (evolve_zero_holonomy_finite create_tetrahedral_network hfin).mpr hsums⟩

/-- C4 as stated fails: in the chain `0 -> 1 -> 2` whose two holonomies are the
finite double `1e200 + 0i`, every edge endpoint is a valid node id, but the
curvature at node 1 is the product `1e200 * 1e200`, which overflows to
infinity; the update factor of edge 0 is then `1 + I * 0 * (inf + 0i) / 2`, and
`0 * inf` is NaN. After `evolve_spin_network(graph, 0)` both holonomies are
`NaN + NaN i`. -/
theorem evolve_zero_overflow :
    (∀ e ∈ (chain_graph { re := Dbl.fin 1e200, im := Dbl.fin 0 }
        { re := Dbl.fin 1e200, im := Dbl.fin 0 }).edges,
      (0 ≤ e.source ∧ e.source < 3) ∧ (0 ≤ e.target ∧ e.target < 3)) ∧
    holonomies_finite (chain_graph { re := Dbl.fin 1e200, im := Dbl.fin 0 }
      { re := Dbl.fin 1e200, im := Dbl.fin 0 }) ∧
    (evolve_spin_network (chain_graph { re := Dbl.fin 1e200, im := Dbl.fin 0 }
        { re := Dbl.fin 1e200, im := Dbl.fin 0 }) (Dbl.fin 0)).edges.map (fun e => e.holonomy) =
      [{ re := Dbl.nan, im := Dbl.nan }, { re := Dbl.nan, im := Dbl.nan }] ∧
    (evolve_spin_network (chain_graph { re := Dbl.fin 1e200, im := Dbl.fin 0 }
        { re := Dbl.fin 1e200, im := Dbl.fin 0 }) (Dbl.fin 0)).edges.map (fun e => e.holonomy) ≠
      (chain_graph { re := Dbl.fin 1e200, im := Dbl.fin 0 }
        { re := Dbl.fin 1e200, im := Dbl.fin 0 }).edges.map (fun e => e.holonomy) := by
  obtain ⟨hbig, _, hsmallb, hround, hover, _⟩ := round_facts
  obtain ⟨add_ff, sub_ff, mul_ff, _, add_nan, nan_add, _⟩ := dbl_rules
  obtain ⟨_, hnan, _, hm1, hm2⟩ := update_factor_zero
  have hp : (0 : ℝ) < DBL_MAX := lt_of_lt_of_le (by positivity) hbig
  have r0 : Dbl.round 0 = Dbl.fin 0 := hround 0 (by rw [abs_zero]; exact le_of_lt hp)
  have rbig : Dbl.round ((1e200 : ℝ) * 1e200) = Dbl.pinf :=
    hover _ (le_trans hsmallb (by norm_num))
  have hZ : CDbl.real_add (Dbl.fin 0.0) (CDbl.real_mul (Dbl.fin 0.0) CDbl.I) =
      { re := Dbl.fin 0, im := Dbl.fin 0 } := by
    unfold CDbl.real_add CDbl.real_mul CDbl.I
    simp only [show (0.0 : ℝ) = 0 by norm_num, mul_ff, add_ff, mul_zero, mul_one, add_zero, r0]
  -- the curvature at node 1 of the start graph is `inf + 0i`
  have hsq : CDbl.mul { re := Dbl.fin 1e200, im := Dbl.fin 0 }
      { re := Dbl.fin 1e200, im := Dbl.fin 0 } = { re := Dbl.pinf, im := Dbl.fin 0 } := by
    unfold CDbl.mul
    simp only [mul_ff, add_ff, mul_zero, zero_mul, add_zero, r0, rbig]
    rfl
  have hK1 : curvature_operator (chain_graph { re := Dbl.fin 1e200, im := Dbl.fin 0 }
      { re := Dbl.fin 1e200, im := Dbl.fin 0 }) 1 =
      CDbl.add (CDbl.real_add (Dbl.fin 0.0) (CDbl.real_mul (Dbl.fin 0.0) CDbl.I))
        (CDbl.mul { re := Dbl.fin 1e200, im := Dbl.fin 0 }
          { re := Dbl.fin 1e200, im := Dbl.fin 0 }) := rfl
  rw [hZ, hsq] at hK1
  have hK0 : ∀ a b : CDbl, curvature_operator (chain_graph a b) 0 =
      CDbl.real_add (Dbl.fin 0.0) (CDbl.real_mul (Dbl.fin 0.0) CDbl.I) := fun _ _ => rfl
  -- the pass for edge 0
  have e1 : evolve_edge (Dbl.fin 0) (chain_graph { re := Dbl.fin 1e200, im := Dbl.fin 0 }
      { re := Dbl.fin 1e200, im := Dbl.fin 0 }) 0 =
      chain_graph
        (CDbl.mul { re := Dbl.fin 1e200, im := Dbl.fin 0 }
          (CDbl.real_add (Dbl.fin 1.0)
            (CDbl.div_real (CDbl.mul (CDbl.mul_real CDbl.I (Dbl.fin 0))
              (CDbl.add
                (curvature_operator (chain_graph { re := Dbl.fin 1e200, im := Dbl.fin 0 }
                  { re := Dbl.fin 1e200, im := Dbl.fin 0 }) 0)
                (curvature_operator (chain_graph { re := Dbl.fin 1e200, im := Dbl.fin 0 }
                  { re := Dbl.fin 1e200, im := Dbl.fin 0 }) 1))) (Dbl.fin 2.0))))
        { re := Dbl.fin 1e200, im := Dbl.fin 0 } := rfl
  rw [hnan _ (Or.inl (by rw [hK0, hK1, hZ]; exact Or.inl rfl)), hm1] at e1
  -- the pass for edge 1 reads the NaN written by the pass for edge 0
  have hK1b : curvature_operator (chain_graph { re := Dbl.nan, im := Dbl.nan }
      { re := Dbl.fin 1e200, im := Dbl.fin 0 }) 1 =
      CDbl.add (CDbl.real_add (Dbl.fin 0.0) (CDbl.real_mul (Dbl.fin 0.0) CDbl.I))
        (CDbl.mul { re := Dbl.nan, im := Dbl.nan }
          { re := Dbl.fin 1e200, im := Dbl.fin 0 }) := rfl
  rw [hZ, hm2] at hK1b
  have e2 : evolve_edge (Dbl.fin 0) (chain_graph { re := Dbl.nan, im := Dbl.nan }
      { re := Dbl.fin 1e200, im := Dbl.fin 0 }) 1 =
      chain_graph { re := Dbl.nan, im := Dbl.nan }
        (CDbl.mul { re := Dbl.fin 1e200, im := Dbl.fin 0 }
          (CDbl.real_add (Dbl.fin 1.0)
            (CDbl.div_real (CDbl.mul (CDbl.mul_real CDbl.I (Dbl.fin 0))
              (CDbl.add
                (curvature_operator (chain_graph { re := Dbl.nan, im := Dbl.nan }
                  { re := Dbl.fin 1e200, im := Dbl.fin 0 }) 1)
                (curvature_operator (chain_graph { re := Dbl.nan, im := Dbl.nan }
                  { re := Dbl.fin 1e200, im := Dbl.fin 0 }) 2))) (Dbl.fin 2.0)))) := rfl
  rw [hnan _ (Or.inl (by rw [hK1b]; exact Or.inr (Or.inr rfl))), hm1] at e2
  have hev : (evolve_spin_network (chain_graph { re := Dbl.fin 1e200, im := Dbl.fin 0 }
      { re := Dbl.fin 1e200, im := Dbl.fin 0 }) (Dbl.fin 0)).edges.map (fun e => e.holonomy) =
      (evolve_edge (Dbl.fin 0) (evolve_edge (Dbl.fin 0)
        (chain_graph { re := Dbl.fin 1e200, im := Dbl.fin 0 }
          { re := Dbl.fin 1e200, im := Dbl.fin 0 }) 0) 1).edges.map (fun e => e.holonomy) := rfl
  rw [e1, e2] at hev
  have hb : |(1e200 : ℝ)| ≤ DBL_MAX := by
    rw [abs_of_pos (by norm_num)]
    exact le_trans (by norm_num) hbig
  have hz : |(0 : ℝ)| ≤ DBL_MAX := by rw [abs_zero]; exact le_of_lt hp
  refine ⟨by decide, ?_, hev, ?_⟩
  · intro e he
    have hE : (chain_graph { re := Dbl.fin 1e200, im := Dbl.fin 0 }
        { re := Dbl.fin 1e200, im := Dbl.fin 0 }).edges =
        [ { id := 0, source := 0, target := 1, j := Dbl.fin 1, length := Dbl.fin L_PLANCK,
            area := area_eigenvalue (Dbl.fin 1), orientation := 1,
            holonomy := { re := Dbl.fin 1e200, im := Dbl.fin 0 } },
          { id := 1, source := 1, target := 2, j := Dbl.fin 1, length := Dbl.fin L_PLANCK,
            area := area_eigenvalue (Dbl.fin 1), orientation := 1,
            holonomy := { re := Dbl.fin 1e200, im := Dbl.fin 0 } } ] := rfl
    rw [hE] at he
    simp only [List.mem_cons, List.mem_singleton, List.not_mem_nil, or_false] at he
    rcases he with h | h <;> subst h <;> exact ⟨⟨_, rfl, hb⟩, ⟨_, rfl, hz⟩⟩
  · rw [hev]
    intro h
    have h2 := congrArg (fun l : List CDbl => (l.head?.map (fun z => z.re))) h
    exact Dbl.noConfusion (Option.some.inj h2)

/-- The Hamiltonian constraint on a graph whose nodes all have valence below 4, where
`volume_operator` returns `0.0`: it is `0 + 0i` when every holonomy is finite;
and when an edge whose source is an index of the node array has a holonomy with
an infinite or NaN real part (imaginary part), the real part (imaginary part) of
the result is NaN, because `inf * 0.0` and `NaN * 0.0` are NaN. -/
theorem hamiltonian_low_valence (foam : SpinFoam) (hv : ∀ nd ∈ foam.nodes, nd.valence < 4) :
    (holonomies_finite foam →
      hamiltonian_constraint foam = { re := Dbl.fin 0, im := Dbl.fin 0 }) ∧
    (∀ e ∈ foam.edges, (0 ≤ e.source ∧ e.source < (foam.nodes.length : Int)) →
      (e.holonomy.re.notFinite → (hamiltonian_constraint foam).re = Dbl.nan) ∧
      (e.holonomy.im.notFinite → (hamiltonian_constraint foam).im = Dbl.nan)) := by
  obtain ⟨hbig, hb1, _, hround, _, hcases⟩ := round_facts
  obtain ⟨add_ff, sub_ff, mul_ff, _, add_nan, nan_add, _⟩ := dbl_rules
  obtain ⟨_, _, sub_bad, _, _, mul_zero_bad, _, _, fin_not_bad⟩ := notFinite_rules
  have hp : (0 : ℝ) < DBL_MAX := lt_of_lt_of_le (by positivity) hbig
  have r0 : Dbl.round 0 = Dbl.fin 0 := hround 0 (by rw [abs_zero]; exact le_of_lt hp)
  have hlit0 : (0.0 : ℝ) = 0 := by norm_num
  have hZ : CDbl.real_add (Dbl.fin 0.0) (CDbl.real_mul (Dbl.fin 0.0) CDbl.I) =
      { re := Dbl.fin 0, im := Dbl.fin 0 } := by
    unfold CDbl.real_add CDbl.real_mul CDbl.I
    simp only [hlit0, mul_ff, add_ff, mul_zero, mul_one, add_zero, r0]
  have hvol : ∀ nd : SpinNode, nd.valence < 4 → volume_operator nd = Dbl.fin 0.0 := by
    intro nd h
    unfold volume_operator
    rw [if_pos h]
  -- the term of a finite holonomy is `0 + 0i`
  have hterm : ∀ h : CDbl, h.isFinite →
      CDbl.mul_real (CDbl.sub_real h (Dbl.fin 1.0)) (Dbl.fin 0.0) =
        { re := Dbl.fin 0, im := Dbl.fin 0 } := by
    intro h hh
    obtain ⟨⟨x, hx, hxb⟩, ⟨y, hy, _⟩⟩ := hh
    have hx2 := abs_le.mp hxb
    have hr : ∃ z : ℝ, Dbl.round (x - 1.0) = Dbl.fin z := by
      rcases hcases (x - 1.0) with h1 | h1 | ⟨z, h1, _⟩
      · exfalso
        have : Dbl.round (x - 1.0) = Dbl.fin (max (-DBL_MAX) (min DBL_MAX (x - 1.0))) := by
          unfold Dbl.round
          rw [if_neg (by norm_num; linarith), if_neg (by norm_num; linarith)]
        rw [this] at h1
        exact Dbl.noConfusion h1
      · exfalso
        have : Dbl.round (x - 1.0) = Dbl.fin (max (-DBL_MAX) (min DBL_MAX (x - 1.0))) := by
          unfold Dbl.round
          rw [if_neg (by norm_num; linarith), if_neg (by norm_num; linarith)]
        rw [this] at h1
        exact Dbl.noConfusion h1
      · exact ⟨z, h1⟩
    obtain ⟨z, hz⟩ := hr
    unfold CDbl.mul_real CDbl.sub_real
    simp only [hx, hy, sub_ff, hz, mul_ff, hlit0, mul_zero, r0]
  -- the edge loop
  have hzero_e : ∀ (i : Int) (l : List SpinEdge), (∀ e ∈ l, e.holonomy.isFinite) →
      l.foldl (fun hamiltonian e =>
        if e.source = i ∨ e.target = i then
          CDbl.add hamiltonian
            (CDbl.mul_real (CDbl.sub_real e.holonomy (Dbl.fin 1.0)) (Dbl.fin 0.0))
        else hamiltonian) { re := Dbl.fin 0, im := Dbl.fin 0 } =
        { re := Dbl.fin 0, im := Dbl.fin 0 } := by
    intro i l
    induction l with
    | nil => exact fun _ => rfl
    | cons e l ih =>
      intro hf
      rw [List.foldl_cons, hterm _ (hf e (List.mem_cons_self _ _))]
      have hadd : CDbl.add { re := Dbl.fin 0, im := Dbl.fin 0 }
          { re := Dbl.fin 0, im := Dbl.fin 0 } = { re := Dbl.fin 0, im := Dbl.fin 0 } := by
        unfold CDbl.add
        simp only [add_ff, add_zero, r0]
      rw [hadd, ite_self]
      exact ih (fun e he => hf e (List.mem_cons_of_mem _ he))
  have hkeep_e : ∀ (q : CDbl → Dbl), (q = CDbl.re ∨ q = CDbl.im) →
      ∀ (i : Int) (v : Dbl) (l : List SpinEdge) (acc : CDbl), q acc = Dbl.nan →
      q (l.foldl (fun hamiltonian e =>
        if e.source = i ∨ e.target = i then
          CDbl.add hamiltonian (CDbl.mul_real (CDbl.sub_real e.holonomy (Dbl.fin 1.0)) v)
        else hamiltonian) acc) = Dbl.nan := by
    intro q hq i v l
    induction l with
    | nil => exact fun _ h => h
    | cons e l ih =>
      intro acc h
      rw [List.foldl_cons]
      apply ih
      by_cases hc : e.source = i ∨ e.target = i
      · rw [if_pos hc]
        rcases hq with rfl | rfl
        · show Dbl.add acc.re _ = Dbl.nan
          rw [h, nan_add]
        · show Dbl.add acc.im _ = Dbl.nan
          rw [h, nan_add]
      · rw [if_neg hc]
        exact h
  have hhit_e : ∀ (q : CDbl → Dbl), (q = CDbl.re ∨ q = CDbl.im) →
      ∀ (i : Int) (e : SpinEdge), e.source = i → (q e.holonomy).notFinite →
      ∀ (l : List SpinEdge) (acc : CDbl), e ∈ l →
      q (l.foldl (fun hamiltonian e =>
        if e.source = i ∨ e.target = i then
          CDbl.add hamiltonian
            (CDbl.mul_real (CDbl.sub_real e.holonomy (Dbl.fin 1.0)) (Dbl.fin 0.0))
        else hamiltonian) acc) = Dbl.nan := by
    intro q hq i e hs hbad l
    induction l with
    | nil => exact fun _ he => absurd he (List.not_mem_nil _)
    | cons x l ih =>
      intro acc he
      rw [List.foldl_cons]
      rcases List.mem_cons.mp he with hx | hx
      · subst hx
        apply hkeep_e q hq
        rw [if_pos (Or.inl hs)]
        rcases hq with rfl | rfl
        · show Dbl.add acc.re (Dbl.mul (Dbl.sub e.holonomy.re (Dbl.fin 1.0)) (Dbl.fin 0.0)) =
            Dbl.nan
          rw [mul_zero_bad _ (sub_bad _ _ hbad), add_nan]
        · show Dbl.add acc.im (Dbl.mul e.holonomy.im (Dbl.fin 0.0)) = Dbl.nan
          rw [mul_zero_bad _ hbad, add_nan]
      · exact ih _ hx
  -- the node loop
  have hzero_n : holonomies_finite foam → ∀ (l : List SpinNode) (k : Nat),
      (∀ nd ∈ l, nd.valence < 4) →
      (l.enumFrom k).foldl
        (fun hamiltonian p =>
          foam.edges.foldl (fun hamiltonian e =>
            if e.source = (p.1 : Int) ∨ e.target = (p.1 : Int) then
              CDbl.add hamiltonian
                (CDbl.mul_real (CDbl.sub_real e.holonomy (Dbl.fin 1.0)) (volume_operator p.2))
            else hamiltonian) hamiltonian)
        { re := Dbl.fin 0, im := Dbl.fin 0 } = { re := Dbl.fin 0, im := Dbl.fin 0 } := by
    intro hf l
    induction l with
    | nil => exact fun _ _ => rfl
    | cons nd l ih =>
      intro k hl
      rw [List.enumFrom_cons, List.foldl_cons]
      simp only [hvol nd (hl nd (List.mem_cons_self _ _))]
      rw [hzero_e _ _ hf]
      exact ih (k + 1) (fun nd hnd => hl nd (List.mem_cons_of_mem _ hnd))
  have hkeep_n : ∀ (q : CDbl → Dbl), (q = CDbl.re ∨ q = CDbl.im) →
      ∀ (l : List SpinNode) (k : Nat) (acc : CDbl), q acc = Dbl.nan →
      q ((l.enumFrom k).foldl
        (fun hamiltonian p =>
          foam.edges.foldl (fun hamiltonian e =>
            if e.source = (p.1 : Int) ∨ e.target = (p.1 : Int) then
              CDbl.add hamiltonian
                (CDbl.mul_real (CDbl.sub_real e.holonomy (Dbl.fin 1.0)) (volume_operator p.2))
            else hamiltonian) hamiltonian) acc) = Dbl.nan := by
    intro q hq l
    induction l with
    | nil => exact fun _ _ h => h
    | cons nd l ih =>
      intro k acc h
      rw [List.enumFrom_cons, List.foldl_cons]
      exact ih (k + 1) _ (hkeep_e q hq _ _ _ _ h)
  have hhit_n : ∀ (q : CDbl → Dbl), (q = CDbl.re ∨ q = CDbl.im) →
      ∀ (e : SpinEdge), e ∈ foam.edges → (q e.holonomy).notFinite →
      ∀ (l : List SpinNode) (k : Nat) (acc : CDbl), (∀ nd ∈ l, nd.valence < 4) →
      ((k : Int) ≤ e.source ∧ e.source < (k : Int) + (l.length : Int)) →
      q ((l.enumFrom k).foldl
        (fun hamiltonian p =>
          foam.edges.foldl (fun hamiltonian e =>
            if e.source = (p.1 : Int) ∨ e.target = (p.1 : Int) then
              CDbl.add hamiltonian
                (CDbl.mul_real (CDbl.sub_real e.holonomy (Dbl.fin 1.0)) (volume_operator p.2))
            else hamiltonian) hamiltonian) acc) = Dbl.nan := by
    intro q hq e he hbad l
    induction l with
    | nil =>
      intro k acc _ hs
      simp only [List.length_nil, Int.Nat.cast_ofNat_Int, add_zero] at hs
      omega
    | cons nd l ih =>
      intro k acc hl hs
      rw [List.enumFrom_cons, List.foldl_cons]
      by_cases hk : e.source = (k : Int)
      · apply hkeep_n q hq
        simp only [hvol nd (hl nd (List.mem_cons_self _ _))]
        exact hhit_e q hq _ e hk hbad _ _ he
      · apply ih (k + 1) _ (fun nd hnd => hl nd (List.mem_cons_of_mem _ hnd))
        simp only [List.length_cons] at hs
        constructor
        · push_cast
          omega
        · have := hs.2
          push_cast at this ⊢
          omega
  refine ⟨fun hf => ?_, fun e he hs => ⟨fun hbad => ?_, fun hbad => ?_⟩⟩
  · unfold hamiltonian_constraint
    rw [hZ, List.enum]
    exact hzero_n hf foam.nodes 0 hv
  · unfold hamiltonian_constraint
    rw [List.enum]
    exact hhit_n CDbl.re (Or.inl rfl) e he hbad foam.nodes 0 _ hv
      ⟨by simpa using hs.1, by simpa using hs.2⟩
  · unfold hamiltonian_constraint
    rw [List.enum]
    exact hhit_n CDbl.im (Or.inr rfl) e he hbad foam.nodes 0 _ hv
      ⟨by simpa using hs.1, by simpa using hs.2⟩

/-- Evolution steps keep two facts about every edge: each part of its holonomy is a
finite double, an infinity or NaN, and its source is an index of the node
array. -/
theorem evolve_invariant (steps : List Dbl) (foam : SpinFoam)
    (h : ∀ ed ∈ foam.edges,
      ((ed.holonomy.re.isFinite ∨ ed.holonomy.re.notFinite) ∧
        (ed.holonomy.im.isFinite ∨ ed.holonomy.im.notFinite)) ∧
      (0 ≤ ed.source ∧ ed.source < (foam.nodes.length : Int))) :
    ∀ ed ∈ (steps.foldl evolve_spin_network foam).edges,
      ((ed.holonomy.re.isFinite ∨ ed.holonomy.re.notFinite) ∧
        (ed.holonomy.im.isFinite ∨ ed.holonomy.im.notFinite)) ∧
      (0 ≤ ed.source ∧ ed.source < ((steps.foldl evolve_spin_network foam).nodes.length : Int)) := by
  obtain ⟨_, _, _, _, _, _, _, add_cases, _⟩ := notFinite_rules
  obtain ⟨hframe, hloopn, _, _⟩ := evolve_frames
  have hedge : ∀ (ts : Dbl) (foam : SpinFoam) (e : Nat),
      (∀ ed ∈ foam.edges,
        ((ed.holonomy.re.isFinite ∨ ed.holonomy.re.notFinite) ∧
          (ed.holonomy.im.isFinite ∨ ed.holonomy.im.notFinite)) ∧
        (0 ≤ ed.source ∧ ed.source < (foam.nodes.length : Int))) →
      ∀ ed ∈ (evolve_edge ts foam e).edges,
        ((ed.holonomy.re.isFinite ∨ ed.holonomy.re.notFinite) ∧
          (ed.holonomy.im.isFinite ∨ ed.holonomy.im.notFinite)) ∧
        (0 ≤ ed.source ∧ ed.source < ((evolve_edge ts foam e).nodes.length : Int)) := by
    intro ts foam e h
    rw [(hframe ts foam e).1]
    unfold evolve_edge
    cases hed : foam.edges[e]? with
    | none => exact h
    | some ed0 =>
      intro ed hmem
      rcases List.mem_or_eq_of_mem_set hmem with h1 | h1
      · exact h ed h1
      · rw [h1]
        exact ⟨⟨add_cases _ _, add_cases _ _⟩, (h ed0 (List.getElem?_mem hed)).2⟩
  have hloop : ∀ (ts : Dbl) (l : List Nat) (foam : SpinFoam),
      (∀ ed ∈ foam.edges,
        ((ed.holonomy.re.isFinite ∨ ed.holonomy.re.notFinite) ∧
          (ed.holonomy.im.isFinite ∨ ed.holonomy.im.notFinite)) ∧
        (0 ≤ ed.source ∧ ed.source < (foam.nodes.length : Int))) →
      ∀ ed ∈ (l.foldl (evolve_edge ts) foam).edges,
        ((ed.holonomy.re.isFinite ∨ ed.holonomy.re.notFinite) ∧
          (ed.holonomy.im.isFinite ∨ ed.holonomy.im.notFinite)) ∧
        (0 ≤ ed.source ∧ ed.source < ((l.foldl (evolve_edge ts) foam).nodes.length : Int)) := by
    intro ts l
    induction l with
    | nil => exact fun _ h => h
    | cons e l ih =>
      intro foam h
      rw [List.foldl_cons]
      exact ih _ (hedge ts foam e h)
  induction steps generalizing foam with
  | nil => exact h
  | cons ts steps ih =>
    rw [List.foldl_cons]
    apply ih
    exact hloop ts _ foam h

/-- C23 as stated fails: the six holonomies of the tetrahedral network are finite and
`1e308` is a finite double, but after the one call
`evolve_spin_network(foam, 1e308)` the holonomy of edge 0 has overflowed, the
term `(holonomy - 1.0) * 0.0` is NaN, and `hamiltonian_constraint` returns
`NaN + NaN i`, not 0. -/
theorem hamiltonian_nan_after_big_step :
    holonomies_finite create_tetrahedral_network ∧
    (Dbl.fin 1e308).isFinite ∧
    hamiltonian_constraint (evolve_spin_network create_tetrahedral_network (Dbl.fin 1e308)) =
      { re := Dbl.nan, im := Dbl.nan } ∧
    hamiltonian_constraint (evolve_spin_network create_tetrahedral_network (Dbl.fin 1e308)) ≠
      { re := Dbl.fin 0, im := Dbl.fin 0 } := by
  obtain ⟨hbig, _, hsmallb, hround, hover, _⟩ := round_facts
  obtain ⟨add_ff, sub_ff, mul_ff, _⟩ := dbl_rules
  obtain ⟨_, add_bad, sub_bad, _⟩ := notFinite_rules
  obtain ⟨_, _, hnodes, hat⟩ := evolve_frames
  obtain ⟨c, d, a, b, hc, hd, ha, hb, hedges, ⟨ed, hed, hs, ht⟩, hK0, hK1, _⟩ :=
    tetrahedral_facts
  have hp : (0 : ℝ) < DBL_MAX := lt_of_lt_of_le (by positivity) hbig
  have h10 : (10 : ℝ) ≤ DBL_MAX := le_trans (by norm_num) hbig
  have hfin : holonomies_finite create_tetrahedral_network := by
    intro e he
    rw [hedges e he]
    exact ⟨⟨c, rfl, abs_le.mpr ⟨by linarith [hc.1], by linarith [hc.2]⟩⟩,
      ⟨d, rfl, abs_le.mpr ⟨by linarith [hd.1], by linarith [hd.2]⟩⟩⟩
  have hts : |(1e308 : ℝ)| ≤ DBL_MAX := by
    rw [abs_of_pos (by norm_num)]
    exact le_trans (by norm_num) hbig
  have r0 : Dbl.round 0 = Dbl.fin 0 := hround 0 (by rw [abs_zero]; exact le_of_lt hp)
  have rts : Dbl.round 1e308 = Dbl.fin 1e308 := hround _ hts
  have ra : Dbl.round a = Dbl.fin a :=
    hround a (abs_le.mpr ⟨by linarith [ha.1], by linarith [ha.2]⟩)
  have rb : Dbl.round b = Dbl.fin b :=
    hround b (abs_le.mpr ⟨by linarith [hb.1], by linarith [hb.2]⟩)
  have rbig : Dbl.round (1e308 * b) = Dbl.pinf := by
    apply hover
    refine le_trans hsmallb ?_
    have h1 : (18 : ℝ) * 10 ^ 307 = 1e308 * 1.8 := by norm_num
    rw [h1]
    exact mul_le_mul_of_nonneg_left (by linarith [hb.1]) (by norm_num)
  have hsub0 : Dbl.sub (Dbl.fin 0) Dbl.pinf = Dbl.ninf := rfl
  have hdiv : Dbl.div Dbl.ninf (Dbl.fin 2.0) = Dbl.ninf := by
    show (if (0 : ℝ) ≤ 2.0 then Dbl.ninf else Dbl.pinf) = Dbl.ninf
    rw [if_pos (by norm_num)]
  have hadd1 : Dbl.add (Dbl.fin 1.0) Dbl.ninf = Dbl.ninf := rfl
  have hneg : ∀ x : ℝ, 0 < x → Dbl.mul (Dbl.fin x) Dbl.ninf = Dbl.ninf := by
    intro x hx
    show Dbl.inf_times false x = Dbl.ninf
    unfold Dbl.inf_times
    rw [if_pos hx]
    rfl
  have hN : Dbl.ninf.notFinite := Or.inr (Or.inl rfl)
  -- the holonomy that the pass for edge 0 writes
  have hparts : ∀ q : CDbl,
      q = CDbl.mul { re := Dbl.fin c, im := Dbl.fin d }
        (CDbl.real_add (Dbl.fin 1.0)
          (CDbl.div_real (CDbl.mul (CDbl.mul_real CDbl.I (Dbl.fin 1e308))
            (CDbl.add { re := Dbl.fin 0, im := Dbl.fin 0 } { re := Dbl.fin a, im := Dbl.fin b }))
            (Dbl.fin 2.0))) →
      q.re.notFinite ∧ q.im.notFinite := by
    intro q hq
    subst hq
    unfold CDbl.mul CDbl.real_add CDbl.div_real CDbl.mul_real CDbl.add CDbl.I
    simp only [mul_ff, add_ff, zero_mul, one_mul, zero_add, r0, rts, ra, rb, rbig, hsub0, hdiv,
      hadd1, hneg c (by linarith [hc.1]), hneg d (by linarith [hd.1])]
    exact ⟨sub_bad _ _ hN, add_bad _ _ hN⟩
  have hlen : 0 < create_tetrahedral_network.edges.length :=
    (List.getElem?_eq_some.mp hed).1
  have hstep : (evolve_edge (Dbl.fin 1e308) create_tetrahedral_network 0).edges[0]? =
      some { ed with holonomy := (CDbl.mul { re := Dbl.fin c, im := Dbl.fin d }
        (CDbl.real_add (Dbl.fin 1.0)
          (CDbl.div_real (CDbl.mul (CDbl.mul_real CDbl.I (Dbl.fin 1e308))
            (CDbl.add { re := Dbl.fin 0, im := Dbl.fin 0 } { re := Dbl.fin a, im := Dbl.fin b }))
            (Dbl.fin 2.0)))) } := by
    unfold evolve_edge
    rw [hed]
    simp only [hs, ht, hK0, hK1, hedges ed (List.getElem?_mem hed)]
    exact List.getElem?_set_self hlen
  have hE : (evolve_spin_network create_tetrahedral_network (Dbl.fin 1e308)).edges[0]? =
      some { ed with holonomy := (CDbl.mul { re := Dbl.fin c, im := Dbl.fin d }
        (CDbl.real_add (Dbl.fin 1.0)
          (CDbl.div_real (CDbl.mul (CDbl.mul_real CDbl.I (Dbl.fin 1e308))
            (CDbl.add { re := Dbl.fin 0, im := Dbl.fin 0 } { re := Dbl.fin a, im := Dbl.fin b }))
            (Dbl.fin 2.0)))) } := by
    have := hat (Dbl.fin 1e308) create_tetrahedral_network
      create_tetrahedral_network.edges.length 0 hlen
    rw [← hstep]
    exact this
  have hN2 : (evolve_spin_network create_tetrahedral_network (Dbl.fin 1e308)).nodes =
      create_tetrahedral_network.nodes := hnodes [Dbl.fin 1e308] create_tetrahedral_network
  have hv : ∀ nd ∈ (evolve_spin_network create_tetrahedral_network (Dbl.fin 1e308)).nodes,
      nd.valence < 4 := by
    rw [hN2]
    decide
  obtain ⟨hre, him⟩ := (hamiltonian_low_valence _ hv).2 _ (List.getElem?_mem hE)
    (by rw [hN2]; exact ⟨le_of_eq hs.symm, by rw [hs]; decide⟩)
  obtain ⟨p1, p2⟩ := hparts _ rfl
  have hH : hamiltonian_constraint
      (evolve_spin_network create_tetrahedral_network (Dbl.fin 1e308)) =
      { re := Dbl.nan, im := Dbl.nan } := by
    have e1 := hre p1
    have e2 := him p2
    cases hh : hamiltonian_constraint
        (evolve_spin_network create_tetrahedral_network (Dbl.fin 1e308)) with
    | mk re im =>
      rw [hh] at e1 e2
      simp only at e1 e2
      rw [e1, e2]
  refine ⟨hfin, ⟨_, rfl, hts⟩, hH, ?_⟩
  rw [hH]
  intro h
  exact Dbl.noConfusion (congrArg CDbl.re h)

/-- C23 amended: `hamiltonian_constraint` is exactly `0 + 0i` on the graph returned by
`create_tetrahedral_network` and on the graph returned by
`create_cubical_network`, because every node has valence 3 and
`volume_operator` returns 0 for valence below 4. After any number of
`evolve_spin_network` steps with any time steps it is `0 + 0i` as long as every
holonomy of the graph is a finite double; when a holonomy part has become
infinite or NaN, a part of the value is NaN. -/
theorem hamiltonian_zero_while_finite :
    hamiltonian_constraint create_tetrahedral_network = { re := Dbl.fin 0, im := Dbl.fin 0 } ∧
    hamiltonian_constraint create_cubical_network = { re := Dbl.fin 0, im := Dbl.fin 0 } ∧
    (∀ steps : List Dbl,
      (holonomies_finite (steps.foldl evolve_spin_network create_tetrahedral_network) →
        hamiltonian_constraint (steps.foldl evolve_spin_network create_tetrahedral_network) =
          { re := Dbl.fin 0, im := Dbl.fin 0 }) ∧
      (¬ holonomies_finite (steps.foldl evolve_spin_network create_tetrahedral_network) →
        (hamiltonian_constraint
          (steps.foldl evolve_spin_network create_tetrahedral_network)).re = Dbl.nan ∨
        (hamiltonian_constraint
          (steps.foldl evolve_spin_network create_tetrahedral_network)).im = Dbl.nan) ∧
      (holonomies_finite (steps.foldl evolve_spin_network create_cubical_network) →
        hamiltonian_constraint (steps.foldl evolve_spin_network create_cubical_network) =
          { re := Dbl.fin 0, im := Dbl.fin 0 }) ∧
      (¬ holonomies_finite (steps.foldl evolve_spin_network create_cubical_network) →
        (hamiltonian_constraint
          (steps.foldl evolve_spin_network create_cubical_network)).re = Dbl.nan ∨
        (hamiltonian_constraint
          (steps.foldl evolve_spin_network create_cubical_network)).im = Dbl.nan)) ∧
    (∀ nd ∈ create_tetrahedral_network.nodes,
      nd.valence = 3 ∧ volume_operator nd = Dbl.fin 0) ∧
    (∀ nd ∈ create_cubical_network.nodes,
      nd.valence = 3 ∧ volume_operator nd = Dbl.fin 0) := by
  obtain ⟨hbig, _, _, hround, _, _⟩ := round_facts
  obtain ⟨_, _, hnodes, _⟩ := evolve_frames
  obtain ⟨c, d, _, _, hc, hd, _, _, hedges, _⟩ := tetrahedral_facts
  have h10 : (10 : ℝ) ≤ DBL_MAX := le_trans (by norm_num) hbig
  have hvt : ∀ nd ∈ create_tetrahedral_network.nodes, nd.valence < 4 := by decide
  have hvc : ∀ nd ∈ create_cubical_network.nodes, nd.valence < 4 := by decide
  have h3t : ∀ nd ∈ create_tetrahedral_network.nodes, nd.valence = 3 := by decide
  have h3c : ∀ nd ∈ create_cubical_network.nodes, nd.valence = 3 := by decide
  have hst : ∀ ed ∈ create_tetrahedral_network.edges,
      0 ≤ ed.source ∧ ed.source < (create_tetrahedral_network.nodes.length : Int) := by decide
  have hsc : ∀ ed ∈ create_cubical_network.edges,
      0 ≤ ed.source ∧ ed.source < (create_cubical_network.nodes.length : Int) := by decide
  have hvol : ∀ nd : SpinNode, nd.valence < 4 → volume_operator nd = Dbl.fin 0 := by
    intro nd h
    unfold volume_operator
    rw [if_pos h]
    norm_num
  -- the holonomies written by the two builders are finite
  have hft : holonomies_finite create_tetrahedral_network := by
    intro e he
    rw [hedges e he]
    exact ⟨⟨c, rfl, abs_le.mpr ⟨by linarith [hc.1], by linarith [hc.2]⟩⟩,
      ⟨d, rfl, abs_le.mpr ⟨by linarith [hd.1], by linarith [hd.2]⟩⟩⟩
  have hfc : holonomies_finite create_cubical_network := by
    have hq : (0.5 : ℝ) ≤ PI / 6.0 ∧ PI / 6.0 ≤ 0.6 := by
      unfold PI; constructor <;> norm_num
    have hangle : Dbl.div (Dbl.fin PI) (Dbl.fin 6.0) = Dbl.fin (PI / 6.0) := by
      show (if (6.0 : ℝ) = 0 then Dbl.inf_times true PI else Dbl.round (PI / 6.0)) = _
      rw [if_neg (by norm_num)]
      exact hround _ (abs_le.mpr ⟨by linarith [hq.1], by linarith [hq.2]⟩)
    have hH := su2_element_small (PI / 6.0) 0.3 0.3 0.4 (by norm_num) (by norm_num)
      (by norm_num)
    rw [← hangle] at hH
    intro e he
    have hE : create_cubical_network.edges = cubical_edge_definitions.enum.map
        (fun p => init_edge
          (su2_element (Dbl.div (Dbl.fin PI) (Dbl.fin 6.0)) (Dbl.fin 0.3) (Dbl.fin 0.3)
            (Dbl.fin 0.4)) p.1 p.2) := rfl
    rw [hE] at he
    obtain ⟨p, _, hp⟩ := List.mem_map.mp he
    have he2 : e.holonomy = su2_element (Dbl.div (Dbl.fin PI) (Dbl.fin 6.0)) (Dbl.fin 0.3)
        (Dbl.fin 0.3) (Dbl.fin 0.4) := by rw [← hp]; rfl
    rw [he2, hH]
    have hs1 := Real.neg_one_le_sin (PI / 6.0)
    have hs2 := Real.sin_le_one (PI / 6.0)
    have hc1 := Real.neg_one_le_cos (PI / 6.0)
    have hc2 := Real.cos_le_one (PI / 6.0)
    exact ⟨⟨_, rfl, abs_le.mpr ⟨by linarith, by linarith⟩⟩,
      ⟨_, rfl, abs_le.mpr ⟨by norm_num; linarith, by norm_num; linarith⟩⟩⟩
  -- after any steps
  have hafter : ∀ (foam : SpinFoam), (∀ nd ∈ foam.nodes, nd.valence < 4) →
      holonomies_finite foam →
      (∀ ed ∈ foam.edges, 0 ≤ ed.source ∧ ed.source < (foam.nodes.length : Int)) →
      ∀ steps : List Dbl,
      (holonomies_finite (steps.foldl evolve_spin_network foam) →
        hamiltonian_constraint (steps.foldl evolve_spin_network foam) =
          { re := Dbl.fin 0, im := Dbl.fin 0 }) ∧
      (¬ holonomies_finite (steps.foldl evolve_spin_network foam) →
        (hamiltonian_constraint (steps.foldl evolve_spin_network foam)).re = Dbl.nan ∨
        (hamiltonian_constraint (steps.foldl evolve_spin_network foam)).im = Dbl.nan) := by
    intro foam hv hf hs steps
    have hv2 : ∀ nd ∈ (steps.foldl evolve_spin_network foam).nodes, nd.valence < 4 := by
      rw [hnodes]
      exact hv
    have hinv := evolve_invariant steps foam
      (fun ed hed => ⟨⟨Or.inl (hf ed hed).1, Or.inl (hf ed hed).2⟩, hs ed hed⟩)
    obtain ⟨hzero, hbad⟩ := hamiltonian_low_valence _ hv2
    refine ⟨hzero, fun hnf => ?_⟩
    unfold holonomies_finite at hnf
    push_neg at hnf
    obtain ⟨e, he, hne⟩ := hnf
    obtain ⟨⟨hre, him⟩, hsrc⟩ := hinv e he
    obtain ⟨b1, b2⟩ := hbad e he hsrc
    rcases hre with hre | hre
    · rcases him with him | him
      · exact absurd ⟨hre, him⟩ hne
      · exact Or.inr (b2 him)
    · exact Or.inl (b1 hre)
  refine ⟨?_, ?_, ?_, ?_, ?_⟩
  · exact (hamiltonian_low_valence _ hvt).1 hft
  · exact (hamiltonian_low_valence _ hvc).1 hfc
  · intro steps
    obtain ⟨t1, t2⟩ := hafter _ hvt hft hst steps
    obtain ⟨c1, c2⟩ := hafter _ hvc hfc hsc steps
    exact ⟨t1, t2, c1, c2⟩
  · exact fun nd hnd => ⟨h3t nd hnd, hvol nd (hvt nd hnd)⟩
  · exact fun nd hnd => ⟨h3c nd hnd, hvol nd (hvc nd hnd)⟩

/-- Bounds on the results of the operations on bounded finite doubles, as long as the
bound of the result does not exceed `DBL_MAX`. -/
theorem bounded_rules :
    (∀ (M N : ℝ) (a : Dbl), a.bounded M → M ≤ N → a.bounded N) ∧
    (∀ (M N : ℝ) (a b : Dbl), a.bounded M → b.bounded N → M + N ≤ DBL_MAX →
      (Dbl.add a b).bounded (M + N)) ∧
    (∀ (M N : ℝ) (a b : Dbl), a.bounded M → b.bounded N → M * N ≤ DBL_MAX →
      (Dbl.mul a b).bounded (M * N)) ∧
    (∀ (M : ℝ) (a : Dbl), a.bounded M → M ≤ DBL_MAX → (Dbl.div a (Dbl.fin 2.0)).bounded M) ∧
    (∀ (M N : ℝ) (z w : CDbl), z.bounded M → w.bounded N → M + N ≤ DBL_MAX →
      (CDbl.add z w).bounded (M + N)) ∧
    (∀ (M N : ℝ) (z w : CDbl), z.bounded M → w.bounded N → M * N + M * N ≤ DBL_MAX →
      (CDbl.mul z w).bounded (M * N + M * N)) ∧
    (∀ (M : ℝ) (z : CDbl), z.bounded M → 0 ≤ M) ∧
    (∀ (M N : ℝ) (z : CDbl), z.bounded M → M ≤ N → z.bounded N) := by
  obtain ⟨_, _, _, hround, _, _⟩ := round_facts
  obtain ⟨add_ff, sub_ff, mul_ff, div_two, _⟩ := dbl_rules
  have hmono : ∀ (M N : ℝ) (a : Dbl), a.bounded M → M ≤ N → a.bounded N := by
    intro M N a h hMN
    obtain ⟨x, hx, hb⟩ := h
    exact ⟨x, hx, le_trans hb hMN⟩
  have hadd : ∀ (M N : ℝ) (a b : Dbl), a.bounded M → b.bounded N → M + N ≤ DBL_MAX →
      (Dbl.add a b).bounded (M + N) := by
    intro M N a b ha hb hr
    obtain ⟨x, rfl, hx⟩ := ha
    obtain ⟨y, rfl, hy⟩ := hb
    have h : |x + y| ≤ M + N := le_trans (abs_add x y) (add_le_add hx hy)
    exact ⟨x + y, by rw [add_ff, hround _ (le_trans h hr)], h⟩
  have hsub : ∀ (M N : ℝ) (a b : Dbl), a.bounded M → b.bounded N → M + N ≤ DBL_MAX →
      (Dbl.sub a b).bounded (M + N) := by
    intro M N a b ha hb hr
    obtain ⟨x, rfl, hx⟩ := ha
    obtain ⟨y, rfl, hy⟩ := hb
    have h : |x - y| ≤ M + N := le_trans (abs_sub x y) (add_le_add hx hy)
    exact ⟨x - y, by rw [sub_ff, hround _ (le_trans h hr)], h⟩
  have hmul : ∀ (M N : ℝ) (a b : Dbl), a.bounded M → b.bounded N → M * N ≤ DBL_MAX →
      (Dbl.mul a b).bounded (M * N) := by
    intro M N a b ha hb hr
    obtain ⟨x, rfl, hx⟩ := ha
    obtain ⟨y, rfl, hy⟩ := hb
    have h : |x * y| ≤ M * N := by
      rw [abs_mul]
      exact mul_le_mul hx hy (abs_nonneg y) (le_trans (abs_nonneg x) hx)
    exact ⟨x * y, by rw [mul_ff, hround _ (le_trans h hr)], h⟩
  have hdiv : ∀ (M : ℝ) (a : Dbl), a.bounded M → M ≤ DBL_MAX →
      (Dbl.div a (Dbl.fin 2.0)).bounded M := by
    intro M a ha hr
    obtain ⟨x, rfl, hx⟩ := ha
    have h : |x / 2| ≤ M := by
      rw [abs_div, abs_two]
      linarith [abs_nonneg x]
    exact ⟨x / 2, by rw [div_two, hround _ (le_trans h hr)], h⟩
  have hnn : ∀ (M : ℝ) (z : CDbl), z.bounded M → 0 ≤ M := by
    intro M z h
    obtain ⟨x, _, hx⟩ := h.1
    exact le_trans (abs_nonneg x) hx
  refine ⟨hmono, hadd, hmul, hdiv, ?_, ?_, hnn, ?_⟩
  · exact fun M N z w hz hw hr => ⟨hadd M N _ _ hz.1 hw.1 hr, hadd M N _ _ hz.2 hw.2 hr⟩
  · intro M N z w hz hw hr
    have hMN : 0 ≤ M * N := mul_nonneg (hnn M z hz) (hnn N w hw)
    have h1 : M * N ≤ DBL_MAX := by linarith
    exact ⟨hsub _ _ _ _ (hmul M N _ _ hz.1 hw.1 h1) (hmul M N _ _ hz.2 hw.2 h1) hr,
      hadd _ _ _ _ (hmul M N _ _ hz.1 hw.2 h1) (hmul M N _ _ hz.2 hw.1 h1) hr⟩
  · exact fun M N z hz hMN => ⟨hmono M N _ hz.1 hMN, hmono M N _ hz.2 hMN⟩

/-- The curvature at any node of a graph with `n` edges whose holonomies are bounded
by `M` is bounded by `n * n * (M * M + M * M)`: the loops add at most one
product per pair of edges. -/
theorem curvature_operator_bounded (M : ℝ) (foam : SpinFoam)
    (hb : ∀ e ∈ foam.edges, e.holonomy.bounded M) (node_id : Int)
    (hr : (foam.edges.length : ℝ) * (foam.edges.length : ℝ) * (M * M + M * M) ≤ DBL_MAX) :
    (curvature_operator foam node_id).bounded
      ((foam.edges.length : ℝ) * (foam.edges.length : ℝ) * (M * M + M * M)) := by
  obtain ⟨hbig, _, _, hround, _, _⟩ := round_facts
  obtain ⟨add_ff, _, mul_ff, _⟩ := dbl_rules
  obtain ⟨_, _, _, _, cadd, cmul, cnn, cmono⟩ := bounded_rules
  have hp : (0 : ℝ) < DBL_MAX := lt_of_lt_of_le (by positivity) hbig
  have r0 : Dbl.round 0 = Dbl.fin 0 := hround 0 (by rw [abs_zero]; exact le_of_lt hp)
  have hMM : 0 ≤ M * M + M * M := by nlinarith [mul_self_nonneg M]
  have hZ : CDbl.real_add (Dbl.fin 0.0) (CDbl.real_mul (Dbl.fin 0.0) CDbl.I) =
      { re := Dbl.fin 0, im := Dbl.fin 0 } := by
    unfold CDbl.real_add CDbl.real_mul CDbl.I
    simp only [show (0.0 : ℝ) = 0 by norm_num, mul_ff, add_ff, mul_zero, mul_one, add_zero, r0]
  have hinner : ∀ (ei : SpinEdge), ei.holonomy.bounded M → ∀ (rest : List SpinEdge),
      (∀ e ∈ rest, e.holonomy.bounded M) → ∀ (A : ℝ) (acc : CDbl), acc.bounded A →
      A + (rest.length : ℝ) * (M * M + M * M) ≤ DBL_MAX →
      (rest.foldl (fun curvature ej =>
        if (ei.source = node_id ∧ ej.target = node_id) ∨
            (ei.target = node_id ∧ ej.source = node_id) then
          CDbl.add curvature (CDbl.mul ei.holonomy ej.holonomy)
        else curvature) acc).bounded (A + (rest.length : ℝ) * (M * M + M * M)) := by
    intro ei hei rest
    induction rest with
    | nil =>
      intro _ A acc hacc _
      simp only [List.foldl_nil, List.length_nil, Nat.cast_zero, zero_mul, add_zero]
      exact hacc
    | cons ej rest ih =>
      intro hrest A acc hacc hr
      have hlen : ((ej :: rest).length : ℝ) = (rest.length : ℝ) + 1 := by
        simp only [List.length_cons, Nat.cast_add, Nat.cast_one]
      rw [hlen] at hr ⊢
      have hrest0 : 0 ≤ (rest.length : ℝ) * (M * M + M * M) :=
        mul_nonneg (Nat.cast_nonneg _) hMM
      have hA : 0 ≤ A := cnn A acc hacc
      rw [List.foldl_cons]
      have hstep : (if (ei.source = node_id ∧ ej.target = node_id) ∨
            (ei.target = node_id ∧ ej.source = node_id) then
          CDbl.add acc (CDbl.mul ei.holonomy ej.holonomy) else acc).bounded
          (A + (M * M + M * M)) := by
        by_cases hc : (ei.source = node_id ∧ ej.target = node_id) ∨
            (ei.target = node_id ∧ ej.source = node_id)
        · rw [if_pos hc]
          exact cadd _ _ _ _ hacc
            (cmul M M _ _ hei (hrest ej (List.mem_cons_self _ _)) (by nlinarith))
            (by nlinarith)
        · rw [if_neg hc]
          exact cmono _ _ _ hacc (by linarith)
      have h := ih (fun e he => hrest e (List.mem_cons_of_mem _ he)) (A + (M * M + M * M)) _
        hstep (by nlinarith)
      have heq : A + (M * M + M * M) + (rest.length : ℝ) * (M * M + M * M) =
          A + ((rest.length : ℝ) + 1) * (M * M + M * M) := by ring
      rw [heq] at h
      exact h
  have houter : ∀ (l : List SpinEdge), (∀ e ∈ l, e.holonomy.bounded M) →
      ∀ (A : ℝ) (acc : CDbl), acc.bounded A →
      A + (l.length : ℝ) * (l.length : ℝ) * (M * M + M * M) ≤ DBL_MAX →
      (curvature_outer node_id l acc).bounded
        (A + (l.length : ℝ) * (l.length : ℝ) * (M * M + M * M)) := by
    intro l
    induction l with
    | nil =>
      intro _ A acc hacc _
      simp only [List.length_nil, Nat.cast_zero, zero_mul, add_zero]
      exact hacc
    | cons ei rest ih =>
      intro hl A acc hacc hr
      have hlen : ((ei :: rest).length : ℝ) = (rest.length : ℝ) + 1 := by
        simp only [List.length_cons, Nat.cast_add, Nat.cast_one]
      rw [hlen] at hr ⊢
      have hn : (0 : ℝ) ≤ (rest.length : ℝ) := Nat.cast_nonneg _
      have h1 : 0 ≤ (rest.length : ℝ) * (M * M + M * M) := mul_nonneg hn hMM
      have h2 : 0 ≤ (rest.length : ℝ) * (rest.length : ℝ) * (M * M + M * M) :=
        mul_nonneg (mul_nonneg hn hn) hMM
      have hexp : ((rest.length : ℝ) + 1) * ((rest.length : ℝ) + 1) * (M * M + M * M) =
          (rest.length : ℝ) * (rest.length : ℝ) * (M * M + M * M) +
            2 * ((rest.length : ℝ) * (M * M + M * M)) + (M * M + M * M) := by ring
      have hin := hinner ei (hl ei (List.mem_cons_self _ _)) rest
        (fun e he => hl e (List.mem_cons_of_mem _ he)) A acc hacc (by linarith)
      have hout := ih (fun e he => hl e (List.mem_cons_of_mem _ he))
        (A + (rest.length : ℝ) * (M * M + M * M)) _ hin (by linarith)
      exact cmono _ _ _ hout (by linarith)
  have h0 : (CDbl.real_add (Dbl.fin 0.0) (CDbl.real_mul (Dbl.fin 0.0) CDbl.I)).bounded 0 := by
    rw [hZ]
    exact ⟨⟨0, rfl, le_of_eq abs_zero⟩, ⟨0, rfl, le_of_eq abs_zero⟩⟩
  have h := houter foam.edges hb 0 _ h0 (by linarith)
  rw [zero_add] at h
  exact h

/-- The evolution loop over the index list `l` with the finite time step `tau` keeps the
holonomies below `B` when they start below `M` with `M * 4 ^ l.length <= B` and
the time step is small against the curvature of holonomies of size `B`: one pass
at most quadruples the bound. -/
theorem evolve_loop_bounded (T B tau : ℝ) (htau : |tau| ≤ T) (hTmax : T ≤ DBL_MAX)
    (l : List Nat) (foam : SpinFoam) (M : ℝ)
    (hb : ∀ e ∈ foam.edges, e.holonomy.bounded M) (hM : 0 ≤ M)
    (hMB : M * 4 ^ l.length ≤ B)
    (hK : 2 * ((foam.edges.length : ℝ) * (foam.edges.length : ℝ) * (B * B + B * B)) ≤ DBL_MAX)
    (hQ : 4 * (T * ((foam.edges.length : ℝ) * (foam.edges.length : ℝ) * (B * B + B * B))) ≤ 1)
    (h4 : B ≤ DBL_MAX) :
    ∀ e ∈ (l.foldl (evolve_edge (Dbl.fin tau)) foam).edges, e.holonomy.bounded B := by
  obtain ⟨hD, _, _, hround, _, _⟩ := round_facts
  obtain ⟨hmono, hadd, hmul, hdiv, cadd, cmul, _, cmono⟩ := bounded_rules
  obtain ⟨hframe, _, _, _⟩ := evolve_frames
  have hT : 0 ≤ T := le_trans (abs_nonneg tau) htau
  have hedge : ∀ (M : ℝ) (foam : SpinFoam) (e : Nat),
      (∀ e ∈ foam.edges, e.holonomy.bounded M) → 0 ≤ M →
      2 * ((foam.edges.length : ℝ) * (foam.edges.length : ℝ) * (M * M + M * M)) ≤ DBL_MAX →
      4 * (T * ((foam.edges.length : ℝ) * (foam.edges.length : ℝ) * (M * M + M * M))) ≤ 1 →
      4 * M ≤ DBL_MAX →
      ∀ ed ∈ (evolve_edge (Dbl.fin tau) foam e).edges, ed.holonomy.bounded (4 * M) := by
    intro M foam e hb hM hK hQ h4
    have hKnn : 0 ≤ (foam.edges.length : ℝ) * (foam.edges.length : ℝ) * (M * M + M * M) :=
      mul_nonneg (mul_nonneg (Nat.cast_nonneg _) (Nat.cast_nonneg _)) (by nlinarith)
    have hold : ∀ e ∈ foam.edges, e.holonomy.bounded (4 * M) := fun ed hed =>
      cmono _ _ _ (hb ed hed) (by linarith)
    unfold evolve_edge
    cases hed : foam.edges[e]? with
    | none => exact hold
    | some ed =>
      intro ed2 hmem
      rcases List.mem_or_eq_of_mem_set hmem with h1 | h1
      · exact hold ed2 h1
      · rw [h1]
        have hcs := curvature_operator_bounded M foam hb ed.source (by linarith)
        have hct := curvature_operator_bounded M foam hb ed.target (by linarith)
        have hsum := cadd _ _ _ _ hcs hct (by linarith)
        have hI : (CDbl.mul_real CDbl.I (Dbl.fin tau)).bounded (1 * T) := by
          constructor
          · exact hmul 1 T (Dbl.fin 0) (Dbl.fin tau)
              ⟨0, rfl, by rw [abs_zero]; norm_num⟩ ⟨tau, rfl, htau⟩ (by linarith)
          · exact hmul 1 T (Dbl.fin 1) (Dbl.fin tau)
              ⟨1, rfl, by rw [abs_one]⟩ ⟨tau, rfl, htau⟩ (by linarith)
        have hprod := cmul _ _ _ _ hI hsum (by nlinarith)
        have hQ1 : 1 * T * ((foam.edges.length : ℝ) * (foam.edges.length : ℝ) * (M * M + M * M) +
            (foam.edges.length : ℝ) * (foam.edges.length : ℝ) * (M * M + M * M)) +
            1 * T * ((foam.edges.length : ℝ) * (foam.edges.length : ℝ) * (M * M + M * M) +
            (foam.edges.length : ℝ) * (foam.edges.length : ℝ) * (M * M + M * M)) ≤ 1 := by
          nlinarith
        have hhalf : (CDbl.div_real (CDbl.mul (CDbl.mul_real CDbl.I (Dbl.fin tau))
            (CDbl.add (curvature_operator foam ed.source) (curvature_operator foam ed.target)))
            (Dbl.fin 2.0)).bounded 1 :=
          ⟨hdiv 1 _ (hmono _ _ _ hprod.1 hQ1) (by linarith),
            hdiv 1 _ (hmono _ _ _ hprod.2 hQ1) (by linarith)⟩
        have hU : (CDbl.real_add (Dbl.fin 1.0)
            (CDbl.div_real (CDbl.mul (CDbl.mul_real CDbl.I (Dbl.fin tau))
              (CDbl.add (curvature_operator foam ed.source) (curvature_operator foam ed.target)))
              (Dbl.fin 2.0))).bounded (1 + 1) := by
          constructor
          · exact hadd 1 1 (Dbl.fin 1.0) _
              ⟨1.0, rfl, by norm_num⟩ hhalf.1 (by linarith)
          · exact hmono _ _ _ hhalf.2 (by norm_num)
        have hnew := cmul M (1 + 1) _ _ (hb ed (List.getElem?_mem hed)) hU (by linarith)
        exact cmono _ _ _ hnew (by linarith)
  induction l generalizing foam M with
  | nil =>
    simp only [List.length_nil, pow_zero, mul_one] at hMB
    exact fun ed hed => cmono _ _ _ (hb ed hed) hMB
  | cons e l ih =>
    rw [List.foldl_cons]
    have hpow : (1 : ℝ) ≤ 4 ^ l.length := one_le_pow₀ (by norm_num)
    have hlen : M * 4 ^ (e :: l).length = 4 * M * 4 ^ l.length := by
      simp only [List.length_cons]
      ring
    rw [hlen] at hMB
    have h4M : 4 * M ≤ B := by nlinarith
    have hMB1 : M ≤ B := by linarith
    have hnn : (0 : ℝ) ≤ (foam.edges.length : ℝ) * (foam.edges.length : ℝ) :=
      mul_nonneg (Nat.cast_nonneg _) (Nat.cast_nonneg _)
    have hsq : M * M + M * M ≤ B * B + B * B := by nlinarith
    have hKM : (foam.edges.length : ℝ) * (foam.edges.length : ℝ) * (M * M + M * M) ≤
        (foam.edges.length : ℝ) * (foam.edges.length : ℝ) * (B * B + B * B) :=
      mul_le_mul_of_nonneg_left hsq hnn
    have hstep := hedge M foam e hb hM (by linarith) (by nlinarith) (by linarith)
    apply ih (evolve_edge (Dbl.fin tau) foam e) (4 * M) hstep (by linarith) hMB
    · rw [(hframe _ foam e).2.1]; exact hK
    · rw [(hframe _ foam e).2.1]; exact hQ

/-- C23, witness of the amended statement: after the step of the demonstration in
`main`, `evolve_spin_network(foam, T_PLANCK)` on the tetrahedral network, every
holonomy is finite and `hamiltonian_constraint` is still `0 + 0i`. -/
theorem hamiltonian_zero_while_finite_witness :
    holonomies_finite (evolve_spin_network create_tetrahedral_network (Dbl.fin T_PLANCK)) ∧
    hamiltonian_constraint (evolve_spin_network create_tetrahedral_network (Dbl.fin T_PLANCK)) =
      { re := Dbl.fin 0, im := Dbl.fin 0 } := by
  obtain ⟨hD, _⟩ := round_facts
  obtain ⟨c, d, _, _, hc, hd, _, _, hedges, _⟩ := tetrahedral_facts
  have hb : ∀ e ∈ create_tetrahedral_network.edges, e.holonomy.bounded 2 := by
    intro e he
    rw [hedges e he]
    exact ⟨⟨c, rfl, abs_le.mpr ⟨by linarith [hc.1], by linarith [hc.2]⟩⟩,
      ⟨d, rfl, abs_le.mpr ⟨by linarith [hd.1], by linarith [hd.2]⟩⟩⟩
  have hlen : create_tetrahedral_network.edges.length = 6 := rfl
  have hbig : (10 : ℝ) ^ 11 ≤ 10 ^ 308 := by norm_num
  have hB := evolve_loop_bounded T_PLANCK 8192 T_PLANCK
    (le_of_eq (abs_of_pos (by unfold T_PLANCK; norm_num)))
    (le_trans (by unfold T_PLANCK; norm_num) hD)
    (List.range create_tetrahedral_network.edges.length) create_tetrahedral_network 2 hb
    (by norm_num) (by rw [List.length_range, hlen]; norm_num)
    (by rw [hlen]; push_cast; linarith) (by rw [hlen]; unfold T_PLANCK; push_cast; norm_num)
    (by linarith)
  have hfin : holonomies_finite
      (evolve_spin_network create_tetrahedral_network (Dbl.fin T_PLANCK)) := by
    intro e he
    obtain ⟨⟨x, hx, hxb⟩, ⟨y, hy, hyb⟩⟩ := hB e he
    exact ⟨⟨x, hx, le_trans hxb (by linarith)⟩, ⟨y, hy, le_trans hyb (by linarith)⟩⟩
  exact ⟨hfin, (hamiltonian_zero_while_finite.2.2.1 [Dbl.fin T_PLANCK]).1 hfin⟩

end Ieee

end LQG
